import Mathlib

/-!
# Verification of the `movable-tree` library

A shallow embedding, in Lean 4, of the Rust sources of `loro-dev/movable-tree`:

* `src/tree.rs`      — persistent forest (`Forest.movP`, …), used by the snapshot CRDT;
* `src/mut_tree.rs`  — mutable forest (`Forest.movM`, `delete`, `undoDelete`, …);
* `src/log_spaced_snapshots.rs` — the log-spaced snapshot cache;
* `src/crdt.rs`      — the snapshot-variant CRDT replica (`Crdt`);
* `src/crdt_undo.rs` — the undo-variant CRDT replica (`CrdtUndo`).

Machine integers (`u32` lamports, `u64` clients, `usize` indices) are modelled
as `Nat`; no operation in the claims' scope approaches an overflow boundary.
Rust panics (failed `assert!`, `unwrap`, `unreachable!`, the explicit
`panic!("loop detected")`) are modelled by returning `none`.  Hash maps with
extensional equality (`FxHashMap`, `im::HashMap`) are modelled as canonical
association lists sorted strictly by key, so that Rust's map equality is Lean's
structural equality of the representation.
-/

namespace MovableTree

/-- Operation identifier, `ID { lamport, client }` of `crdt.rs` / `crdt_undo.rs`.
The derived Rust `Ord` is lexicographic in field order `(lamport, client)`. -/
@[ext]
structure ID where
  lamport : Nat
  client : Nat
deriving DecidableEq, Repr

/-- The lexicographic key of an `ID`, realising the derived Rust `Ord`. -/
def ID.key (i : ID) : Lex (Nat × Nat) := toLex (i.lamport, i.client)

theorem ID.key_injective : Function.Injective ID.key := by
  intro a b h
  have h' : (a.lamport, a.client) = (b.lamport, b.client) := congrArg (ofLex ·) h
  ext
  · exact congrArg Prod.fst h'
  · exact congrArg Prod.snd h'

instance : LinearOrder ID := LinearOrder.lift' ID.key ID.key_injective

theorem ID.lt_def {a b : ID} :
    a < b ↔ a.lamport < b.lamport ∨ (a.lamport = b.lamport ∧ a.client < b.client) := by
  have h : a < b ↔ toLex (a.lamport, a.client) < toLex (b.lamport, b.client) := Iff.rfl
  rw [h, Prod.Lex.lt_iff]

theorem ID.le_def {a b : ID} :
    a ≤ b ↔ a.lamport < b.lamport ∨ (a.lamport = b.lamport ∧ a.client ≤ b.client) := by
  have h : a ≤ b ↔ toLex (a.lamport, a.client) ≤ toLex (b.lamport, b.client) := Iff.rfl
  rw [h, Prod.Lex.le_iff]

/-- `TreeNode { parent, deleted }`, shared shape of `tree.rs` and `mut_tree.rs`.
(`tree.rs`'s node has no uses of `deleted` besides `delete`/equality, and the
snapshot CRDT only ever calls `mov` and `delete`; both files' nodes carry
exactly these two fields.) -/
@[ext]
structure TreeNode where
  parent : Option ID
  deleted : Bool
deriving DecidableEq, Repr

/-- A forest, `Forest { map: HashMap<ID, TreeNode> }`: modelled as an
association list sorted strictly by key — the canonical representative of the
underlying finite map, so structural equality coincides with the Rust map
equality used by `Forest::eq`. -/
abbrev Forest := List (ID × TreeNode)

/-- `map.get(&k)` on the association list. -/
def fget (f : Forest) (k : ID) : Option TreeNode :=
  match f with
  | [] => none
  | (k', v) :: rest => if k = k' then some v else fget rest k

/-- `map.insert(k, v)` (also covering `get_mut` updates): sorted upsert,
keeping the representation canonical. -/
def finsert (f : Forest) (k : ID) (v : TreeNode) : Forest :=
  match f with
  | [] => [(k, v)]
  | (k', v') :: rest =>
    if k < k' then (k, v) :: (k', v') :: rest
    else if k = k' then (k, v) :: rest
    else (k', v') :: finsert rest k v

/-- Fuelled parent-chain walk: the body of the `loop` in `is_ancestor_of`
(identical in `tree.rs` and `mut_tree.rs`).  `none` models a panic — either
the `unwrap` on a missing node, the `panic!("loop detected")` on a
self-pointing parent, or fuel exhaustion (the Rust loop not terminating). -/
def isAncestorOfAux (f : Forest) (maybeAnc : ID) : Nat → ID → Option Bool
  | 0, _ => none
  | fuel + 1, nodeId =>
    match fget f nodeId with
    | none => none
    | some node =>
      match node.parent with
      | some p =>
        if p = maybeAnc then some true
        else if p = nodeId then none
        else isAncestorOfAux f maybeAnc fuel p
      | none => some false

/-- `is_ancestor_of(maybe_ancestor, node_id)` of `tree.rs`/`mut_tree.rs`.
The Rust loop is unbounded; fuel `f.length + 1` is enough for every
well-formed forest (proved below), and exhaustion is reported as `none`. -/
def isAncestorOf (f : Forest) (maybeAnc nodeId : ID) : Option Bool :=
  if maybeAnc = nodeId then some true
  else isAncestorOfAux f maybeAnc (f.length + 1) nodeId

/-- `mut_tree.rs`'s `Forest::mov`.  `some (.error ())` is the
`Err(Error::CyclicMoveErr)` return (state unchanged), `none` a panic.
The `parent_id == None` branch re-inserts the node as a root *preserving* its
`deleted` flag. -/
def Forest.movM (f : Forest) (nodeId : ID) (parentId : Option ID) :
    Option (Except Unit Forest) :=
  let contained := (fget f nodeId).isSome
  let deleted := ((fget f nodeId).map TreeNode.deleted).getD false
  match parentId with
  | none => some (.ok (finsert f nodeId ⟨none, deleted⟩))
  | some p =>
    if (fget f p).isSome then
      if contained then
        match isAncestorOf f nodeId p with
        | none => none
        | some true => some (.error ())
        | some false => some (.ok (finsert f nodeId ⟨some p, deleted⟩))
      else some (.ok (finsert f nodeId ⟨some p, false⟩))
    else none

/-- `tree.rs`'s `Forest::mov` (persistent variant).  Identical to
`Forest.movM` except that the `parent_id == None` branch inserts
`TreeNode { parent: None, deleted: false }`, clearing any `deleted` flag. -/
def Forest.movP (f : Forest) (nodeId : ID) (parentId : Option ID) :
    Option (Except Unit Forest) :=
  let contained := (fget f nodeId).isSome
  let deleted := ((fget f nodeId).map TreeNode.deleted).getD false
  match parentId with
  | none => some (.ok (finsert f nodeId ⟨none, false⟩))
  | some p =>
    if (fget f p).isSome then
      if contained then
        match isAncestorOf f nodeId p with
        | none => none
        | some true => some (.error ())
        | some false => some (.ok (finsert f nodeId ⟨some p, deleted⟩))
      else some (.ok (finsert f nodeId ⟨some p, false⟩))
    else none

/-- `Forest::delete` (both files): `map.get_mut(&node_id).unwrap().deleted = true`,
`none` on the `unwrap` panic. -/
def Forest.delete (f : Forest) (nodeId : ID) : Option Forest :=
  (fget f nodeId).map fun n => finsert f nodeId ⟨n.parent, true⟩

/-- `mut_tree.rs`'s `Forest::undo_delete`. -/
def Forest.undoDelete (f : Forest) (nodeId : ID) : Option Forest :=
  (fget f nodeId).map fun n => finsert f nodeId ⟨n.parent, false⟩

/-! ## `log_spaced_snapshots.rs` -/

/-- `first_zero_bit(n) = (n + 1) & !n` on `usize`.  For `n < 2^64`, the
bitwise complement `!n` equals `2^64 - 1 - n`. -/
def firstZeroBit (n : Nat) : Nat := (n + 1) &&& (2 ^ 64 - 1 - n)

/-- `LogSpacedSnapshots { keys, cache, d }`.

Representation: `keys` holds the pushed versions *newest first* (the Rust
`Vec` stores them oldest first; the list is reversed so `push` is `O(1)`).
`cache` models the `BTreeMap<usize, V>` as an association list of
`(position, value)` pairs in *strictly decreasing* position order, positions
being 0-based indices into the original (oldest-first) key order; its head is
the Rust `last_key_value`. -/
structure LogSpacedSnapshots (K V : Type) where
  keys : List K
  cache : List (Nat × V)
  d : Nat
deriving DecidableEq, Repr

namespace LogSpacedSnapshots

variable {K V : Type} [LinearOrder K]

/-- `LogSpacedSnapshots::new(d)`. -/
def new (d : Nat) : LogSpacedSnapshots K V := ⟨[], [], d⟩

/-- `LogSpacedSnapshots::push` — `none` models the
`assert!(&version > last)` panic.  The new entry's position
`keys.len()` is larger than every retained position, so consing it keeps the
cache representation sorted. -/
def push (s : LogSpacedSnapshots K V) (version : K) (value : V) :
    Option (LogSpacedSnapshots K V) :=
  let newVersion := s.keys.length
  let delta := firstZeroBit newVersion <<< s.d
  let cache1 :=
    if delta ≤ newVersion then s.cache.filter (fun e => e.1 ≠ newVersion - delta)
    else s.cache
  let cache2 := (newVersion, value) :: cache1
  match s.keys.head? with
  | some last => if last < version then some ⟨version :: s.keys, cache2, s.d⟩ else none
  | none => some ⟨[version], cache2, s.d⟩

/-- `LogSpacedSnapshots::pop_till_snapshot_lte`.

`first_to_remove` is `keys.binary_search(k)` mapped via `Ok n => n + 1`,
`Err n => n`; on the sorted duplicate-free key sequence both cases equal the
number of stored keys `≤ k`, which is how it is computed here (order of the
reversed list is irrelevant to a count).  `keys.drain(j+1..)` keeps the oldest
`j+1` keys, i.e. drops the `len - (j+1)` newest. -/
def popTillSnapshotLte (s : LogSpacedSnapshots K V) (k : K) :
    Option (K × V) × LogSpacedSnapshots K V :=
  let firstToRemove := s.keys.countP (fun x => decide (x ≤ k))
  let cache' := s.cache.filter (fun e => decide (e.1 < firstToRemove))
  let keys' : List K :=
    match cache'.head? with
    | some e => s.keys.drop (s.keys.length - (e.1 + 1))
    | none => []
  let st : LogSpacedSnapshots K V := ⟨keys', cache', s.d⟩
  match keys'.head?, cache'.head? with
  | some kk, some e => (some (kk, e.2), st)
  | _, _ => (none, st)

/-- `LogSpacedSnapshots::cache_size`. -/
def cacheSize (s : LogSpacedSnapshots K V) : Nat := s.cache.length

end LogSpacedSnapshots

/-! ## Operations (`crdt.rs` / `crdt_undo.rs`) -/

/-- `OpContent` (identical in both CRDT files). -/
inductive OpContent where
  | new (parent : Option ID)
  | move (target : ID) (parent : Option ID)
  | delete (target : ID)
deriving DecidableEq, Repr

/-- `Op { id, content }`.  (Rust's `PartialEq`/`Ord` on `Op` compare by `id`
only; every comparison below goes through `Op.id`, matching that.) -/
structure Op where
  id : ID
  content : OpContent
deriving DecidableEq, Repr

/-- The comparison used by `Vec::sort` on ops: the Rust `Ord`, i.e. by `id`. -/
def opLE (a b : Op) : Prop := a.id ≤ b.id

instance : DecidableRel opLE := fun a b => inferInstanceAs (Decidable (a.id ≤ b.id))

/-- `Vec::sort` on ops: a stable sort by the Rust `Ord` (comparison by `id`);
insertion sort is stable, hence a faithful model. -/
def sortOps (l : List Op) : List Op :=
  l.insertionSort opLE

/-- Association-list view of the op log `HashMap<Client, Vec<Op>>`;
entries appear in first-insertion order. -/
abbrev OpLog := List (Nat × List Op)

/-- `log.get(client)`. -/
def logGet (log : OpLog) (c : Nat) : Option (List Op) :=
  match log with
  | [] => none
  | (c', ops) :: rest => if c = c' then some ops else logGet rest c

/-- `log.entry(client).or_default()` followed by appending `ops`. -/
def logAppend (log : OpLog) (c : Nat) (ops : List Op) : OpLog :=
  match log with
  | [] => [(c, ops)]
  | (c', ops') :: rest =>
    if c = c' then (c', ops' ++ ops) :: rest else (c', ops') :: logAppend rest c ops

/-- `forest.mov(..).unwrap_or_default()`: a `CyclicMoveErr` is swallowed and
the forest left unchanged; a panic (`none`) propagates. -/
def movSwallow (mov : Forest → ID → Option ID → Option (Except Unit Forest))
    (f : Forest) (nodeId : ID) (parentId : Option ID) : Option Forest :=
  match mov f nodeId parentId with
  | none => none
  | some (.error ()) => some f
  | some (.ok f') => some f'

/-! ## `crdt.rs` — snapshot-variant CRDT replica -/

/-- `crdt.rs`'s `Crdt` state. -/
structure Crdt where
  forest : Forest
  cache : LogSpacedSnapshots ID Forest
  client : Nat
  greatestLamport : Nat
  log : OpLog
  sortedOps : List Op
  appliedEnd : Nat
deriving DecidableEq, Repr

namespace Crdt

/-- `Crdt::new(client)` — `cache: Default::default()` is
`LogSpacedSnapshots::new(2)` per the `Default` impl in
`log_spaced_snapshots.rs`. -/
def new (client : Nat) : Crdt :=
  ⟨[], LogSpacedSnapshots.new 2, client, 0, [], [], 0⟩

/-- `Crdt::push_op`. -/
def pushOp (s : Crdt) (op : Op) : Crdt :=
  { s with log := logAppend s.log s.client [op], sortedOps := s.sortedOps ++ [op] }

/-- `Crdt::new_id` (returns the id and the bumped state). -/
def newId (s : Crdt) : ID × Crdt :=
  (⟨s.greatestLamport, s.client⟩, { s with greatestLamport := s.greatestLamport + 1 })

/-- One iteration of the `apply_pending_ops` loop: apply the op to the forest
(cyclic moves swallowed), then `cache.push(op.id, forest.clone())`. -/
def applyStep (acc : Forest × LogSpacedSnapshots ID Forest) (op : Op) :
    Option (Forest × LogSpacedSnapshots ID Forest) := do
  let f ←
    match op.content with
    | .new parent => movSwallow Forest.movP acc.1 op.id parent
    | .move target parent => movSwallow Forest.movP acc.1 target parent
    | .delete target => Forest.delete acc.1 target
  let c ← acc.2.push op.id f
  pure (f, c)

/-- `Crdt::apply_pending_ops`. -/
def applyPendingOps (s : Crdt) : Option Crdt := do
  let (f, c) ← (s.sortedOps.drop s.appliedEnd).foldlM applyStep (s.forest, s.cache)
  pure { s with forest := f, cache := c, appliedEnd := s.sortedOps.length }

/-- `Crdt::new_node`. -/
def newNode (s : Crdt) (parent : Option ID) : Option (Crdt × ID) := do
  let (i, s1) := s.newId
  let s2 ← (s1.pushOp ⟨i, .new parent⟩).applyPendingOps
  pure (s2, i)

/-- `Crdt::mov`. -/
def mov (s : Crdt) (target : ID) (parent : Option ID) : Option Crdt := do
  let (i, s1) := s.newId
  (s1.pushOp ⟨i, .move target parent⟩).applyPendingOps

/-- `Crdt::delete`. -/
def delete (s : Crdt) (target : ID) : Option Crdt := do
  let (i, s1) := s.newId
  (s1.pushOp ⟨i, .delete target⟩).applyPendingOps

/-- The first loop of `Crdt::merge`: walk `other.log` (in association-list
order; the Rust `HashMap` iteration order is unspecified), append each
client's unseen suffix to the local log, collect it into `ans`, and raise
`greatest_lamport` to any larger incoming lamport (note: no `+ 1`). -/
def collectStep (acc : Crdt × List Op) (e : Nat × List Op) : Crdt × List Op :=
  let selfStart := ((logGet acc.1.log e.1).map List.length).getD 0
  if e.2.length > selfStart then
    let inc := e.2.drop selfStart
    ({ acc.1 with
        log := logAppend acc.1.log e.1 inc,
        greatestLamport := inc.foldl
          (fun g op => if g < op.id.lamport then op.id.lamport else g)
          acc.1.greatestLamport },
      acc.2 ++ inc)
  else acc

def collectIncoming (s other : Crdt) : Crdt × List Op :=
  other.log.foldl collectStep (s, [])

/-- `Crdt::merge` after the incoming ops have been collected and sorted:
the rewind step (restore a snapshot, or schedule a full replay), *without*
the final `apply_pending_ops` call. -/
def mergeRewind (s1 : Crdt) (ansS : List Op) (startId : ID) : Option Crdt :=
  match s1.cache.popTillSnapshotLte startId with
  | (some (idv, snapshot), cache') =>
    match s1.sortedOps.findIdx? (fun o => o.id = idv) with
    | none => none
    | some last =>
      let kept := s1.sortedOps.take (last + 1)
      let drained := s1.sortedOps.drop (last + 1)
      some { s1 with
        cache := cache', forest := snapshot,
        sortedOps := kept ++ sortOps (ansS ++ drained),
        appliedEnd := kept.length }
  | (none, cache') =>
    some { s1 with
      cache := cache',
      sortedOps := sortOps (ansS ++ s1.sortedOps),
      appliedEnd := 0 }

/-- `Crdt::merge`.  `binary_search_by_key(&id, |x| &x.id).unwrap()` on the
sorted duplicate-free `sorted_ops` is the unique index whose op has that id,
modelled by `findIdx?` inside `mergeRewind`. -/
def merge (s other : Crdt) : Option Crdt :=
  let (s1, ans) := collectIncoming s other
  if ans.isEmpty then some s1
  else
    let ansS := sortOps ans
    match ansS.head? with
    | none => none
    | some first => do
      let s2 ← mergeRewind s1 ansS first.id
      s2.applyPendingOps

end Crdt

/-! ## `crdt_undo.rs` — undo-variant CRDT replica -/

/-- `crdt_undo.rs`'s `OpTuple { op, old_parent }`. -/
structure OpTuple where
  op : Op
  oldParent : Option ID
deriving DecidableEq, Repr

/-- `crdt_undo.rs`'s `Crdt` state. -/
structure CrdtUndo where
  forest : Forest
  client : Nat
  nextLamport : Nat
  log : OpLog
  sortedOps : List OpTuple
  appliedEnd : Nat
deriving DecidableEq, Repr

namespace CrdtUndo

/-- `Crdt::new(client)` of `crdt_undo.rs`. -/
def new (client : Nat) : CrdtUndo := ⟨[], client, 0, [], [], 0⟩

/-- `Crdt::push_op` of `crdt_undo.rs`: the fresh tuple's `old_parent` is `None`. -/
def pushOp (s : CrdtUndo) (op : Op) : CrdtUndo :=
  { s with log := logAppend s.log s.client [op],
           sortedOps := s.sortedOps ++ [⟨op, none⟩] }

/-- `Crdt::new_id` of `crdt_undo.rs`. -/
def newId (s : CrdtUndo) : ID × CrdtUndo :=
  (⟨s.nextLamport, s.client⟩, { s with nextLamport := s.nextLamport + 1 })

/-- One iteration of `crdt_undo.rs`'s `apply_pending_ops` loop: on a `Move`,
first record `old_parent = forest.get(&target).and_then(|x| x.parent)`, then
apply; the processed tuple (with its updated `old_parent`) is appended to the
accumulator. -/
def applyStepU (acc : Forest × List OpTuple) (t : OpTuple) :
    Option (Forest × List OpTuple) :=
  match t.op.content with
  | .new parent => do
    let f ← movSwallow Forest.movM acc.1 t.op.id parent
    pure (f, acc.2 ++ [t])
  | .move target parent => do
    let oldP := (fget acc.1 target).bind TreeNode.parent
    let f ← movSwallow Forest.movM acc.1 target parent
    pure (f, acc.2 ++ [⟨t.op, oldP⟩])
  | .delete target => do
    let f ← Forest.delete acc.1 target
    pure (f, acc.2 ++ [t])

/-- `Crdt::apply_pending_ops` of `crdt_undo.rs`. -/
def applyPendingOps (s : CrdtUndo) : Option CrdtUndo := do
  let (f, ts) ← (s.sortedOps.drop s.appliedEnd).foldlM applyStepU (s.forest, [])
  pure { s with forest := f,
                sortedOps := s.sortedOps.take s.appliedEnd ++ ts,
                appliedEnd := s.sortedOps.length }

/-- `Crdt::new_node` of `crdt_undo.rs`. -/
def newNode (s : CrdtUndo) (parent : Option ID) : Option (CrdtUndo × ID) := do
  let (i, s1) := s.newId
  let s2 ← (s1.pushOp ⟨i, .new parent⟩).applyPendingOps
  pure (s2, i)

/-- `Crdt::mov` of `crdt_undo.rs`. -/
def mov (s : CrdtUndo) (target : ID) (parent : Option ID) : Option CrdtUndo := do
  let (i, s1) := s.newId
  (s1.pushOp ⟨i, .move target parent⟩).applyPendingOps

/-- `Crdt::delete` of `crdt_undo.rs`. -/
def delete (s : CrdtUndo) (target : ID) : Option CrdtUndo := do
  let (i, s1) := s.newId
  (s1.pushOp ⟨i, .delete target⟩).applyPendingOps

/-- Undoing one reverted tuple (one iteration of the reverse loop in
`revert_until`): a `New` is skipped, a `Move` is moved back to its recorded
`old_parent` (errors swallowed), a `Delete` is un-deleted. -/
def undoStep (f : Forest) (t : OpTuple) : Option Forest :=
  match t.op.content with
  | .new _ => some f
  | .move target _ => movSwallow Forest.movM f target t.oldParent
  | .delete target => Forest.undoDelete f target

/-- `Crdt::revert_until` of `crdt_undo.rs`.  The
`binary_search_by_key` on the sorted duplicate-free id sequence yields
`Ok _ => unreachable!()` (a panic, `none` here) when `id` is present, and
otherwise `Err i` with `i` the insertion position, i.e. the number of entries
with a smaller id. -/
def revertUntil (s : CrdtUndo) (idv : ID) : Option (List Op × CrdtUndo) :=
  if s.sortedOps.any (fun t => t.op.id = idv) then none
  else
    let trimStart := s.sortedOps.countP (fun t => decide (t.op.id < idv))
    let kept := s.sortedOps.take trimStart
    let removed := s.sortedOps.drop trimStart
    match removed.reverse.foldlM undoStep s.forest with
    | none => none
    | some f =>
      some (removed.map OpTuple.op,
        { s with forest := f, sortedOps := kept, appliedEnd := kept.length })

/-- The first loop of `crdt_undo.rs`'s `Crdt::merge`: like the snapshot
variant's, but the lamport rule is strict:
`if op.id.lamport >= next_lamport { next_lamport = op.id.lamport + 1 }`. -/
def collectStep (acc : CrdtUndo × List Op) (e : Nat × List Op) : CrdtUndo × List Op :=
  let selfStart := ((logGet acc.1.log e.1).map List.length).getD 0
  if e.2.length > selfStart then
    let inc := e.2.drop selfStart
    ({ acc.1 with
        log := logAppend acc.1.log e.1 inc,
        nextLamport := inc.foldl
          (fun g op => if g ≤ op.id.lamport then op.id.lamport + 1 else g)
          acc.1.nextLamport },
      acc.2 ++ inc)
  else acc

def collectIncoming (s other : CrdtUndo) : CrdtUndo × List Op :=
  other.log.foldl collectStep (s, [])

/-- `ans.iter().min().unwrap()` — the fold keeps the earliest minimum, by
the Rust `Ord` on `Op` (comparison by id). -/
def minId (h : Op) (t : List Op) : ID :=
  t.foldl (fun m op => if op.id < m then op.id else m) h.id

/-- `Crdt::merge` of `crdt_undo.rs`. -/
def merge (s other : CrdtUndo) : Option CrdtUndo :=
  let (s1, ans) := collectIncoming s other
  match ans with
  | [] => some s1
  | h :: t => do
    let (popped, s2) ← s1.revertUntil (minId h t)
    let ansAll := sortOps (ans ++ popped)
    applyPendingOps
      { s2 with sortedOps := s2.sortedOps ++ ansAll.map (fun op => ⟨op, none⟩) }

end CrdtUndo

/-! ## Pure replay functions

Replaying a list of ops in order from a given forest — the effect of
`apply_pending_ops` on the forest component, used to state determinism
properties. -/

/-- The forest effect of one op in the snapshot variant (`crdt.rs`,
using `tree.rs`'s `mov`): cyclic moves swallowed, panics propagated. -/
def stepP (f : Forest) (op : Op) : Option Forest :=
  match op.content with
  | .new parent => movSwallow Forest.movP f op.id parent
  | .move target parent => movSwallow Forest.movP f target parent
  | .delete target => Forest.delete f target

/-- The forest effect of one op in the undo variant (`crdt_undo.rs`,
using `mut_tree.rs`'s `mov`). -/
def stepM (f : Forest) (op : Op) : Option Forest :=
  match op.content with
  | .new parent => movSwallow Forest.movM f op.id parent
  | .move target parent => movSwallow Forest.movM f target parent
  | .delete target => Forest.delete f target

/-- Replay ops left to right from forest `f`, snapshot-variant semantics. -/
def replayPFrom (f : Forest) (ops : List Op) : Option Forest :=
  ops.foldlM stepP f

/-- Replay ops from the empty forest, snapshot-variant semantics. -/
def replayP (ops : List Op) : Option Forest := replayPFrom [] ops

/-- Replay ops left to right from forest `f`, undo-variant semantics. -/
def replayMFrom (f : Forest) (ops : List Op) : Option Forest :=
  ops.foldlM stepM f

/-- Replay ops from the empty forest, undo-variant semantics. -/
def replayM (ops : List Op) : Option Forest := replayMFrom [] ops

/-! ## Concrete claim scenarios -/

/-- Extract the `Ok` forest of a raw `mov` call (used to *build* scenario
states where the call is required to succeed). -/
def okOf (r : Option (Except Unit Forest)) : Option Forest :=
  match r with
  | some (.ok f) => some f
  | _ => none

/-- Claim C1's failing history, prefix: on the snapshot variant, replica `a`
(client 2) creates two root nodes X=(0,2), P=(1,2); replica `b` (client 1)
merges from `a`.  After the merge `b.greatest_lamport = 1` (the `>` rule did
not step past the largest incoming lamport). -/
def c1HistoryPrefix : Option Crdt := do
  let (a1, _) ← (Crdt.new 2).newNode none
  let (a2, _) ← a1.newNode none
  (Crdt.new 1).merge a2

/-- Claim C1's failing history: `b` then issues `mov(X, Some(P))`.  The new
op gets id `(1,1) < (1,2)`, and `cache.push` hits its
`assert!(&version > last)` — a panic. -/
def c1History : Option Crdt := do
  let b ← c1HistoryPrefix
  b.mov ⟨0, 2⟩ (some ⟨1, 2⟩)

/-- Claim C2 driver on the snapshot variant: `new_node(None)`, `delete`,
`mov(node, None)` on a single replica (client 1). -/
def c2Snap : Option Crdt := do
  let (s1, i) ← (Crdt.new 1).newNode none
  let s2 ← s1.delete i
  s2.mov i none

/-- Claim C2 driver on the undo variant: the same call sequence. -/
def c2Undo : Option CrdtUndo := do
  let (s1, i) ← (CrdtUndo.new 1).newNode none
  let s2 ← s1.delete i
  s2.mov i none

/-- Claim C4: snapshot-variant replica 1 merges one op (lamport 0) from
replica 2, both starting fresh. -/
def c4Snap : Option Crdt := do
  let (b1, _) ← (Crdt.new 2).newNode none
  (Crdt.new 1).merge b1

/-- Claim C6: a `tree.rs` forest holding one node X=(0,1) with
`deleted = true` (built by `mov(X, None); delete(X)`). -/
def c6Before : Option Forest := do
  let f1 ← okOf (Forest.movP [] ⟨0, 1⟩ none)
  f1.delete ⟨0, 1⟩

/-- Claim C6: the state after `tree.rs`'s `mov(X, None)` on `c6Before`. -/
def c6After : Option Forest := do
  let f2 ← c6Before
  okOf (Forest.movP f2 ⟨0, 1⟩ none)

/-- Claim C9 state: `LogSpacedSnapshots::new(3)` after `push(i, i)` for
`i` in `0..10000`. -/
def c9State : Option (LogSpacedSnapshots Nat Nat) :=
  (List.range 10000).foldlM (fun s i => s.push i i) (LogSpacedSnapshots.new 3)

/-- Claim C9: the four queried pops, in sequence, on a given state. -/
def c9Pops (pop : LogSpacedSnapshots Nat Nat → Nat →
      Option (Nat × Nat) × LogSpacedSnapshots Nat Nat)
    (b : Option (LogSpacedSnapshots Nat Nat)) :
    Option (Option (Nat × Nat) × Option (Nat × Nat) × Option (Nat × Nat) ×
      Option (Nat × Nat)) :=
  b.map (fun s =>
    let (r1, s1) := pop s 9999
    let (r2, s2) := pop s1 9998
    let (r3, s3) := pop s2 6000
    let (r4, _) := pop s3 2000
    (r1, r2, r3, r4))

/-- Claim C10's replica state, built through the public API only.  Replica
`a` (client 0) creates three root nodes `(0,0)`, `(1,0)`, `(2,0)`; replica
`d` (client 7), holding the `ID` *values* returned by `a`'s `new_node` (IDs
are `Copy` and freely shareable), blindly moves `(0,0)` to root — inserting
it — and `(2,0)` under `(0,0)`; replica `c` (client 9) blindly moves `(2,0)`
to root and `(0,0)` under `(2,0)`; then `d` merges from `c` and from `a`. -/
def c10State : Option CrdtUndo := do
  let (a1, _) ← (CrdtUndo.new 0).newNode none
  let (a2, _) ← a1.newNode none
  let (a3, _) ← a2.newNode none
  let d1 ← (CrdtUndo.new 7).mov ⟨0, 0⟩ none
  let d2 ← d1.mov ⟨2, 0⟩ (some ⟨0, 0⟩)
  let c1 ← (CrdtUndo.new 9).mov ⟨2, 0⟩ none
  let c2 ← c1.mov ⟨0, 0⟩ (some ⟨2, 0⟩)
  let d3 ← d2.merge c2
  d3.merge a3

/-- Claim C10's round trip at `id = (1,8)`, which is not among the op ids of
`c10State`: `revert_until`, re-append the returned ops in their original
order with `old_parent` reset to `None`, `apply_pending_ops`; the pair holds
the forest before the revert and after the re-apply. -/
def c10RoundTrip : Option (Forest × Forest) := do
  let s ← c10State
  let (popped, s2) ← s.revertUntil ⟨1, 8⟩
  let s4 ← CrdtUndo.applyPendingOps
    { s2 with sortedOps := s2.sortedOps ++ popped.map (fun op => ⟨op, none⟩) }
  pure (s.forest, s4.forest)

/-- Remove the (unique) cache entry at position `r`. -/
def removeIdx (r : Nat) : List (Nat × Nat) → List (Nat × Nat)
  | [] => []
  | e :: t => if e.1 = r then t else e :: removeIdx r t

/-- Reduced state for replaying the claim-C9 cache evolution: `push` touches
`keys` only through its length and newest element, and in this scenario the
pushed versions are `0, 1, 2, …`, so the length determines everything. -/
structure RedSt where
  len : Nat
  cache : List (Nat × Nat)
deriving DecidableEq, Repr

/-- One push `(value, value)` of the claim-C9 scenario (`d = 3`), on the
reduced state. -/
def redStep (s : RedSt) (value : Nat) : RedSt :=
  let delta := firstZeroBit s.len <<< 3
  let cache1 := if delta ≤ s.len then removeIdx (s.len - delta) s.cache else s.cache
  ⟨s.len + 1, (s.len, value) :: cache1⟩

/-- Cache positions are below the key count and pairwise distinct. -/
def CacheInv (n : Nat) (c : List (Nat × Nat)) : Prop :=
  (∀ e ∈ c, e.1 < n) ∧ c.Pairwise (fun a b => a.1 ≠ b.1)

/-- Cache-evolution state after pushes `(i, i)` for `i < 1000` (chunked evaluation of the claim-C9 scenario). -/
def c9Red1 : RedSt := ⟨1000, [(999, 999), (998, 998), (997, 997), (996, 996), (995, 995), (994, 994), (993, 993), (992, 992), (991, 991), (989, 989), (987, 987), (985, 985), (983, 983), (979, 979), (975, 975), (971, 971), (967, 967), (959, 959), (951, 951), (943, 943), (927, 927), (911, 911), (895, 895), (879, 879), (863, 863), (831, 831), (799, 799), (767, 767), (703, 703), (639, 639), (575, 575), (511, 511), (383, 383), (255, 255), (127, 127)]⟩

/-- Cache-evolution state after pushes `(i, i)` for `i < 2000` (chunked evaluation of the claim-C9 scenario). -/
def c9Red2 : RedSt := ⟨2000, [(1999, 1999), (1998, 1998), (1997, 1997), (1996, 1996), (1995, 1995), (1994, 1994), (1993, 1993), (1992, 1992), (1991, 1991), (1989, 1989), (1987, 1987), (1985, 1985), (1983, 1983), (1979, 1979), (1975, 1975), (1971, 1971), (1967, 1967), (1959, 1959), (1951, 1951), (1943, 1943), (1935, 1935), (1919, 1919), (1903, 1903), (1887, 1887), (1855, 1855), (1823, 1823), (1791, 1791), (1759, 1759), (1727, 1727), (1663, 1663), (1599, 1599), (1535, 1535), (1407, 1407), (1279, 1279), (1151, 1151), (1023, 1023), (767, 767), (511, 511), (255, 255)]⟩

/-- Cache-evolution state after pushes `(i, i)` for `i < 3000` (chunked evaluation of the claim-C9 scenario). -/
def c9Red3 : RedSt := ⟨3000, [(2999, 2999), (2998, 2998), (2997, 2997), (2996, 2996), (2995, 2995), (2994, 2994), (2993, 2993), (2992, 2992), (2991, 2991), (2989, 2989), (2987, 2987), (2985, 2985), (2983, 2983), (2979, 2979), (2975, 2975), (2971, 2971), (2967, 2967), (2959, 2959), (2951, 2951), (2943, 2943), (2927, 2927), (2911, 2911), (2895, 2895), (2879, 2879), (2847, 2847), (2815, 2815), (2783, 2783), (2751, 2751), (2687, 2687), (2623, 2623), (2559, 2559), (2495, 2495), (2431, 2431), (2303, 2303), (2175, 2175), (2047, 2047), (1791, 1791), (1535, 1535), (1279, 1279), (1023, 1023), (511, 511)]⟩

/-- Cache-evolution state after pushes `(i, i)` for `i < 4000` (chunked evaluation of the claim-C9 scenario). -/
def c9Red4 : RedSt := ⟨4000, [(3999, 3999), (3998, 3998), (3997, 3997), (3996, 3996), (3995, 3995), (3994, 3994), (3993, 3993), (3992, 3992), (3991, 3991), (3989, 3989), (3987, 3987), (3985, 3985), (3983, 3983), (3979, 3979), (3975, 3975), (3971, 3971), (3967, 3967), (3959, 3959), (3951, 3951), (3943, 3943), (3935, 3935), (3919, 3919), (3903, 3903), (3887, 3887), (3871, 3871), (3839, 3839), (3807, 3807), (3775, 3775), (3711, 3711), (3647, 3647), (3583, 3583), (3519, 3519), (3455, 3455), (3327, 3327), (3199, 3199), (3071, 3071), (2815, 2815), (2559, 2559), (2303, 2303), (2047, 2047), (1535, 1535), (1023, 1023), (511, 511)]⟩

/-- Cache-evolution state after pushes `(i, i)` for `i < 5000` (chunked evaluation of the claim-C9 scenario). -/
def c9Red5 : RedSt := ⟨5000, [(4999, 4999), (4998, 4998), (4997, 4997), (4996, 4996), (4995, 4995), (4994, 4994), (4993, 4993), (4992, 4992), (4991, 4991), (4989, 4989), (4987, 4987), (4985, 4985), (4983, 4983), (4979, 4979), (4975, 4975), (4971, 4971), (4967, 4967), (4959, 4959), (4951, 4951), (4943, 4943), (4927, 4927), (4911, 4911), (4895, 4895), (4879, 4879), (4863, 4863), (4831, 4831), (4799, 4799), (4767, 4767), (4735, 4735), (4671, 4671), (4607, 4607), (4543, 4543), (4479, 4479), (4351, 4351), (4223, 4223), (4095, 4095), (3839, 3839), (3583, 3583), (3327, 3327), (3071, 3071), (2559, 2559), (2047, 2047), (1535, 1535), (1023, 1023)]⟩

/-- Cache-evolution state after pushes `(i, i)` for `i < 6000` (chunked evaluation of the claim-C9 scenario). -/
def c9Red6 : RedSt := ⟨6000, [(5999, 5999), (5998, 5998), (5997, 5997), (5996, 5996), (5995, 5995), (5994, 5994), (5993, 5993), (5992, 5992), (5991, 5991), (5989, 5989), (5987, 5987), (5985, 5985), (5983, 5983), (5979, 5979), (5975, 5975), (5971, 5971), (5967, 5967), (5959, 5959), (5951, 5951), (5943, 5943), (5935, 5935), (5919, 5919), (5903, 5903), (5887, 5887), (5855, 5855), (5823, 5823), (5791, 5791), (5759, 5759), (5695, 5695), (5631, 5631), (5567, 5567), (5503, 5503), (5375, 5375), (5247, 5247), (5119, 5119), (4991, 4991), (4863, 4863), (4607, 4607), (4351, 4351), (4095, 4095), (3583, 3583), (3071, 3071), (2559, 2559), (2047, 2047), (1023, 1023)]⟩

/-- Cache-evolution state after pushes `(i, i)` for `i < 7000` (chunked evaluation of the claim-C9 scenario). -/
def c9Red7 : RedSt := ⟨7000, [(6999, 6999), (6998, 6998), (6997, 6997), (6996, 6996), (6995, 6995), (6994, 6994), (6993, 6993), (6992, 6992), (6991, 6991), (6989, 6989), (6987, 6987), (6985, 6985), (6983, 6983), (6979, 6979), (6975, 6975), (6971, 6971), (6967, 6967), (6959, 6959), (6951, 6951), (6943, 6943), (6927, 6927), (6911, 6911), (6895, 6895), (6879, 6879), (6847, 6847), (6815, 6815), (6783, 6783), (6751, 6751), (6719, 6719), (6655, 6655), (6591, 6591), (6527, 6527), (6399, 6399), (6271, 6271), (6143, 6143), (6015, 6015), (5887, 5887), (5631, 5631), (5375, 5375), (5119, 5119), (4607, 4607), (4095, 4095), (3583, 3583), (3071, 3071), (2047, 2047), (1023, 1023)]⟩

/-- Cache-evolution state after pushes `(i, i)` for `i < 8000` (chunked evaluation of the claim-C9 scenario). -/
def c9Red8 : RedSt := ⟨8000, [(7999, 7999), (7998, 7998), (7997, 7997), (7996, 7996), (7995, 7995), (7994, 7994), (7993, 7993), (7992, 7992), (7991, 7991), (7989, 7989), (7987, 7987), (7985, 7985), (7983, 7983), (7979, 7979), (7975, 7975), (7971, 7971), (7967, 7967), (7959, 7959), (7951, 7951), (7943, 7943), (7935, 7935), (7919, 7919), (7903, 7903), (7887, 7887), (7871, 7871), (7839, 7839), (7807, 7807), (7775, 7775), (7743, 7743), (7679, 7679), (7615, 7615), (7551, 7551), (7423, 7423), (7295, 7295), (7167, 7167), (7039, 7039), (6911, 6911), (6655, 6655), (6399, 6399), (6143, 6143), (5631, 5631), (5119, 5119), (4607, 4607), (4095, 4095), (3071, 3071), (2047, 2047), (1023, 1023)]⟩

/-- Cache-evolution state after pushes `(i, i)` for `i < 9000` (chunked evaluation of the claim-C9 scenario). -/
def c9Red9 : RedSt := ⟨9000, [(8999, 8999), (8998, 8998), (8997, 8997), (8996, 8996), (8995, 8995), (8994, 8994), (8993, 8993), (8992, 8992), (8991, 8991), (8989, 8989), (8987, 8987), (8985, 8985), (8983, 8983), (8979, 8979), (8975, 8975), (8971, 8971), (8967, 8967), (8959, 8959), (8951, 8951), (8943, 8943), (8927, 8927), (8911, 8911), (8895, 8895), (8879, 8879), (8863, 8863), (8831, 8831), (8799, 8799), (8767, 8767), (8703, 8703), (8639, 8639), (8575, 8575), (8511, 8511), (8447, 8447), (8319, 8319), (8191, 8191), (8063, 8063), (7935, 7935), (7679, 7679), (7423, 7423), (7167, 7167), (6655, 6655), (6143, 6143), (5631, 5631), (5119, 5119), (4095, 4095), (3071, 3071), (2047, 2047), (1023, 1023)]⟩

/-- Cache-evolution state after pushes `(i, i)` for `i < 10000` (chunked evaluation of the claim-C9 scenario). -/
def c9Red10 : RedSt := ⟨10000, [(9999, 9999), (9998, 9998), (9997, 9997), (9996, 9996), (9995, 9995), (9994, 9994), (9993, 9993), (9992, 9992), (9991, 9991), (9989, 9989), (9987, 9987), (9985, 9985), (9983, 9983), (9979, 9979), (9975, 9975), (9971, 9971), (9967, 9967), (9959, 9959), (9951, 9951), (9943, 9943), (9935, 9935), (9919, 9919), (9903, 9903), (9887, 9887), (9855, 9855), (9823, 9823), (9791, 9791), (9759, 9759), (9727, 9727), (9663, 9663), (9599, 9599), (9535, 9535), (9471, 9471), (9343, 9343), (9215, 9215), (9087, 9087), (8959, 8959), (8703, 8703), (8447, 8447), (8191, 8191), (7679, 7679), (7167, 7167), (6655, 6655), (6143, 6143), (5119, 5119), (4095, 4095), (3071, 3071), (2047, 2047)]⟩

def c9RedState : RedSt :=
  (List.range' 0 10000).foldl (fun r i => redStep r i) ⟨0, []⟩

/-- The cache retained after the second pop (`lte 9998`) of the C9 scenario. -/
def c9Cache2 : List (Nat × Nat) := [(9998, 9998), (9997, 9997), (9996, 9996), (9995, 9995), (9994, 9994), (9993, 9993), (9992, 9992), (9991, 9991), (9989, 9989), (9987, 9987), (9985, 9985), (9983, 9983), (9979, 9979), (9975, 9975), (9971, 9971), (9967, 9967), (9959, 9959), (9951, 9951), (9943, 9943), (9935, 9935), (9919, 9919), (9903, 9903), (9887, 9887), (9855, 9855), (9823, 9823), (9791, 9791), (9759, 9759), (9727, 9727), (9663, 9663), (9599, 9599), (9535, 9535), (9471, 9471), (9343, 9343), (9215, 9215), (9087, 9087), (8959, 8959), (8703, 8703), (8447, 8447), (8191, 8191), (7679, 7679), (7167, 7167), (6655, 6655), (6143, 6143), (5119, 5119), (4095, 4095), (3071, 3071), (2047, 2047)]

/-- The cache retained after the third pop (`lte 6000`) of the C9 scenario. -/
def c9Cache3 : List (Nat × Nat) := [(5119, 5119), (4095, 4095), (3071, 3071), (2047, 2047)]


/-- The incoming delta of a snapshot-variant merge: the ops of `other.log`
that `s` has not yet seen, in the order the merge loop collects them. -/
def Crdt.incomingOps (s other : Crdt) : List Op :=
  (Crdt.collectIncoming s other).2

/-- The incoming delta of an undo-variant merge. -/
def CrdtUndo.incomingOps (s other : CrdtUndo) : List Op :=
  (CrdtUndo.collectIncoming s other).2

/-- Greatest lamport among a list of ops (0 when empty). -/
def maxLamport (l : List Op) : Nat :=
  l.foldl (fun g op => max g op.id.lamport) 0

/-! ## Parent-pointer reachability (claims C3 and C7) -/

/-- The parent pointer of `c` in `f`, when `c` is present. -/
def parentOf (f : Forest) (c : ID) : Option ID := (fget f c).bind TreeNode.parent

/-- One parent-pointer step: `p` is the stored parent of `c`. -/
def ParentStep (f : Forest) (c p : ID) : Prop := parentOf f c = some p

/-- The spec's wording for `is_ancestor_of(a, b)`: `a == b`, or some
transitive ancestor of `b` (following parent pointers) equals `a`. -/
def SpecAncestorOf (f : Forest) (a b : ID) : Prop :=
  a = b ∨ Relation.TransGen (ParentStep f) b a

/-- Every stored parent pointer targets a node present in the map. -/
def ParentsInMap (f : Forest) : Prop :=
  ∀ c p, ParentStep f c p → (fget f p).isSome = true

/-- No node reaches itself by following parent pointers. -/
def AcyclicF (f : Forest) : Prop :=
  ∀ x, ¬ Relation.TransGen (ParentStep f) x x

/-- Forest well-formedness. -/
def WFForest (f : Forest) : Prop := ParentsInMap f ∧ AcyclicF f

/-! ## Log-spaced snapshot reachability (claim C8) -/

/-- The pushed version recorded at cache position `pos`: positions are 0-based
indices into the oldest-first key order, while `keys` is stored newest-first. -/
def versionAt {K V : Type} (s : LogSpacedSnapshots K V) (pos : Nat) : Option K :=
  s.keys[s.keys.length - 1 - pos]?

/-- States of a `LogSpacedSnapshots` reachable from `new` by pushes with
strictly increasing versions and arbitrarily interleaved pops. -/
inductive LSSReach {K V : Type} [LinearOrder K] : LogSpacedSnapshots K V → Prop where
  | new (d : Nat) : LSSReach (LogSpacedSnapshots.new d)
  | push (s : LogSpacedSnapshots K V) (v : K) (x : V) (s' : LogSpacedSnapshots K V) :
      LSSReach s → (∀ k ∈ s.keys, k < v) → s.push v x = some s' → LSSReach s'
  | pop (s : LogSpacedSnapshots K V) (k : K) :
      LSSReach s → LSSReach (s.popTillSnapshotLte k).2

/-- Structural invariant of reachable `LogSpacedSnapshots` states: stored keys
strictly decrease (newest first), cache positions strictly decrease, and every
cache position indexes a stored key. -/
def LSSInv {K V : Type} [LinearOrder K] (s : LogSpacedSnapshots K V) : Prop :=
  List.Pairwise (fun a b => b < a) s.keys ∧
  List.Pairwise (fun (a b : Nat × V) => b.1 < a.1) s.cache ∧
  ∀ e ∈ s.cache, e.1 < s.keys.length

/-! ## Reachable replica states (claim C3) -/

/-- Replica states of the snapshot variant reachable by public calls. -/
inductive CrdtReach : Crdt → Prop where
  | new (c : Nat) : CrdtReach (Crdt.new c)
  | newNode (s : Crdt) (p : Option ID) (s' : Crdt) (i : ID) :
      CrdtReach s → Crdt.newNode s p = some (s', i) → CrdtReach s'
  | mov (s : Crdt) (t : ID) (p : Option ID) (s' : Crdt) :
      CrdtReach s → Crdt.mov s t p = some s' → CrdtReach s'
  | delete (s : Crdt) (t : ID) (s' : Crdt) :
      CrdtReach s → Crdt.delete s t = some s' → CrdtReach s'
  | merge (s other s' : Crdt) :
      CrdtReach s → CrdtReach other → Crdt.merge s other = some s' → CrdtReach s'

/-- Replica states of the undo variant reachable by public calls. -/
inductive CrdtUndoReach : CrdtUndo → Prop where
  | new (c : Nat) : CrdtUndoReach (CrdtUndo.new c)
  | newNode (s : CrdtUndo) (p : Option ID) (s' : CrdtUndo) (i : ID) :
      CrdtUndoReach s → CrdtUndo.newNode s p = some (s', i) → CrdtUndoReach s'
  | mov (s : CrdtUndo) (t : ID) (p : Option ID) (s' : CrdtUndo) :
      CrdtUndoReach s → CrdtUndo.mov s t p = some s' → CrdtUndoReach s'
  | delete (s : CrdtUndo) (t : ID) (s' : CrdtUndo) :
      CrdtUndoReach s → CrdtUndo.delete s t = some s' → CrdtUndoReach s'
  | merge (s other s' : CrdtUndo) :
      CrdtUndoReach s → CrdtUndoReach other → CrdtUndo.merge s other = some s' →
      CrdtUndoReach s'

/-- All cached snapshots of the snapshot variant's cache are well-formed. -/
def CacheWF (c : LogSpacedSnapshots ID Forest) : Prop :=
  ∀ e ∈ c.cache, WFForest e.2

/-! ## Op effects and the clean/dirty replay relation (claim C5) -/

/-- The node an op creates, moves or deletes. -/
def Op.node (op : Op) : ID :=
  match op.content with
  | .new _ => op.id
  | .move t _ => t
  | .delete t => t

/-- The parent id an op references, if any. -/
def Op.parentRef (op : Op) : Option ID :=
  match op.content with
  | .new p => p
  | .move _ p => p
  | .delete _ => none

/-- Ops whose replay deterministically sets the node's `deleted` flag in the
persistent forest: a delete (to `true`), or a `None`-parent new/move (to
`false`, since `tree.rs`'s root-move re-inserts with `deleted = false`). -/
def Op.isSetter (op : Op) : Bool :=
  match op.content with
  | .new none => true
  | .move _ none => true
  | .delete _ => true
  | _ => false

/-- The flag value a setter op writes. -/
def Op.setterVal (op : Op) : Bool :=
  match op.content with
  | .delete _ => true
  | _ => false

/-- Causal availability of an op list: every referenced parent and every
delete target is the node of an op with a strictly smaller id in the list
(logs propagate whole per-client vectors, so any replica holding an op also
holds everything its issuer had applied before creating it). -/
def WitnessClosed (L : List Op) : Prop :=
  ∀ op ∈ L, (∀ p, op.parentRef = some p →
      ∃ op' ∈ L, op'.id < op.id ∧ op'.node = p) ∧
    (∀ t, op.content = .delete t →
      ∃ op' ∈ L, op'.id < op.id ∧ op'.node = t)

/-- No op of `P` sets `x`'s flag. -/
def NoSetterFor (P : List Op) (x : ID) : Prop :=
  ∀ op ∈ P, op.node = x → op.isSetter = false

/-- The flag value of `x` after replaying `P`, starting from default `dflt`:
the last setter's value, if any. -/
def expFlag (P : List Op) (x : ID) (dflt : Bool) : Bool :=
  P.foldl (fun b op => if op.node = x ∧ op.isSetter = true then op.setterVal else b) dflt

/-- A forest in canonical (strictly key-sorted) representation. -/
def SortedForest (f : Forest) : Prop :=
  List.Pairwise (fun a b : ID × TreeNode => a.1 < b.1) f

/-- Simulation relation between the clean replay state `C` (prefix `P` of the
sorted union replayed from the empty forest) and the dirty replay state `D`
(the same prefix replayed from the pre-merge forest `d0`): nodes already
(re)inserted agree on parents and have flags determined by the last setter,
nodes not yet reached are exactly their untouched `d0` entries. -/
def SimRel (d0 : Forest) (P : List Op) (C D : Forest) : Prop :=
  ∀ x : ID,
    match fget C x, fget D x with
    | none, none => fget d0 x = none ∧ NoSetterFor P x
    | none, some nd => fget d0 x = some nd ∧ NoSetterFor P x
    | some nc, some nd => nd.parent = nc.parent ∧
        nc.deleted = expFlag P x false ∧
        nd.deleted = expFlag P x (((fget d0 x).map TreeNode.deleted).getD false)
    | some _, none => False

instance : IsTotal Op opLE := ⟨fun a b => le_total a.id b.id⟩

instance : IsTrans Op opLE := ⟨fun a b c h1 h2 => le_trans h1 h2⟩

/-! # Theorems -/

/-! ## Lemmas for evaluating the large C9 scenario -/

theorem filter_eq_removeIdx {c : List (Nat × Nat)} (r : Nat)
    (h : c.Pairwise (fun a b => a.1 ≠ b.1)) :
    c.filter (fun e => e.1 ≠ r) = removeIdx r c := by
  induction c with
  | nil => rfl
  | cons e t ih =>
    rw [List.pairwise_cons] at h
    rw [List.filter_cons]
    by_cases he : e.1 = r
    · have hd : (decide (e.1 ≠ r)) = false := by simp [he]
      rw [hd]
      simp only [Bool.false_eq_true, if_false, removeIdx, if_pos he]
      apply List.filter_eq_self.mpr
      intro a ha
      have hne := h.1 a ha
      simp only [ne_eq, decide_eq_true_eq]
      omega
    · have hd : (decide (e.1 ≠ r)) = true := by simp [he]
      rw [hd]
      simp only [if_true, removeIdx, if_neg he, ih h.2]

theorem head?_reverse_range (n : Nat) :
    ((List.range (n + 1)).reverse).head? = some n := by
  rw [List.head?_reverse, List.range_succ]
  exact List.getLast?_concat _

/-- One scenario push on the full state, mirrored on the reduced state. -/
theorem push_run (n : Nat) (c : List (Nat × Nat)) (hinv : CacheInv n c) :
    (LogSpacedSnapshots.mk ((List.range n).reverse) c 3 :
        LogSpacedSnapshots Nat Nat).push n n =
      some ⟨(List.range (n + 1)).reverse, (redStep ⟨n, c⟩ n).cache, 3⟩ := by
  unfold LogSpacedSnapshots.push redStep
  simp only [List.length_reverse, List.length_range]
  rw [filter_eq_removeIdx (n - firstZeroBit n <<< 3) hinv.2]
  have hrev : ∀ m : Nat, (m : Nat) :: (List.range m).reverse =
      (List.range (m + 1)).reverse := by
    intro m
    rw [List.range_succ, List.reverse_append]
    rfl
  cases n with
  | zero => rfl
  | succ m =>
    rw [head?_reverse_range m]
    simp only [Nat.lt_succ_self, if_pos]
    rw [hrev (m + 1)]

theorem cacheInv_step (n : Nat) (c : List (Nat × Nat)) (hinv : CacheInv n c) :
    CacheInv (n + 1) ((redStep ⟨n, c⟩ n).cache) := by
  have hsub : ∀ (r : Nat) (l : List (Nat × Nat)), ∀ e ∈ removeIdx r l, e ∈ l := by
    intro r l
    induction l with
    | nil => intro e he; exact absurd he (List.not_mem_nil e)
    | cons x t ih =>
      intro e he
      unfold removeIdx at he
      by_cases hx : x.1 = r
      · rw [if_pos hx] at he; exact List.mem_cons_of_mem x he
      · rw [if_neg hx] at he
        rcases List.mem_cons.mp he with h | h
        · exact h ▸ List.mem_cons_self x t
        · exact List.mem_cons_of_mem x (ih e h)
  have hpw : ∀ (r : Nat) (l : List (Nat × Nat)),
      l.Pairwise (fun a b => a.1 ≠ b.1) →
      (removeIdx r l).Pairwise (fun a b => a.1 ≠ b.1) := by
    intro r l hl
    induction l with
    | nil => exact List.Pairwise.nil
    | cons x t ih =>
      rw [List.pairwise_cons] at hl
      unfold removeIdx
      by_cases hx : x.1 = r
      · rw [if_pos hx]; exact hl.2
      · rw [if_neg hx]
        rw [List.pairwise_cons]
        exact ⟨fun e he => hl.1 e (hsub r t e he), ih hl.2⟩
  show CacheInv (n + 1) ((n, n) ::
    (if firstZeroBit n <<< 3 ≤ n then removeIdx (n - firstZeroBit n <<< 3) c else c))
  have hmem : ∀ e, e ∈ (if firstZeroBit n <<< 3 ≤ n
      then removeIdx (n - firstZeroBit n <<< 3) c else c) → e ∈ c := by
    intro e he
    by_cases hd : firstZeroBit n <<< 3 ≤ n
    · rw [if_pos hd] at he; exact hsub _ _ e he
    · rw [if_neg hd] at he; exact he
  constructor
  · intro e he
    rcases List.mem_cons.mp he with h | h
    · rw [h]; exact Nat.lt_succ_self n
    · exact Nat.lt_succ_of_lt (hinv.1 e (hmem e h))
  · rw [List.pairwise_cons]
    constructor
    · intro e he
      have := hinv.1 e (hmem e he)
      show n ≠ e.1
      omega
    · by_cases hd : firstZeroBit n <<< 3 ≤ n
      · rw [if_pos hd]; exact hpw _ _ hinv.2
      · rw [if_neg hd]; exact hinv.2

/-- The scenario fold on the full state is mirrored by the reduced fold. -/
theorem run_fold (len : Nat) :
    ∀ (n : Nat) (c : List (Nat × Nat)), CacheInv n c →
      (List.range' n len).foldlM (fun s i => s.push i i)
          (LogSpacedSnapshots.mk ((List.range n).reverse) c 3) =
        some ⟨(List.range (n + len)).reverse,
          ((List.range' n len).foldl (fun r i => redStep r i) ⟨n, c⟩).cache, 3⟩ := by
  induction len with
  | zero => intro n c _; simp [List.range']
  | succ m ih =>
    intro n c hinv
    rw [List.range'_succ]
    simp only [List.foldlM_cons, List.foldl_cons]
    rw [push_run n c hinv]
    simp only [Option.bind_eq_bind, Option.some_bind]
    have hstep : (⟨n + 1, (redStep ⟨n, c⟩ n).cache⟩ : RedSt) = redStep ⟨n, c⟩ n := rfl
    rw [ih (n + 1) ((redStep ⟨n, c⟩ n).cache) (cacheInv_step n c hinv), hstep]
    have harith : n + 1 + m = n + (m + 1) := by omega
    rw [harith]

set_option maxRecDepth 20000 in
set_option maxHeartbeats 1000000 in
theorem c9chunk1 :
    (List.range' 0 1000).foldl (fun r i => redStep r i) ⟨0, []⟩ = c9Red1 := by
  decide

set_option maxRecDepth 20000 in
set_option maxHeartbeats 1000000 in
theorem c9chunk2 :
    (List.range' 1000 1000).foldl (fun r i => redStep r i) c9Red1 = c9Red2 := by
  decide

set_option maxRecDepth 20000 in
set_option maxHeartbeats 1000000 in
theorem c9chunk3 :
    (List.range' 2000 1000).foldl (fun r i => redStep r i) c9Red2 = c9Red3 := by
  decide

set_option maxRecDepth 20000 in
set_option maxHeartbeats 1000000 in
theorem c9chunk4 :
    (List.range' 3000 1000).foldl (fun r i => redStep r i) c9Red3 = c9Red4 := by
  decide

set_option maxRecDepth 20000 in
set_option maxHeartbeats 1000000 in
theorem c9chunk5 :
    (List.range' 4000 1000).foldl (fun r i => redStep r i) c9Red4 = c9Red5 := by
  decide

set_option maxRecDepth 20000 in
set_option maxHeartbeats 1000000 in
theorem c9chunk6 :
    (List.range' 5000 1000).foldl (fun r i => redStep r i) c9Red5 = c9Red6 := by
  decide

set_option maxRecDepth 20000 in
set_option maxHeartbeats 1000000 in
theorem c9chunk7 :
    (List.range' 6000 1000).foldl (fun r i => redStep r i) c9Red6 = c9Red7 := by
  decide

set_option maxRecDepth 20000 in
set_option maxHeartbeats 1000000 in
theorem c9chunk8 :
    (List.range' 7000 1000).foldl (fun r i => redStep r i) c9Red7 = c9Red8 := by
  decide

set_option maxRecDepth 20000 in
set_option maxHeartbeats 1000000 in
theorem c9chunk9 :
    (List.range' 8000 1000).foldl (fun r i => redStep r i) c9Red8 = c9Red9 := by
  decide

set_option maxRecDepth 20000 in
set_option maxHeartbeats 1000000 in
theorem c9chunk10 :
    (List.range' 9000 1000).foldl (fun r i => redStep r i) c9Red9 = c9Red10 := by
  decide

theorem c9red_all :
    (List.range' 0 10000).foldl (fun r i => redStep r i) ⟨0, []⟩ = c9Red10 := by
  have e1 : List.range' 0 10000 = List.range' 0 1000 ++ List.range' 1000 9000 := by
    simpa using (List.range'_append 0 1000 9000 1).symm
  rw [e1, List.foldl_append, c9chunk1]
  have e2 : List.range' 1000 9000 = List.range' 1000 1000 ++ List.range' 2000 8000 := by
    simpa using (List.range'_append 1000 1000 8000 1).symm
  rw [e2, List.foldl_append, c9chunk2]
  have e3 : List.range' 2000 8000 = List.range' 2000 1000 ++ List.range' 3000 7000 := by
    simpa using (List.range'_append 2000 1000 7000 1).symm
  rw [e3, List.foldl_append, c9chunk3]
  have e4 : List.range' 3000 7000 = List.range' 3000 1000 ++ List.range' 4000 6000 := by
    simpa using (List.range'_append 3000 1000 6000 1).symm
  rw [e4, List.foldl_append, c9chunk4]
  have e5 : List.range' 4000 6000 = List.range' 4000 1000 ++ List.range' 5000 5000 := by
    simpa using (List.range'_append 4000 1000 5000 1).symm
  rw [e5, List.foldl_append, c9chunk5]
  have e6 : List.range' 5000 5000 = List.range' 5000 1000 ++ List.range' 6000 4000 := by
    simpa using (List.range'_append 5000 1000 4000 1).symm
  rw [e6, List.foldl_append, c9chunk6]
  have e7 : List.range' 6000 4000 = List.range' 6000 1000 ++ List.range' 7000 3000 := by
    simpa using (List.range'_append 6000 1000 3000 1).symm
  rw [e7, List.foldl_append, c9chunk7]
  have e8 : List.range' 7000 3000 = List.range' 7000 1000 ++ List.range' 8000 2000 := by
    simpa using (List.range'_append 7000 1000 2000 1).symm
  rw [e8, List.foldl_append, c9chunk8]
  have e9 : List.range' 8000 2000 = List.range' 8000 1000 ++ List.range' 9000 1000 := by
    simpa using (List.range'_append 8000 1000 1000 1).symm
  rw [e9, List.foldl_append, c9chunk9]
  exact c9chunk10

theorem c9State_eq :
    c9State = some ⟨(List.range 10000).reverse, c9Red10.cache, 3⟩ := by
  unfold c9State
  rw [List.range_eq_range']
  have h0 : (LogSpacedSnapshots.new 3 : LogSpacedSnapshots Nat Nat) =
      ⟨(List.range 0).reverse, [], 3⟩ := rfl
  rw [h0]
  rw [run_fold 10000 0 []
    ⟨fun e he => absurd he (List.not_mem_nil e), List.Pairwise.nil⟩]
  rw [c9red_all]
  simp [List.range_eq_range']

theorem countP_le_range (k n : Nat) :
    ((List.range n).reverse).countP (fun x => decide (x ≤ k)) = min (k + 1) n := by
  rw [List.countP_reverse]
  induction n with
  | zero => simp
  | succ m ih =>
    rw [List.range_succ, List.countP_append, ih]
    by_cases h : m ≤ k
    · simp [List.countP_cons, h]
      omega
    · simp [List.countP_cons, h]
      omega

theorem pop_on_range (n : Nat) (c : List (Nat × Nat)) (d k : Nat)
    (hlt : ∀ e ∈ c, e.1 < n) :
    (LogSpacedSnapshots.mk ((List.range n).reverse) c d :
        LogSpacedSnapshots Nat Nat).popTillSnapshotLte k =
      (match (c.filter (fun e => decide (e.1 < min (k + 1) n))).head? with
      | some e => (some (e.1, e.2),
          ⟨(List.range (e.1 + 1)).reverse,
            c.filter (fun e => decide (e.1 < min (k + 1) n)), d⟩)
      | none => (none, ⟨[], c.filter (fun e => decide (e.1 < min (k + 1) n)), d⟩)) := by
  unfold LogSpacedSnapshots.popTillSnapshotLte
  dsimp only
  rw [countP_le_range]
  cases hh : (c.filter (fun e => decide (e.1 < min (k + 1) n))).head? with
  | none => rfl
  | some e =>
    have hmem : e ∈ c.filter (fun e => decide (e.1 < min (k + 1) n)) :=
      List.mem_of_mem_head? hh
    have hin : e ∈ c := List.mem_of_mem_filter hmem
    have hen : e.1 < n := hlt e hin
    dsimp only
    have hdrop : ((List.range n).reverse).drop
        (((List.range n).reverse).length - (e.1 + 1)) =
        (List.range (e.1 + 1)).reverse := by
      rw [List.drop_reverse, List.take_range]
      congr 2
      simp only [List.length_range, List.length_reverse]
      omega
    rw [hdrop, head?_reverse_range]

theorem c9pop1 :
    (LogSpacedSnapshots.mk ((List.range 10000).reverse) c9Red10.cache 3 :
        LogSpacedSnapshots Nat Nat).popTillSnapshotLte 9999 =
      (some (9999, 9999),
        ⟨(List.range (9999 + 1)).reverse, c9Red10.cache, 3⟩) := by
  rw [pop_on_range 10000 c9Red10.cache 3 9999 (by decide)]
  rfl

theorem c9pop2 :
    (LogSpacedSnapshots.mk ((List.range (9999 + 1)).reverse) c9Red10.cache 3 :
        LogSpacedSnapshots Nat Nat).popTillSnapshotLte 9998 =
      (some (9998, 9998),
        ⟨(List.range (9998 + 1)).reverse, c9Cache2, 3⟩) := by
  rw [pop_on_range (9999 + 1) c9Red10.cache 3 9998 (by decide)]
  rfl

theorem c9pop3 :
    (LogSpacedSnapshots.mk ((List.range (9998 + 1)).reverse) c9Cache2 3 :
        LogSpacedSnapshots Nat Nat).popTillSnapshotLte 6000 =
      (some (5119, 5119),
        ⟨(List.range (5119 + 1)).reverse, c9Cache3, 3⟩) := by
  rw [pop_on_range (9998 + 1) c9Cache2 3 6000 (by decide)]
  rfl

theorem c9pop4 :
    (LogSpacedSnapshots.mk ((List.range (5119 + 1)).reverse) c9Cache3 3 :
        LogSpacedSnapshots Nat Nat).popTillSnapshotLte 2000 =
      (none, ⟨[], [], 3⟩) := by
  rw [pop_on_range (5119 + 1) c9Cache3 3 2000 (by decide)]
  rfl


/-! ## Claim theorems -/

/-- Claim C1 (code bug, failing input): the claim says that any two
same-variant replicas sharing an op set converge after bidirectional merges,
for *any* prior histories.  But the snapshot variant's merge raises
`greatest_lamport` only to the incoming maximum (no `+ 1`), so after the
legal history `a = new(2); a.new_node(None); a.new_node(None); b = new(1);
b.merge(&a)` (which completes — first conjunct) the next local call
`b.mov(X, Some(P))` allocates id `(1,1)`, smaller than the already-cached
id `(1,2)`, and panics in `LogSpacedSnapshots::push`'s
`assert!(&version > last)` (second conjunct: the run is a panic, modelled as
`none`).  The claimed convergence is therefore unattainable on this history:
the merges can never be reached. -/
theorem c1_snapshot_variant_panics :
    c1HistoryPrefix.isSome = true ∧ c1History = none := by
  constructor
  · decide
  · decide

/-- Claim C2 (code bug, failing input): driving both variants with the same
public calls `new_node(None); delete(id); mov(id, None)` (client 1) yields
forests that *differ* in the node's `deleted` flag: the snapshot variant
(`tree.rs`) re-inserts the root with `deleted: false`, the undo variant
(`mut_tree.rs`) preserves `deleted: true`.  Both runs complete. -/
theorem c2_variants_diverge :
    c2Snap.map (fun s => fget s.forest ⟨0, 1⟩) =
      some (some ⟨none, false⟩) ∧
    c2Undo.map (fun s => fget s.forest ⟨0, 1⟩) =
      some (some ⟨none, true⟩) := by
  constructor
  · decide
  · decide

/-- Claim C4, counterexample: with fresh snapshot-variant replicas 1 and 2,
after replica 2 issues one op (lamport 0) and replica 1 merges it, the claim
demands `next_lamport = max(local, incoming) + 1 = 1`, but the code leaves
`greatest_lamport = 0` (the bump rule is `>` with no `+ 1`). -/
theorem c4_snapshot_no_bump :
    c4Snap.map Crdt.greatestLamport = some 0 ∧
    ¬ c4Snap.map Crdt.greatestLamport = some (max 0 0 + 1) := by
  constructor
  · decide
  · decide

/-- Claim C6, counterexample: in the persistent forest (`tree.rs`), starting
from a forest whose node X=(0,1) is present with `deleted = true` (first
conjunct), `mov(X, None)` succeeds but re-inserts
`TreeNode { parent: None, deleted: false }` — the `deleted` flag is *not*
preserved (second conjunct), contradicting the claim for the persistent
implementation. -/
theorem c6_persistent_clears_deleted_flag :
    c6Before.map (fun f => fget f ⟨0, 1⟩) = some (some ⟨none, true⟩) ∧
    c6After.map (fun f => fget f ⟨0, 1⟩) = some (some ⟨none, false⟩) := by
  constructor
  · decide
  · decide

/-- Claim C9: with `LogSpacedSnapshots::new(3)` and pushes `(i, i)` for
`i` in `0..10000`, the four pops return, in sequence:
`pop_till_snapshot_lte(&9999) = Some((9999, 9999))`,
`pop_till_snapshot_lte(&9998) = Some((9998, 9998))`,
`pop_till_snapshot_lte(&6000) = Some((5119, 5119))`,
`pop_till_snapshot_lte(&2000) = None`. -/
theorem c9_log_spaced_snapshot_scenario :
    c9Pops (fun s k => s.popTillSnapshotLte k) c9State =
      some (some (9999, 9999), some (9998, 9998), some (5119, 5119), none) := by
  rw [c9State_eq]
  unfold c9Pops
  simp only [Option.map_some']
  rw [c9pop1]
  dsimp only
  rw [c9pop2]
  dsimp only
  rw [c9pop3]
  dsimp only
  rw [c9pop4]

/-! ## Basic forest-map lemmas -/

theorem fget_finsert_self (f : Forest) (k : ID) (v : TreeNode) :
    fget (finsert f k v) k = some v := by
  induction f with
  | nil => simp [finsert, fget]
  | cons e t ih =>
    obtain ⟨k', v'⟩ := e
    by_cases h1 : k < k'
    · simp [finsert, h1, fget]
    · by_cases h2 : k = k'
      · simp [finsert, h1, h2, fget]
      · simp [finsert, h1, h2, fget, ih]

theorem fget_finsert_ne (f : Forest) (k m : ID) (v : TreeNode) (h : m ≠ k) :
    fget (finsert f k v) m = fget f m := by
  induction f with
  | nil => simp [finsert, fget, h]
  | cons e t ih =>
    obtain ⟨k', v'⟩ := e
    by_cases h1 : k < k'
    · simp [finsert, h1, fget, h]
    · by_cases h2 : k = k'
      · subst h2
        simp [finsert, h1, fget, h]
      · simp [finsert, h1, h2, fget, ih]

/-! ## Claim C6, amended -/

/-- Claim C6 (amended): for any forest containing `n` with `deleted = true`,
`mov(n, None)` succeeds in both implementations and makes `n` a root, leaving
every other node unchanged; the mutable implementation (`mut_tree.rs`)
preserves the `deleted` flag, while the persistent implementation (`tree.rs`)
re-inserts the node with `deleted = false`. -/
theorem c6_amended (f : Forest) (n : ID) (node : TreeNode)
    (hn : fget f n = some node) (hdel : node.deleted = true) :
    Forest.movM f n none = some (.ok (finsert f n ⟨none, true⟩)) ∧
    Forest.movP f n none = some (.ok (finsert f n ⟨none, false⟩)) ∧
    fget (finsert f n ⟨none, true⟩) n = some ⟨none, true⟩ ∧
    fget (finsert f n ⟨none, false⟩) n = some ⟨none, false⟩ ∧
    (∀ m, m ≠ n → fget (finsert f n ⟨none, true⟩) m = fget f m) ∧
    (∀ m, m ≠ n → fget (finsert f n ⟨none, false⟩) m = fget f m) := by
  refine ⟨?_, ?_, fget_finsert_self f n _, fget_finsert_self f n _,
    fun m hm => fget_finsert_ne f n m _ hm, fun m hm => fget_finsert_ne f n m _ hm⟩
  · unfold Forest.movM
    rw [hn]
    simp [hdel]
  · rfl

theorem c6_amended_witness :
    fget [((⟨0, 1⟩ : ID), (⟨none, true⟩ : TreeNode))] ⟨0, 1⟩ =
        some ⟨none, true⟩ ∧
    (⟨none, true⟩ : TreeNode).deleted = true ∧
    Forest.movM [(⟨0, 1⟩, ⟨none, true⟩)] ⟨0, 1⟩ none =
      some (.ok (finsert [(⟨0, 1⟩, ⟨none, true⟩)] ⟨0, 1⟩ ⟨none, true⟩)) :=
  ⟨by decide, by decide,
    (c6_amended [(⟨0, 1⟩, ⟨none, true⟩)] ⟨0, 1⟩ ⟨none, true⟩
      (by decide) (by decide)).1⟩

/-! ## Claim C4: lamport bookkeeping on merge -/

theorem foldl_max_lam (inc : List Op) :
    ∀ g0 m : Nat,
      inc.foldl (fun g op => max g op.id.lamport) (max g0 m) =
        max g0 (inc.foldl (fun g op => max g op.id.lamport) m) := by
  induction inc with
  | nil => intro g0 m; rfl
  | cons op t ih =>
    intro g0 m
    simp only [List.foldl_cons]
    rw [Nat.max_assoc, ih]

theorem foldl_max_lam_succ (inc : List Op) :
    ∀ g0 m : Nat,
      inc.foldl (fun g op => max g (op.id.lamport + 1)) (max g0 (m + 1)) =
        max g0 ((inc.foldl (fun g op => max g op.id.lamport) m) + 1) := by
  induction inc with
  | nil => intro g0 m; rfl
  | cons op t ih =>
    intro g0 m
    simp only [List.foldl_cons]
    have h : max (max g0 (m + 1)) (op.id.lamport + 1) =
        max g0 (max m op.id.lamport + 1) := by omega
    rw [h, ih]

theorem mem_le_maxLamport {op : Op} {l : List Op} (h : op ∈ l) :
    op.id.lamport ≤ maxLamport l := by
  have hmono : ∀ (t : List Op) (g : Nat),
      g ≤ t.foldl (fun g op => max g op.id.lamport) g := by
    intro t
    induction t with
    | nil => intro g; exact Nat.le_refl g
    | cons a r ih =>
      intro g
      simp only [List.foldl_cons]
      exact Nat.le_trans (Nat.le_max_left g a.id.lamport) (ih _)
  have hin : ∀ (t : List Op) (g : Nat), op ∈ t →
      op.id.lamport ≤ t.foldl (fun g op => max g op.id.lamport) g := by
    intro t
    induction t with
    | nil => intro g hc; exact absurd hc (List.not_mem_nil op)
    | cons a r ih =>
      intro g hc
      simp only [List.foldl_cons]
      rcases List.mem_cons.mp hc with h | h
      · subst h
        exact Nat.le_trans (Nat.le_max_right g op.id.lamport) (hmono r _)
      · exact ih _ h
  exact hin l 0 h

theorem undo_bump_eq (l : List Op) :
    ∀ g : Nat,
      l.foldl (fun g op => if g ≤ op.id.lamport then op.id.lamport + 1 else g) g =
        l.foldl (fun g op => max g (op.id.lamport + 1)) g := by
  induction l with
  | nil => intro g; rfl
  | cons op t ih =>
    intro g
    simp only [List.foldl_cons]
    have h : (if g ≤ op.id.lamport then op.id.lamport + 1 else g) =
        max g (op.id.lamport + 1) := by
      split <;> omega
    rw [h, ih]

theorem snap_bump_eq (l : List Op) :
    ∀ g : Nat,
      l.foldl (fun g op => if g < op.id.lamport then op.id.lamport else g) g =
        l.foldl (fun g op => max g op.id.lamport) g := by
  induction l with
  | nil => intro g; rfl
  | cons op t ih =>
    intro g
    simp only [List.foldl_cons]
    have h : (if g < op.id.lamport then op.id.lamport else g) =
        max g op.id.lamport := by
      split <;> omega
    rw [h, ih]

theorem undo_collectStep_eq (st : CrdtUndo) (ans : List Op)
    (e : Nat × List Op) :
    CrdtUndo.collectStep (st, ans) e =
      if e.2.length > ((logGet st.log e.1).map List.length).getD 0 then
        ({ st with
            log := logAppend st.log e.1
              (e.2.drop (((logGet st.log e.1).map List.length).getD 0)),
            nextLamport :=
              (e.2.drop (((logGet st.log e.1).map List.length).getD 0)).foldl
                (fun g op => if g ≤ op.id.lamport then op.id.lamport + 1 else g)
                st.nextLamport },
          ans ++ e.2.drop (((logGet st.log e.1).map List.length).getD 0))
      else (st, ans) := rfl

theorem snap_collectStep_eq (st : Crdt) (ans : List Op) (e : Nat × List Op) :
    Crdt.collectStep (st, ans) e =
      if e.2.length > ((logGet st.log e.1).map List.length).getD 0 then
        ({ st with
            log := logAppend st.log e.1
              (e.2.drop (((logGet st.log e.1).map List.length).getD 0)),
            greatestLamport :=
              (e.2.drop (((logGet st.log e.1).map List.length).getD 0)).foldl
                (fun g op => if g < op.id.lamport then op.id.lamport else g)
                st.greatestLamport },
          ans ++ e.2.drop (((logGet st.log e.1).map List.length).getD 0))
      else (st, ans) := rfl

theorem collect_spec_undo (entries : OpLog) :
    ∀ (st : CrdtUndo) (ans : List Op),
      ∃ inc : List Op,
        (entries.foldl CrdtUndo.collectStep (st, ans)).2 = ans ++ inc ∧
        (entries.foldl CrdtUndo.collectStep (st, ans)).1.nextLamport =
          inc.foldl (fun g op => max g (op.id.lamport + 1)) st.nextLamport ∧
        (entries.foldl CrdtUndo.collectStep (st, ans)).1.client = st.client := by
  induction entries with
  | nil =>
    intro st ans
    exact ⟨[], by simp, rfl, rfl⟩
  | cons e t ih =>
    intro st ans
    simp only [List.foldl_cons]
    rw [undo_collectStep_eq]
    by_cases hlen :
        e.2.length > ((logGet st.log e.1).map List.length).getD 0
    · rw [if_pos hlen]
      obtain ⟨inc2, h1, h2, h3⟩ :=
        ih { st with
              log := logAppend st.log e.1
                (e.2.drop (((logGet st.log e.1).map List.length).getD 0)),
              nextLamport :=
                (e.2.drop (((logGet st.log e.1).map List.length).getD 0)).foldl
                  (fun g op => if g ≤ op.id.lamport then op.id.lamport + 1 else g)
                  st.nextLamport }
          (ans ++ e.2.drop (((logGet st.log e.1).map List.length).getD 0))
      refine ⟨e.2.drop (((logGet st.log e.1).map List.length).getD 0) ++ inc2,
        ?_, ?_, h3⟩
      · rw [h1, List.append_assoc]
      · rw [h2, undo_bump_eq, ← List.foldl_append]
    · rw [if_neg hlen]
      exact ih st ans

theorem collect_spec_snap (entries : OpLog) :
    ∀ (st : Crdt) (ans : List Op),
      ∃ inc : List Op,
        (entries.foldl Crdt.collectStep (st, ans)).2 = ans ++ inc ∧
        (entries.foldl Crdt.collectStep (st, ans)).1.greatestLamport =
          inc.foldl (fun g op => max g op.id.lamport) st.greatestLamport ∧
        (entries.foldl Crdt.collectStep (st, ans)).1.client = st.client := by
  induction entries with
  | nil =>
    intro st ans
    exact ⟨[], by simp, rfl, rfl⟩
  | cons e t ih =>
    intro st ans
    simp only [List.foldl_cons]
    rw [snap_collectStep_eq]
    by_cases hlen :
        e.2.length > ((logGet st.log e.1).map List.length).getD 0
    · rw [if_pos hlen]
      obtain ⟨inc2, h1, h2, h3⟩ :=
        ih { st with
              log := logAppend st.log e.1
                (e.2.drop (((logGet st.log e.1).map List.length).getD 0)),
              greatestLamport :=
                (e.2.drop (((logGet st.log e.1).map List.length).getD 0)).foldl
                  (fun g op => if g < op.id.lamport then op.id.lamport else g)
                  st.greatestLamport }
          (ans ++ e.2.drop (((logGet st.log e.1).map List.length).getD 0))
      refine ⟨e.2.drop (((logGet st.log e.1).map List.length).getD 0) ++ inc2,
        ?_, ?_, h3⟩
      · rw [h1, List.append_assoc]
      · rw [h2, snap_bump_eq, ← List.foldl_append]
    · rw [if_neg hlen]
      exact ih st ans

theorem undo_applyPendingOps_fields {s s' : CrdtUndo}
    (h : CrdtUndo.applyPendingOps s = some s') :
    s'.client = s.client ∧ s'.nextLamport = s.nextLamport ∧ s'.log = s.log := by
  unfold CrdtUndo.applyPendingOps at h
  cases hf : (s.sortedOps.drop s.appliedEnd).foldlM CrdtUndo.applyStepU
      (s.forest, []) with
  | none => rw [hf] at h; exact absurd h (by simp)
  | some p =>
    rw [hf] at h
    obtain ⟨f, ts⟩ := p
    simp only [Option.bind_eq_bind, Option.some_bind, Option.pure_def,
      Option.some.injEq] at h
    rw [← h]
    exact ⟨rfl, rfl, rfl⟩

theorem CrdtUndo.revertUntil_fields {s : CrdtUndo} {idv : ID}
    {p : List Op} {s2 : CrdtUndo}
    (h : CrdtUndo.revertUntil s idv = some (p, s2)) :
    s2.client = s.client ∧ s2.nextLamport = s.nextLamport ∧ s2.log = s.log := by
  unfold CrdtUndo.revertUntil at h
  by_cases ha : s.sortedOps.any (fun t => t.op.id = idv)
  · rw [if_pos ha] at h
    exact absurd h (by simp)
  · rw [if_neg ha] at h
    dsimp only at h
    cases hf : (s.sortedOps.drop
          (s.sortedOps.countP (fun t => decide (t.op.id < idv)))).reverse.foldlM
        CrdtUndo.undoStep s.forest with
    | none => rw [hf] at h; exact absurd h (by simp)
    | some f =>
      rw [hf] at h
      simp only [Option.some.injEq, Prod.mk.injEq] at h
      rw [← h.2]
      exact ⟨rfl, rfl, rfl⟩

theorem snap_applyPendingOps_fields {s s' : Crdt}
    (h : Crdt.applyPendingOps s = some s') :
    s'.client = s.client ∧ s'.greatestLamport = s.greatestLamport ∧
      s'.log = s.log := by
  unfold Crdt.applyPendingOps at h
  cases hf : (s.sortedOps.drop s.appliedEnd).foldlM Crdt.applyStep
      (s.forest, s.cache) with
  | none => rw [hf] at h; exact absurd h (by simp)
  | some p =>
    rw [hf] at h
    obtain ⟨f, c⟩ := p
    simp only [Option.bind_eq_bind, Option.some_bind, Option.pure_def,
      Option.some.injEq] at h
    rw [← h]
    exact ⟨rfl, rfl, rfl⟩

theorem Crdt.mergeRewind_fields {s1 : Crdt} {ansS : List Op} {startId : ID}
    {s2 : Crdt} (h : Crdt.mergeRewind s1 ansS startId = some s2) :
    s2.client = s1.client ∧ s2.greatestLamport = s1.greatestLamport ∧
      s2.log = s1.log := by
  unfold Crdt.mergeRewind at h
  cases hp : s1.cache.popTillSnapshotLte startId with
  | mk popped cache' =>
    rw [hp] at h
    dsimp only at h
    cases popped with
    | none =>
      simp only [Option.some.injEq] at h
      rw [← h]
      exact ⟨rfl, rfl, rfl⟩
    | some e =>
      obtain ⟨idv, snapshot⟩ := e
      dsimp only at h
      cases hfi : s1.sortedOps.findIdx? (fun o => o.id = idv) with
      | none => rw [hfi] at h; exact absurd h (by simp)
      | some last =>
        rw [hfi] at h
        simp only [Option.some.injEq] at h
        rw [← h]
        exact ⟨rfl, rfl, rfl⟩

/-- Claim C4 (amended): in the undo variant, a merge receiving at least one
op sets `next_lamport = max(local next_lamport, greatest incoming lamport + 1)`,
so the id of the next locally issued op (`new_id`) is strictly greater than
every op observed in the merge.  In the snapshot variant, the counter becomes
`max(local, greatest incoming lamport)` — with no `+ 1`. -/
theorem c4_lamport_amended :
    (∀ (s other s' : CrdtUndo), CrdtUndo.merge s other = some s' →
      CrdtUndo.incomingOps s other ≠ [] →
      s'.nextLamport =
        max s.nextLamport (maxLamport (CrdtUndo.incomingOps s other) + 1) ∧
      ∀ op ∈ CrdtUndo.incomingOps s other, op.id < (CrdtUndo.newId s').1) ∧
    (∀ (s other s' : Crdt), Crdt.merge s other = some s' →
      s'.greatestLamport =
        max s.greatestLamport (maxLamport (Crdt.incomingOps s other))) := by
  constructor
  · intro s other s' hm hne
    obtain ⟨inc, h1, h2, h3⟩ := collect_spec_undo other.log s []
    have hinc : CrdtUndo.incomingOps s other = inc := by
      unfold CrdtUndo.incomingOps CrdtUndo.collectIncoming
      rw [h1]
      exact List.nil_append inc
    have hlam1 : (CrdtUndo.collectIncoming s other).1.nextLamport =
        max s.nextLamport (maxLamport inc + 1) := by
      unfold CrdtUndo.collectIncoming
      rw [h2]
      rw [hinc] at hne
      cases inc with
      | nil => exact absurd rfl hne
      | cons op t =>
        simp only [List.foldl_cons]
        have hinit : max s.nextLamport (op.id.lamport + 1) =
            max s.nextLamport (op.id.lamport + 1) := rfl
        rw [foldl_max_lam_succ t s.nextLamport op.id.lamport]
        unfold maxLamport
        simp only [List.foldl_cons, Nat.zero_max]
    have hfinal : s'.nextLamport =
        (CrdtUndo.collectIncoming s other).1.nextLamport ∧
        s'.client = (CrdtUndo.collectIncoming s other).1.client := by
      unfold CrdtUndo.merge at hm
      cases hc : CrdtUndo.collectIncoming s other with
      | mk s1 ans =>
        rw [hc] at hm
        cases ans with
        | nil =>
          simp only [Option.some.injEq] at hm
          rw [← hm]
          exact ⟨rfl, rfl⟩
        | cons h t =>
          simp only [Option.bind_eq_bind] at hm
          cases hr : s1.revertUntil (CrdtUndo.minId h t) with
          | none => rw [hr] at hm; exact absurd hm (by simp)
          | some pr =>
            rw [hr] at hm
            obtain ⟨popped, s2⟩ := pr
            simp only [Option.some_bind] at hm
            have hf := undo_applyPendingOps_fields hm
            have hr2 := CrdtUndo.revertUntil_fields hr
            exact ⟨hf.2.1.trans hr2.2.1, hf.1.trans hr2.1⟩
    constructor
    · rw [hfinal.1, hlam1, hinc]
    · intro op hop
      rw [hinc] at hop
      have hb : op.id.lamport ≤ maxLamport inc := mem_le_maxLamport hop
      have hlt : op.id.lamport < s'.nextLamport := by
        rw [hfinal.1, hlam1]
        omega
      show op.id < ⟨s'.nextLamport, s'.client⟩
      rw [ID.lt_def]
      exact Or.inl hlt
  · intro s other s' hm
    obtain ⟨inc, h1, h2, h3⟩ := collect_spec_snap other.log s []
    have hinc : Crdt.incomingOps s other = inc := by
      unfold Crdt.incomingOps Crdt.collectIncoming
      rw [h1]
      exact List.nil_append inc
    have hlam1 : (Crdt.collectIncoming s other).1.greatestLamport =
        max s.greatestLamport (maxLamport inc) := by
      unfold Crdt.collectIncoming
      rw [h2]
      cases inc with
      | nil => simp [maxLamport]
      | cons op t =>
        simp only [List.foldl_cons]
        rw [foldl_max_lam t s.greatestLamport op.id.lamport]
        unfold maxLamport
        simp only [List.foldl_cons, Nat.zero_max]
    have hfinal : s'.greatestLamport =
        (Crdt.collectIncoming s other).1.greatestLamport := by
      unfold Crdt.merge at hm
      cases hc : Crdt.collectIncoming s other with
      | mk s1 ans =>
        rw [hc] at hm
        dsimp only at hm
        by_cases hemp : ans.isEmpty
        · rw [if_pos hemp] at hm
          simp only [Option.some.injEq] at hm
          rw [← hm]
        · rw [if_neg hemp] at hm
          cases hh : (sortOps ans).head? with
          | none => rw [hh] at hm; exact absurd hm (by simp)
          | some first =>
            rw [hh] at hm
            simp only [Option.bind_eq_bind] at hm
            cases hr : Crdt.mergeRewind s1 (sortOps ans) first.id with
            | none => rw [hr] at hm; exact absurd hm (by simp)
            | some s2 =>
              rw [hr] at hm
              simp only [Option.some_bind] at hm
              exact (snap_applyPendingOps_fields hm).2.1.trans
                (Crdt.mergeRewind_fields hr).2.1
    rw [hfinal, hlam1, hinc]

theorem c4_lamport_amended_witness :
    (∃ s', CrdtUndo.merge (CrdtUndo.new 1) ((CrdtUndo.new 2).pushOp
        ⟨⟨0, 2⟩, .new none⟩) = some s' ∧
      s'.nextLamport = max 0 (maxLamport [⟨⟨0, 2⟩, .new none⟩] + 1)) := by
  have hm : CrdtUndo.merge (CrdtUndo.new 1)
      ((CrdtUndo.new 2).pushOp ⟨⟨0, 2⟩, .new none⟩) ≠ none := by decide
  cases hs : CrdtUndo.merge (CrdtUndo.new 1)
      ((CrdtUndo.new 2).pushOp ⟨⟨0, 2⟩, .new none⟩) with
  | none => exact absurd hs hm
  | some s' =>
    refine ⟨s', rfl, ?_⟩
    have hinc : CrdtUndo.incomingOps (CrdtUndo.new 1)
        ((CrdtUndo.new 2).pushOp ⟨⟨0, 2⟩, .new none⟩) =
        [⟨⟨0, 2⟩, .new none⟩] := by decide
    have := (c4_lamport_amended.1 (CrdtUndo.new 1)
      ((CrdtUndo.new 2).pushOp ⟨⟨0, 2⟩, .new none⟩) s' hs
      (by rw [hinc]; simp)).1
    rw [hinc] at this
    exact this

/-! ## Claim C7: the cyclic-move contract of `Forest::mov` -/

theorem transGen_head_decomp {α : Type} {r : α → α → Prop} {a b : α}
    (h : Relation.TransGen r a b) :
    ∃ c, r a c ∧ Relation.ReflTransGen r c b := by
  induction h using Relation.TransGen.head_induction_on with
  | base h => exact ⟨_, h, .refl⟩
  | ih h ht ihh => exact ⟨_, h, ht.to_reflTransGen⟩

theorem fget_isSome_iff {f : Forest} {k : ID} :
    (fget f k).isSome = true ↔ k ∈ f.map Prod.fst := by
  induction f with
  | nil => simp [fget]
  | cons e rest ih =>
    obtain ⟨k', v⟩ := e
    by_cases h : k = k'
    · subst h; simp [fget]
    · simp [fget, h, ih]

theorem isAncestorOfAux_true {f : Forest} {a : ID} :
    ∀ {fuel : Nat} {cur : ID}, isAncestorOfAux f a fuel cur = some true →
      Relation.TransGen (ParentStep f) cur a := by
  intro fuel
  induction fuel with
  | zero => intro cur h; simp [isAncestorOfAux] at h
  | succ k ih =>
    intro cur h
    unfold isAncestorOfAux at h
    cases hg : fget f cur with
    | none => rw [hg] at h; simp at h
    | some node =>
      rw [hg] at h
      dsimp only at h
      cases hp : node.parent with
      | none => rw [hp] at h; simp at h
      | some p =>
        rw [hp] at h
        dsimp only at h
        have hstep : ParentStep f cur p := by
          unfold ParentStep parentOf
          rw [hg]
          simpa using hp
        by_cases hpa : p = a
        · subst hpa; exact .single hstep
        · rw [if_neg hpa] at h
          by_cases hpc : p = cur
          · rw [if_pos hpc] at h; simp at h
          · rw [if_neg hpc] at h
            exact .head hstep (ih h)

theorem isAncestorOfAux_false {f : Forest} {a : ID} :
    ∀ {fuel : Nat} {cur : ID}, isAncestorOfAux f a fuel cur = some false →
      ¬ Relation.TransGen (ParentStep f) cur a := by
  intro fuel
  induction fuel with
  | zero => intro cur h; simp [isAncestorOfAux] at h
  | succ k ih =>
    intro cur h ht
    unfold isAncestorOfAux at h
    cases hg : fget f cur with
    | none => rw [hg] at h; simp at h
    | some node =>
      rw [hg] at h
      dsimp only at h
      obtain ⟨c, hc, hrest⟩ := transGen_head_decomp ht
      have hc' : (fget f cur).bind TreeNode.parent = some c := hc
      rw [hg] at hc'
      simp only [Option.some_bind] at hc'
      cases hp : node.parent with
      | none => rw [hp] at hc'; simp at hc'
      | some p =>
        rw [hp] at h
        dsimp only at h
        rw [hp] at hc'
        have hcp : c = p := by simpa using hc'.symm
        subst hcp
        by_cases hpa : c = a
        · rw [if_pos hpa] at h; simp at h
        · rw [if_neg hpa] at h
          by_cases hpc : c = cur
          · rw [if_pos hpc] at h; simp at h
          · rw [if_neg hpc] at h
            rcases hrest.cases_head with he | ⟨d, hd, hrd⟩
            · exact hpa he
            · exact ih h (Relation.TransGen.head' hd hrd)

theorem isAncestorOfAux_ne_none {f : Forest} {a : ID}
    (hpm : ParentsInMap f) (hac : AcyclicF f) :
    ∀ (fuel : Nat) (banned : List ID) (cur : ID),
      banned.Nodup →
      (∀ x ∈ banned, x ∈ f.map Prod.fst) →
      (∀ x ∈ banned, ¬ Relation.ReflTransGen (ParentStep f) cur x) →
      (fget f cur).isSome = true →
      (f.map Prod.fst).length + 1 ≤ fuel + banned.length →
      isAncestorOfAux f a fuel cur ≠ none := by
  intro fuel
  induction fuel with
  | zero =>
    intro banned cur hnd hsub hnr hcur hle
    exfalso
    have hlen : banned.length ≤ (f.map Prod.fst).length := by
      calc banned.length = banned.toFinset.card :=
            (List.toFinset_card_of_nodup hnd).symm
        _ ≤ (f.map Prod.fst).toFinset.card := by
            apply Finset.card_le_card
            intro x hx
            simp only [List.mem_toFinset] at hx ⊢
            exact hsub x hx
        _ ≤ (f.map Prod.fst).length := List.toFinset_card_le _
    omega
  | succ k ih =>
    intro banned cur hnd hsub hnr hcur hle
    unfold isAncestorOfAux
    cases hg : fget f cur with
    | none => rw [hg] at hcur; simp at hcur
    | some node =>
      dsimp only
      cases hp : node.parent with
      | none => simp
      | some p =>
        dsimp only
        have hstep : ParentStep f cur p := by
          unfold ParentStep parentOf
          rw [hg]
          simpa using hp
        by_cases hpa : p = a
        · simp [hpa]
        · rw [if_neg hpa]
          by_cases hpc : p = cur
          · exact absurd (Relation.TransGen.single (hpc ▸ hstep)) (hac cur)
          · rw [if_neg hpc]
            have hcurmem : cur ∈ f.map Prod.fst := fget_isSome_iff.mp hcur
            have hcurnb : cur ∉ banned := fun hmem => hnr cur hmem .refl
            apply ih (cur :: banned) p
            · exact List.Nodup.cons hcurnb hnd
            · intro x hx
              rcases List.mem_cons.mp hx with hx | hx
              · exact hx ▸ hcurmem
              · exact hsub x hx
            · intro x hx hr
              rcases List.mem_cons.mp hx with hx | hx
              · exact hac cur (Relation.TransGen.head' hstep (hx ▸ hr))
              · exact hnr x hx (Relation.ReflTransGen.head hstep hr)
            · exact hpm cur p hstep
            · simp only [List.length_cons]
              omega

theorem isAncestorOf_ne_none {f : Forest} {a b : ID}
    (hpm : ParentsInMap f) (hac : AcyclicF f)
    (hb : (fget f b).isSome = true) :
    isAncestorOf f a b ≠ none := by
  unfold isAncestorOf
  by_cases hab : a = b
  · simp [hab]
  · rw [if_neg hab]
    apply isAncestorOfAux_ne_none hpm hac (f.length + 1) [] b
    · exact List.nodup_nil
    · intro x hx; simp at hx
    · intro x hx; simp at hx
    · exact hb
    · simp only [List.length_map, List.length_nil]
      omega

theorem isAncestorOf_spec {f : Forest} {a b : ID}
    (hpm : ParentsInMap f) (hac : AcyclicF f)
    (hb : (fget f b).isSome = true) :
    isAncestorOf f a b = some true ↔ SpecAncestorOf f a b := by
  constructor
  · intro h
    unfold isAncestorOf at h
    by_cases hab : a = b
    · exact Or.inl hab
    · rw [if_neg hab] at h
      exact Or.inr (isAncestorOfAux_true h)
  · intro h
    cases hna : isAncestorOf f a b with
    | none => exact absurd hna (isAncestorOf_ne_none hpm hac hb)
    | some c =>
      cases c with
      | true => rfl
      | false =>
        exfalso
        unfold isAncestorOf at hna
        by_cases hab : a = b
        · rw [if_pos hab] at hna; simp at hna
        · rw [if_neg hab] at hna
          rcases h with h | h
          · exact hab h
          · exact isAncestorOfAux_false hna h

/-- **Claim C7** — for every well-formed forest in which `parent` exists,
`Forest::mov(node, Some(parent))` (identical in `tree.rs` and `mut_tree.rs`)
returns the `CyclicMove` error iff `node` exists in the map and the spec's
relational `is_ancestor_of(node, parent)` holds (`node == parent`, or some
transitive ancestor of `parent` equals `node`); in the error case the forest
is returned unchanged by construction (`Except.error` carries no forest and
every caller keeps the original), otherwise the call upserts `node` with that
parent (preserving the `deleted` flag of an existing node) and returns `Ok`.
Well-formedness (parent pointers present and acyclic — the invariant claim C3
establishes for every reachable forest) is what makes the walking loop total:
on ill-formed maps the Rust code panics by design (spec §Error policy). -/
theorem c7_cyclic_move_contract (f : Forest) (node parent : ID)
    (hwf : WFForest f) (hp : (fget f parent).isSome = true) :
    Forest.movM f node (some parent) = Forest.movP f node (some parent) ∧
    Forest.movP f node (some parent) ≠ none ∧
    (Forest.movP f node (some parent) = some (.error ()) ↔
      (fget f node).isSome = true ∧ SpecAncestorOf f node parent) ∧
    (¬((fget f node).isSome = true ∧ SpecAncestorOf f node parent) →
      Forest.movP f node (some parent) = some (.ok (finsert f node
        ⟨some parent, ((fget f node).map TreeNode.deleted).getD false⟩))) := by
  obtain ⟨hpm, hac⟩ := hwf
  refine ⟨rfl, ?_⟩
  unfold Forest.movP
  dsimp only
  rw [if_pos hp]
  by_cases hcont : (fget f node).isSome = true
  · rw [if_pos hcont]
    cases ha : isAncestorOf f node parent with
    | none => exact absurd ha (isAncestorOf_ne_none hpm hac hp)
    | some c =>
      cases c with
      | true =>
        dsimp only
        have hs : SpecAncestorOf f node parent :=
          (isAncestorOf_spec hpm hac hp).mp ha
        refine ⟨by simp, ?_, ?_⟩
        · simp [hcont, hs]
        · intro hn; exact absurd ⟨hcont, hs⟩ hn
      | false =>
        dsimp only
        have hs : ¬ SpecAncestorOf f node parent := by
          intro hs
          rw [(isAncestorOf_spec hpm hac hp).mpr hs] at ha
          simp at ha
        refine ⟨by simp, ?_, ?_⟩
        · constructor
          · intro h; simp at h
          · intro ⟨_, h⟩; exact absurd h hs
        · intro _; rfl
  · rw [if_neg hcont]
    have hnone : fget f node = none := by
      cases hg : fget f node with
      | none => rfl
      | some v => rw [hg] at hcont; simp at hcont
    refine ⟨by simp, ?_, ?_⟩
    · constructor
      · intro h; simp at h
      · intro ⟨h, _⟩; exact absurd h hcont
    · intro _
      rw [hnone]
      rfl

theorem c7WitnessWF : WFForest [(⟨0, 0⟩, ⟨none, false⟩)] := by
  have hstep : ∀ c p, ¬ ParentStep [((⟨0, 0⟩ : ID), (⟨none, false⟩ : TreeNode))] c p := by
    intro c p h
    unfold ParentStep parentOf fget at h
    by_cases hc : c = (⟨0, 0⟩ : ID)
    · rw [if_pos hc] at h; simp at h
    · rw [if_neg hc] at h; simp [fget] at h
  constructor
  · intro c p h
    exact absurd h (hstep c p)
  · intro x hx
    obtain ⟨c, hc, -⟩ := transGen_head_decomp hx
    exact hstep x c hc

theorem c7_cyclic_move_contract_witness :
    Forest.movP [(⟨0, 0⟩, ⟨none, false⟩)] ⟨1, 0⟩ (some ⟨0, 0⟩) =
      some (.ok [(⟨0, 0⟩, ⟨none, false⟩), (⟨1, 0⟩, ⟨some ⟨0, 0⟩, false⟩)]) := by
  have h := (c7_cyclic_move_contract [(⟨0, 0⟩, ⟨none, false⟩)] ⟨1, 0⟩ ⟨0, 0⟩
      c7WitnessWF (by decide)).2.2.2 (fun hc => absurd hc.1 (by decide))
  have hf : finsert [((⟨0, 0⟩ : ID), (⟨none, false⟩ : TreeNode))] ⟨1, 0⟩
      ⟨some ⟨0, 0⟩, ((fget [((⟨0, 0⟩ : ID), (⟨none, false⟩ : TreeNode))]
        ⟨1, 0⟩).map TreeNode.deleted).getD false⟩ =
      [(⟨0, 0⟩, ⟨none, false⟩), (⟨1, 0⟩, ⟨some ⟨0, 0⟩, false⟩)] := by decide
  rw [h, hf]

/-! ## Claim C8: the pop contract of `LogSpacedSnapshots` -/

theorem lssInv_of_reach {K V : Type} [LinearOrder K] {s : LogSpacedSnapshots K V}
    (h : LSSReach s) : LSSInv s := by
  induction h with
  | new d => exact ⟨List.Pairwise.nil, List.Pairwise.nil, by simp [LogSpacedSnapshots.new]⟩
  | push s v x s' hr hmono hpush ih =>
    obtain ⟨hk, hc, hpos⟩ := ih
    have hsub : (if firstZeroBit s.keys.length <<< s.d ≤ s.keys.length then
        s.cache.filter (fun e => e.1 ≠ s.keys.length - (firstZeroBit s.keys.length <<< s.d))
        else s.cache).Sublist s.cache := by
      split
      · exact List.filter_sublist s.cache
      · exact List.Sublist.refl s.cache
    have hgoal : ∀ (ks : List K), s' = ⟨v :: ks, (s.keys.length, x) ::
        (if firstZeroBit s.keys.length <<< s.d ≤ s.keys.length then
          s.cache.filter (fun e => e.1 ≠ s.keys.length - (firstZeroBit s.keys.length <<< s.d))
          else s.cache), s.d⟩ → ks.length = s.keys.length →
        List.Pairwise (fun a b => b < a) (v :: ks) → LSSInv s' := by
      intro ks hs' hlen hkp
      refine hs' ▸ ⟨hkp, ?_, ?_⟩
      · refine List.Pairwise.cons ?_ (List.Pairwise.sublist hsub hc)
        intro y hy
        exact hpos y (hsub.subset hy)
      · intro e he
        simp only [List.length_cons, hlen]
        rcases List.mem_cons.mp he with he | he
        · subst he; omega
        · have := hpos e (hsub.subset he)
          omega
    unfold LogSpacedSnapshots.push at hpush
    dsimp only at hpush
    cases hh : s.keys.head? with
    | some last =>
      rw [hh] at hpush
      dsimp only at hpush
      have hlt : last < v := hmono last (List.mem_of_mem_head? (by simp [hh]))
      rw [if_pos hlt] at hpush
      simp only [Option.some.injEq] at hpush
      exact hgoal s.keys hpush.symm rfl (List.Pairwise.cons (fun k hk' => hmono k hk') hk)
    | none =>
      rw [hh] at hpush
      dsimp only at hpush
      simp only [Option.some.injEq] at hpush
      have hke : s.keys = [] := List.head?_eq_none_iff.mp hh
      rw [hke] at hpush
      refine hgoal [] (by rw [← hpush, hke]) (by rw [hke]) ?_
      exact List.pairwise_singleton _ v
  | pop s k hr ih =>
    obtain ⟨hk, hc, hpos⟩ := ih
    unfold LogSpacedSnapshots.popTillSnapshotLte
    dsimp only
    cases hcc : s.cache.filter
        (fun e => decide (e.1 < s.keys.countP (fun x => decide (x ≤ k)))) with
    | nil => exact ⟨List.Pairwise.nil, List.Pairwise.nil, by simp⟩
    | cons e rest =>
      have hsubf := List.filter_sublist (p := fun e =>
        decide (e.1 < s.keys.countP (fun x => decide (x ≤ k)))) s.cache
      rw [hcc] at hsubf
      have hcp : List.Pairwise (fun (a b : Nat × V) => b.1 < a.1) (e :: rest) :=
        List.Pairwise.sublist hsubf hc
      have he1 : e.1 < s.keys.length :=
        hpos e (hsubf.subset (List.mem_cons_self e rest))
      have hst : LSSInv (⟨s.keys.drop (s.keys.length - (e.1 + 1)), e :: rest, s.d⟩ :
          LogSpacedSnapshots K V) := by
        refine ⟨List.Pairwise.sublist (List.drop_sublist _ _) hk, hcp, ?_⟩
        intro e' he'
        simp only [List.length_drop]
        rcases List.mem_cons.mp he' with he' | he'
        · subst he'; omega
        · have hlt := (List.pairwise_cons.mp hcp).1 e' he'
          omega
      simp only [List.head?_cons]
      cases hkk : (s.keys.drop (s.keys.length - (e.1 + 1))).head? with
      | none => exact hst
      | some kk => exact hst

theorem sorted_getElem_le_countP {K : Type} [LinearOrder K] {l : List K}
    (hs : List.Pairwise (fun a b => a < b) l) (v : K) :
    ∀ {i : Nat} {kv : K}, l[i]? = some kv →
      (kv ≤ v ↔ i < l.countP (fun x => decide (x ≤ v))) := by
  induction l with
  | nil => intro i kv h; simp at h
  | cons a t ih =>
    obtain ⟨ha, ht⟩ := List.pairwise_cons.mp hs
    have hcnt := List.countP_cons (fun x => decide (x ≤ v)) a t
    intro i kv h
    have htz : ¬ a ≤ v → t.countP (fun x => decide (x ≤ v)) = 0 := by
      intro hav
      rw [List.countP_eq_zero]
      intro b hb
      simp only [decide_eq_true_eq]
      intro hbv
      exact hav (le_of_lt (lt_of_lt_of_le (ha b hb) hbv))
    cases i with
    | zero =>
      simp only [List.getElem?_cons_zero, Option.some.injEq] at h
      subst h
      by_cases hav : a ≤ v
      · have hif : (if decide (a ≤ v) = true then 1 else 0) = 1 := by simp [hav]
        rw [hcnt, hif]
        exact ⟨fun _ => by omega, fun _ => hav⟩
      · have hif : (if decide (a ≤ v) = true then 1 else 0) = 0 := by simp [hav]
        rw [hcnt, htz hav, hif]
        exact ⟨fun hx => absurd hx hav, fun hx => absurd hx (by omega)⟩
    | succ i =>
      simp only [List.getElem?_cons_succ] at h
      by_cases hav : a ≤ v
      · have hif : (if decide (a ≤ v) = true then 1 else 0) = 1 := by simp [hav]
        rw [hcnt, hif, ih ht h]
        omega
      · have hif : (if decide (a ≤ v) = true then 1 else 0) = 0 := by simp [hav]
        rw [hcnt, htz hav, hif]
        constructor
        · intro hkv
          exfalso
          have hmem : kv ∈ t := by
            have hlt : i < t.length := by
              by_contra hge
              rw [List.getElem?_eq_none (by omega)] at h
              exact Option.noConfusion h
            have he : t[i] = kv := by
              rw [List.getElem?_eq_getElem hlt] at h
              simpa using h
            exact he ▸ List.getElem_mem hlt
          exact hav (le_of_lt (lt_of_lt_of_le (ha kv hmem) hkv))
        · intro hlt
          exact absurd hlt (by omega)

theorem sorted_getElem_mono {K : Type} [LinearOrder K] {l : List K}
    (hs : List.Pairwise (fun a b => a < b) l) {i j : Nat} {x y : K}
    (hij : i ≤ j) (hx : l[i]? = some x) (hy : l[j]? = some y) : x ≤ y := by
  rcases Nat.lt_or_ge i j with hlt | hge
  · have hj : j < l.length := by
      by_contra hge'
      rw [List.getElem?_eq_none (by omega)] at hy
      exact Option.noConfusion hy
    have hi : i < l.length := by omega
    rw [List.getElem?_eq_getElem hi] at hx
    rw [List.getElem?_eq_getElem hj] at hy
    have := List.pairwise_iff_getElem.mp hs i j hi hj hlt
    have hx' : l[i] = x := by simpa using hx
    have hy' : l[j] = y := by simpa using hy
    rw [← hx', ← hy']
    exact le_of_lt this
  · have hij' : i = j := by omega
    subst hij'
    rw [hx] at hy
    simp only [Option.some.injEq] at hy
    exact le_of_eq hy

/-- **Claim C8** — for every `LogSpacedSnapshots` state built by pushes with
strictly increasing versions and any interleaved pops (`LSSReach`),
`pop_till_snapshot_lte(v)` returns the retained `(version, snapshot)` cache
entry with the greatest version `≤ v` (the returned entry stays in the new
cache, every retained entry's version `≤ v` is `≤` the returned version), or
`None` when no retained entry has version `≤ v`; and on an empty cache it
returns `None` and leaves the cache (indeed the whole state, bar `d`) empty. -/
theorem c8_pop_till_snapshot_lte {K V : Type} [LinearOrder K]
    (s : LogSpacedSnapshots K V) (v : K) (hr : LSSReach s) :
    (s.cache = [] → s.popTillSnapshotLte v = (none, ⟨[], [], s.d⟩)) ∧
    ((∀ e ∈ s.cache, ∀ kv, versionAt s e.1 = some kv → ¬ kv ≤ v) →
      (s.popTillSnapshotLte v).1 = none) ∧
    (∀ e0 ∈ s.cache, ∀ kv0, versionAt s e0.1 = some kv0 → kv0 ≤ v →
      ∃ e ∈ s.cache, ∃ kv, versionAt s e.1 = some kv ∧ kv ≤ v ∧
        (s.popTillSnapshotLte v).1 = some (kv, e.2) ∧
        e ∈ (s.popTillSnapshotLte v).2.cache ∧
        ∀ e' ∈ s.cache, ∀ kv', versionAt s e'.1 = some kv' → kv' ≤ v → kv' ≤ kv) := by
  obtain ⟨hk, hc, hpos⟩ := lssInv_of_reach hr
  have hrev : List.Pairwise (fun a b => a < b) s.keys.reverse :=
    List.pairwise_reverse.mpr hk
  have hva : ∀ pos, pos < s.keys.length →
      versionAt s pos = s.keys.reverse[pos]? := by
    intro pos hp
    exact (List.getElem?_reverse hp).symm
  have hiff : ∀ e ∈ s.cache, ∀ kv, versionAt s e.1 = some kv →
      (kv ≤ v ↔ e.1 < s.keys.countP (fun x => decide (x ≤ v))) := by
    intro e he kv hkv
    rw [hva e.1 (hpos e he)] at hkv
    have h1 := sorted_getElem_le_countP hrev v hkv
    rwa [List.countP_reverse] at h1
  have hvsome : ∀ e ∈ s.cache, ∃ kv, versionAt s e.1 = some kv := by
    intro e he
    rw [hva e.1 (hpos e he)]
    rw [List.getElem?_eq_getElem (by simpa using hpos e he)]
    exact ⟨_, rfl⟩
  refine ⟨?_, ?_, ?_⟩
  · intro hc0
    unfold LogSpacedSnapshots.popTillSnapshotLte
    rw [hc0]
    rfl
  · intro hnone
    have hfe : s.cache.filter
        (fun e => decide (e.1 < s.keys.countP (fun x => decide (x ≤ v)))) = [] := by
      rw [List.filter_eq_nil_iff]
      intro e he
      simp only [decide_eq_true_eq]
      intro hlt
      obtain ⟨kv, hkv⟩ := hvsome e he
      exact hnone e he kv hkv ((hiff e he kv hkv).mpr hlt)
    unfold LogSpacedSnapshots.popTillSnapshotLte
    dsimp only
    rw [hfe]
    rfl
  · intro e0 he0 kv0 hkv0 hle0
    have he0f : e0 ∈ s.cache.filter
        (fun e => decide (e.1 < s.keys.countP (fun x => decide (x ≤ v)))) := by
      refine List.mem_filter.mpr ⟨he0, ?_⟩
      simpa using (hiff e0 he0 kv0 hkv0).mp hle0
    cases hcc : s.cache.filter
        (fun e => decide (e.1 < s.keys.countP (fun x => decide (x ≤ v)))) with
    | nil => rw [hcc] at he0f; simp at he0f
    | cons e rest =>
      have hsubf := List.filter_sublist (p := fun e =>
        decide (e.1 < s.keys.countP (fun x => decide (x ≤ v)))) s.cache
      rw [hcc] at hsubf
      have hcp : List.Pairwise (fun (a b : Nat × V) => b.1 < a.1) (e :: rest) :=
        List.Pairwise.sublist hsubf hc
      have hee : e ∈ s.cache := hsubf.subset (List.mem_cons_self e rest)
      have heftr : e.1 < s.keys.countP (fun x => decide (x ≤ v)) := by
        have h1 : e ∈ s.cache.filter
            (fun e => decide (e.1 < s.keys.countP (fun x => decide (x ≤ v)))) := by
          rw [hcc]; exact List.mem_cons_self e rest
        simpa using List.of_mem_filter h1
      obtain ⟨kv, hkv⟩ := hvsome e hee
      have hkvle : kv ≤ v := (hiff e hee kv hkv).mpr heftr
      have hdrop : (s.keys.drop (s.keys.length - (e.1 + 1))).head? = some kv := by
        rw [List.head?_drop]
        have harith : s.keys.length - (e.1 + 1) = s.keys.length - 1 - e.1 := by omega
        rw [harith]
        exact hkv
      have hpop : s.popTillSnapshotLte v = (some (kv, e.2),
          ⟨s.keys.drop (s.keys.length - (e.1 + 1)), e :: rest, s.d⟩) := by
        unfold LogSpacedSnapshots.popTillSnapshotLte
        dsimp only
        rw [hcc]
        simp only [List.head?_cons]
        rw [hdrop]
      refine ⟨e, hee, kv, hkv, hkvle, by rw [hpop], ?_, ?_⟩
      · rw [hpop]
        exact List.mem_cons_self e rest
      · intro e' he' kv' hkv' hkv'le
        have hlt' : e'.1 < s.keys.countP (fun x => decide (x ≤ v)) :=
          (hiff e' he' kv' hkv').mp hkv'le
        have he'f : e' ∈ e :: rest := by
          rw [← hcc]
          exact List.mem_filter.mpr ⟨he', by simpa using hlt'⟩
        have he'le : e'.1 ≤ e.1 := by
          rcases List.mem_cons.mp he'f with h | h
          · rw [h]
          · exact le_of_lt ((List.pairwise_cons.mp hcp).1 e' h)
        refine sorted_getElem_mono hrev he'le ?_ ?_
        · rw [← hva e'.1 (hpos e' he')]
          exact hkv'
        · rw [← hva e.1 (hpos e hee)]
          exact hkv

theorem c8_pop_till_snapshot_lte_witness :
    ((⟨[10], [(0, 100)], 0⟩ : LogSpacedSnapshots Nat Nat).popTillSnapshotLte 20).1 =
      some (10, 100) := by
  have hr : LSSReach (⟨[10], [(0, 100)], 0⟩ : LogSpacedSnapshots Nat Nat) :=
    LSSReach.push (LogSpacedSnapshots.new 0) 10 100 ⟨[10], [(0, 100)], 0⟩
      (LSSReach.new 0) (by intro k hk; simp [LogSpacedSnapshots.new] at hk) (by decide)
  obtain ⟨e, hee, kv, hkv, hkvle, hres, hret, hmax⟩ :=
    (c8_pop_till_snapshot_lte (⟨[10], [(0, 100)], 0⟩ : LogSpacedSnapshots Nat Nat)
      20 hr).2.2 (0, 100) (by decide) 10 (by decide) (by decide)
  have he : e = ((0, 100) : Nat × Nat) := List.mem_singleton.mp hee
  subst he
  have h10 : versionAt (⟨[10], [(0, 100)], 0⟩ : LogSpacedSnapshots Nat Nat)
      (0, 100).1 = some 10 := by decide
  rw [h10] at hkv
  simp only [Option.some.injEq] at hkv
  rw [hres, ← hkv]

/-! ## Claim C3: acyclicity of every reachable forest -/

theorem parentStep_finsert_some {f : Forest} {node p : ID} {d : Bool} {c q : ID} :
    ParentStep (finsert f node ⟨some p, d⟩) c q ↔
      (c = node ∧ q = p) ∨ (c ≠ node ∧ ParentStep f c q) := by
  unfold ParentStep parentOf
  by_cases hc : c = node
  · subst hc
    rw [fget_finsert_self]
    simp [eq_comm]
  · rw [fget_finsert_ne f node c _ hc]
    simp [hc]

theorem parentStep_finsert_none {f : Forest} {node : ID} {d : Bool} {c q : ID} :
    ParentStep (finsert f node ⟨none, d⟩) c q ↔ c ≠ node ∧ ParentStep f c q := by
  unfold ParentStep parentOf
  by_cases hc : c = node
  · subst hc
    rw [fget_finsert_self]
    simp
  · rw [fget_finsert_ne f node c _ hc]
    simp [hc]

theorem parentStep_finsert_keep {f : Forest} {t : ID} {n : TreeNode} {d : Bool}
    (hget : fget f t = some n) {c q : ID} :
    ParentStep (finsert f t ⟨n.parent, d⟩) c q ↔ ParentStep f c q := by
  unfold ParentStep parentOf
  by_cases hc : c = t
  · subst hc
    rw [fget_finsert_self, hget]
    simp
  · rw [fget_finsert_ne f t c _ hc]

theorem fget_finsert_isSome {f : Forest} {k q : ID} {v : TreeNode} :
    (fget (finsert f k v) q).isSome = true ↔ (q = k ∨ (fget f q).isSome = true) := by
  by_cases hq : q = k
  · subst hq
    rw [fget_finsert_self]
    simp
  · rw [fget_finsert_ne f k q v hq]
    simp [hq]

theorem wf_empty : WFForest ([] : Forest) := by
  constructor
  · intro c q hstep
    unfold ParentStep parentOf fget at hstep
    simp at hstep
  · intro x hx
    obtain ⟨c, hc, -⟩ := transGen_head_decomp hx
    unfold ParentStep parentOf fget at hc
    simp at hc

theorem wf_finsert_root {f : Forest} {node : ID} {d : Bool} (hwf : WFForest f) :
    WFForest (finsert f node ⟨none, d⟩) := by
  obtain ⟨hpm, hac⟩ := hwf
  constructor
  · intro c q h
    exact fget_finsert_isSome.mpr (Or.inr (hpm c q (parentStep_finsert_none.mp h).2))
  · intro x hx
    exact hac x (Relation.TransGen.mono
      (fun a b hab => (parentStep_finsert_none.mp hab).2) hx)

theorem wf_finsert_keep {f : Forest} {t : ID} {n : TreeNode} {d : Bool}
    (hget : fget f t = some n) (hwf : WFForest f) :
    WFForest (finsert f t ⟨n.parent, d⟩) := by
  obtain ⟨hpm, hac⟩ := hwf
  constructor
  · intro c q h
    exact fget_finsert_isSome.mpr
      (Or.inr (hpm c q ((parentStep_finsert_keep hget).mp h)))
  · intro x hx
    exact hac x (Relation.TransGen.mono
      (fun a b hab => (parentStep_finsert_keep hget).mp hab) hx)

theorem wf_finsert_edge {f : Forest} {node p : ID} {d : Bool}
    (hwf : WFForest f) (hp : (fget f p).isSome = true) (hpn : p ≠ node)
    (hna : ¬ Relation.TransGen (ParentStep f) p node) :
    WFForest (finsert f node ⟨some p, d⟩) := by
  obtain ⟨hpm, hac⟩ := hwf
  have hto : ∀ z, Relation.ReflTransGen (ParentStep f) z node →
      Relation.ReflTransGen (ParentStep (finsert f node ⟨some p, d⟩)) z node := by
    intro z h
    induction h using Relation.ReflTransGen.head_induction_on with
    | refl => exact .refl
    | head h' hrest ih =>
      rename_i z' c'
      by_cases hz : z' = node
      · exact hz ▸ Relation.ReflTransGen.refl
      · exact Relation.ReflTransGen.head
          (parentStep_finsert_some.mpr (Or.inr ⟨hz, h'⟩)) ih
  have hfrom : ∀ z, Relation.ReflTransGen (ParentStep (finsert f node ⟨some p, d⟩)) z node →
      Relation.ReflTransGen (ParentStep f) z node := by
    intro z h
    induction h using Relation.ReflTransGen.head_induction_on with
    | refl => exact .refl
    | head h' hrest ih =>
      rename_i z' c'
      by_cases hz : z' = node
      · exact hz ▸ Relation.ReflTransGen.refl
      · rcases parentStep_finsert_some.mp h' with ⟨hc, _⟩ | ⟨_, hstep⟩
        · exact absurd hc hz
        · exact Relation.ReflTransGen.head hstep ih
  have htrans : ∀ y x, Relation.TransGen (ParentStep (finsert f node ⟨some p, d⟩)) x y →
      Relation.TransGen (ParentStep f) x y ∨
        (Relation.ReflTransGen (ParentStep f) x node ∧
         Relation.ReflTransGen (ParentStep (finsert f node ⟨some p, d⟩)) p y) := by
    intro y x hx
    induction hx using Relation.TransGen.head_induction_on with
    | base h =>
      rcases parentStep_finsert_some.mp h with ⟨hc, hq⟩ | ⟨_, hstep⟩
      · exact Or.inr ⟨hc ▸ Relation.ReflTransGen.refl, hq ▸ Relation.ReflTransGen.refl⟩
      · exact Or.inl (.single hstep)
    | ih h' ht ihh =>
      rcases parentStep_finsert_some.mp h' with ⟨hc, hq⟩ | ⟨_, hstep⟩
      · exact Or.inr ⟨hc ▸ Relation.ReflTransGen.refl, hq ▸ ht.to_reflTransGen⟩
      · rcases ihh with hl | ⟨hr1, hr2⟩
        · exact Or.inl (.head hstep hl)
        · exact Or.inr ⟨.head hstep hr1, hr2⟩
  constructor
  · intro c q h
    rcases parentStep_finsert_some.mp h with ⟨_, hq⟩ | ⟨_, hstep⟩
    · exact fget_finsert_isSome.mpr (Or.inr (hq ▸ hp))
    · exact fget_finsert_isSome.mpr (Or.inr (hpm c q hstep))
  · intro x hx
    rcases htrans x x hx with hl | ⟨h1, h2⟩
    · exact hac x hl
    · have h4 : Relation.ReflTransGen (ParentStep (finsert f node ⟨some p, d⟩)) p node :=
        h2.trans (hto x h1)
      have h5 : Relation.ReflTransGen (ParentStep f) p node := hfrom p h4
      rcases h5.cases_head with he | ⟨c, hc, hrest⟩
      · exact hpn he
      · exact hna (Relation.TransGen.head' hc hrest)

theorem movSwallow_movM_wf {f : Forest} {nodeId : ID} {parentId : Option ID}
    {f' : Forest} (hwf : WFForest f)
    (h : movSwallow Forest.movM f nodeId parentId = some f') : WFForest f' := by
  unfold movSwallow at h
  cases hm : Forest.movM f nodeId parentId with
  | none => rw [hm] at h; exact absurd h (by simp)
  | some res =>
    rw [hm] at h
    cases res with
    | error e =>
      cases e
      dsimp only at h
      simp only [Option.some.injEq] at h
      exact h ▸ hwf
    | ok g =>
      dsimp only at h
      simp only [Option.some.injEq] at h
      subst h
      unfold Forest.movM at hm
      dsimp only at hm
      cases parentId with
      | none =>
        simp only [Option.some.injEq, Except.ok.injEq] at hm
        rw [← hm]
        exact wf_finsert_root hwf
      | some p =>
        dsimp only at hm
        by_cases hp : (fget f p).isSome = true
        · rw [if_pos hp] at hm
          by_cases hcont : (fget f nodeId).isSome = true
          · rw [if_pos hcont] at hm
            cases ha : isAncestorOf f nodeId p with
            | none => rw [ha] at hm; exact absurd hm (by simp)
            | some b =>
              cases b with
              | true => rw [ha] at hm; simp at hm
              | false =>
                rw [ha] at hm
                dsimp only at hm
                simp only [Option.some.injEq, Except.ok.injEq] at hm
                have hne : nodeId ≠ p := by
                  intro he
                  unfold isAncestorOf at ha
                  rw [if_pos he] at ha
                  simp at ha
                have hna : ¬ Relation.TransGen (ParentStep f) p nodeId := by
                  have ha' : isAncestorOfAux f nodeId (f.length + 1) p = some false := by
                    unfold isAncestorOf at ha
                    rwa [if_neg hne] at ha
                  exact isAncestorOfAux_false ha'
                rw [← hm]
                exact wf_finsert_edge hwf hp (fun he => hne he.symm) hna
          · rw [if_neg hcont] at hm
            simp only [Option.some.injEq, Except.ok.injEq] at hm
            have hpn : p ≠ nodeId := fun he => hcont (he ▸ hp)
            have hna : ¬ Relation.TransGen (ParentStep f) p nodeId := by
              intro ht
              rcases (Relation.transGen_iff _ _ _).mp ht with hstep | ⟨b, _, hstep⟩ <;>
                exact hcont (hwf.1 _ _ hstep)
            rw [← hm]
            exact wf_finsert_edge hwf hp hpn hna
        · rw [if_neg hp] at hm
          exact absurd hm (by simp)

theorem movSwallow_movP_wf {f : Forest} {nodeId : ID} {parentId : Option ID}
    {f' : Forest} (hwf : WFForest f)
    (h : movSwallow Forest.movP f nodeId parentId = some f') : WFForest f' := by
  unfold movSwallow at h
  cases hm : Forest.movP f nodeId parentId with
  | none => rw [hm] at h; exact absurd h (by simp)
  | some res =>
    rw [hm] at h
    cases res with
    | error e =>
      cases e
      dsimp only at h
      simp only [Option.some.injEq] at h
      exact h ▸ hwf
    | ok g =>
      dsimp only at h
      simp only [Option.some.injEq] at h
      subst h
      unfold Forest.movP at hm
      dsimp only at hm
      cases parentId with
      | none =>
        simp only [Option.some.injEq, Except.ok.injEq] at hm
        rw [← hm]
        exact wf_finsert_root hwf
      | some p =>
        dsimp only at hm
        by_cases hp : (fget f p).isSome = true
        · rw [if_pos hp] at hm
          by_cases hcont : (fget f nodeId).isSome = true
          · rw [if_pos hcont] at hm
            cases ha : isAncestorOf f nodeId p with
            | none => rw [ha] at hm; exact absurd hm (by simp)
            | some b =>
              cases b with
              | true => rw [ha] at hm; simp at hm
              | false =>
                rw [ha] at hm
                dsimp only at hm
                simp only [Option.some.injEq, Except.ok.injEq] at hm
                have hne : nodeId ≠ p := by
                  intro he
                  unfold isAncestorOf at ha
                  rw [if_pos he] at ha
                  simp at ha
                have hna : ¬ Relation.TransGen (ParentStep f) p nodeId := by
                  have ha' : isAncestorOfAux f nodeId (f.length + 1) p = some false := by
                    unfold isAncestorOf at ha
                    rwa [if_neg hne] at ha
                  exact isAncestorOfAux_false ha'
                rw [← hm]
                exact wf_finsert_edge hwf hp (fun he => hne he.symm) hna
          · rw [if_neg hcont] at hm
            simp only [Option.some.injEq, Except.ok.injEq] at hm
            have hpn : p ≠ nodeId := fun he => hcont (he ▸ hp)
            have hna : ¬ Relation.TransGen (ParentStep f) p nodeId := by
              intro ht
              rcases (Relation.transGen_iff _ _ _).mp ht with hstep | ⟨b, _, hstep⟩ <;>
                exact hcont (hwf.1 _ _ hstep)
            rw [← hm]
            exact wf_finsert_edge hwf hp hpn hna
        · rw [if_neg hp] at hm
          exact absurd hm (by simp)

theorem forest_delete_wf {f : Forest} {target : ID} {f' : Forest} (hwf : WFForest f)
    (h : Forest.delete f target = some f') : WFForest f' := by
  unfold Forest.delete at h
  cases hg : fget f target with
  | none => rw [hg] at h; exact absurd h (by simp)
  | some n =>
    rw [hg] at h
    simp only [Option.map_some', Option.some.injEq] at h
    rw [← h]
    exact wf_finsert_keep hg hwf

theorem forest_undoDelete_wf {f : Forest} {target : ID} {f' : Forest} (hwf : WFForest f)
    (h : Forest.undoDelete f target = some f') : WFForest f' := by
  unfold Forest.undoDelete at h
  cases hg : fget f target with
  | none => rw [hg] at h; exact absurd h (by simp)
  | some n =>
    rw [hg] at h
    simp only [Option.map_some', Option.some.injEq] at h
    rw [← h]
    exact wf_finsert_keep hg hwf

theorem stepP_wf {f : Forest} {op : Op} {f' : Forest} (hwf : WFForest f)
    (h : stepP f op = some f') : WFForest f' := by
  unfold stepP at h
  cases hc : op.content with
  | new parent => rw [hc] at h; exact movSwallow_movP_wf hwf h
  | move target parent => rw [hc] at h; exact movSwallow_movP_wf hwf h
  | delete target => rw [hc] at h; exact forest_delete_wf hwf h

theorem stepM_wf {f : Forest} {op : Op} {f' : Forest} (hwf : WFForest f)
    (h : stepM f op = some f') : WFForest f' := by
  unfold stepM at h
  cases hc : op.content with
  | new parent => rw [hc] at h; exact movSwallow_movM_wf hwf h
  | move target parent => rw [hc] at h; exact movSwallow_movM_wf hwf h
  | delete target => rw [hc] at h; exact forest_delete_wf hwf h

theorem undoStep_wf {f : Forest} {t : OpTuple} {f' : Forest} (hwf : WFForest f)
    (h : CrdtUndo.undoStep f t = some f') : WFForest f' := by
  unfold CrdtUndo.undoStep at h
  cases hc : t.op.content with
  | new parent =>
    rw [hc] at h
    dsimp only at h
    simp only [Option.some.injEq] at h
    exact h ▸ hwf
  | move target parent => rw [hc] at h; exact movSwallow_movM_wf hwf h
  | delete target => rw [hc] at h; exact forest_undoDelete_wf hwf h

theorem foldlM_option_inv {α β : Type} (P : α → Prop) (step : α → β → Option α)
    (hstep : ∀ a b a', P a → step a b = some a' → P a') :
    ∀ (l : List β) (a a' : α), l.foldlM step a = some a' → P a → P a' := by
  intro l
  induction l with
  | nil =>
    intro a a' h hp
    simp only [List.foldlM_nil, Option.pure_def, Option.some.injEq] at h
    exact h ▸ hp
  | cons b t ih =>
    intro a a' h hp
    rw [List.foldlM_cons] at h
    cases hs : step a b with
    | none => rw [hs] at h; exact absurd h (by simp)
    | some a1 =>
      rw [hs] at h
      simp only [Option.bind_eq_bind, Option.some_bind] at h
      exact ih a1 a' h (hstep a b a1 hp hs)

theorem push_cacheWF {c : LogSpacedSnapshots ID Forest} {v : ID} {x : Forest}
    {c' : LogSpacedSnapshots ID Forest} (hc : CacheWF c) (hx : WFForest x)
    (h : c.push v x = some c') : CacheWF c' := by
  unfold LogSpacedSnapshots.push at h
  dsimp only at h
  have hmem : ∀ e : Nat × Forest, e ∈ (c.keys.length, x) ::
      (if firstZeroBit c.keys.length <<< c.d ≤ c.keys.length then
        c.cache.filter (fun e => e.1 ≠ c.keys.length - (firstZeroBit c.keys.length <<< c.d))
        else c.cache) → WFForest e.2 := by
    intro e he
    rcases List.mem_cons.mp he with he | he
    · rw [he]; exact hx
    · refine hc e ?_
      revert he
      split
      · exact fun he => List.mem_of_mem_filter he
      · exact fun he => he
  cases hh : c.keys.head? with
  | some last =>
    rw [hh] at h
    dsimp only at h
    by_cases hlt : last < v
    · rw [if_pos hlt] at h
      simp only [Option.some.injEq] at h
      rw [← h]
      exact fun e he => hmem e he
    · rw [if_neg hlt] at h
      exact absurd h (by simp)
  | none =>
    rw [hh] at h
    dsimp only at h
    simp only [Option.some.injEq] at h
    rw [← h]
    exact fun e he => hmem e he

theorem applyStep_wf {acc : Forest × LogSpacedSnapshots ID Forest} {op : Op}
    {acc' : Forest × LogSpacedSnapshots ID Forest}
    (hf : WFForest acc.1) (hcw : CacheWF acc.2)
    (h : Crdt.applyStep acc op = some acc') :
    WFForest acc'.1 ∧ CacheWF acc'.2 := by
  unfold Crdt.applyStep at h
  cases hc : op.content with
  | new parent =>
    rw [hc] at h
    dsimp only at h
    cases hm : movSwallow Forest.movP acc.1 op.id parent with
    | none => rw [hm] at h; exact absurd h (by simp)
    | some g =>
      rw [hm] at h
      simp only [Option.bind_eq_bind, Option.some_bind] at h
      cases hp : acc.2.push op.id g with
      | none => rw [hp] at h; exact absurd h (by simp)
      | some c' =>
        rw [hp] at h
        simp only [Option.some_bind, Option.pure_def, Option.some.injEq] at h
        have hg := movSwallow_movP_wf hf hm
        rw [← h]
        exact ⟨hg, push_cacheWF hcw hg hp⟩
  | move target parent =>
    rw [hc] at h
    dsimp only at h
    cases hm : movSwallow Forest.movP acc.1 target parent with
    | none => rw [hm] at h; exact absurd h (by simp)
    | some g =>
      rw [hm] at h
      simp only [Option.bind_eq_bind, Option.some_bind] at h
      cases hp : acc.2.push op.id g with
      | none => rw [hp] at h; exact absurd h (by simp)
      | some c' =>
        rw [hp] at h
        simp only [Option.some_bind, Option.pure_def, Option.some.injEq] at h
        have hg := movSwallow_movP_wf hf hm
        rw [← h]
        exact ⟨hg, push_cacheWF hcw hg hp⟩
  | delete target =>
    rw [hc] at h
    dsimp only at h
    cases hm : Forest.delete acc.1 target with
    | none => rw [hm] at h; exact absurd h (by simp)
    | some g =>
      rw [hm] at h
      simp only [Option.bind_eq_bind, Option.some_bind] at h
      cases hp : acc.2.push op.id g with
      | none => rw [hp] at h; exact absurd h (by simp)
      | some c' =>
        rw [hp] at h
        simp only [Option.some_bind, Option.pure_def, Option.some.injEq] at h
        have hg := forest_delete_wf hf hm
        rw [← h]
        exact ⟨hg, push_cacheWF hcw hg hp⟩

theorem snap_applyPendingOps_wfC3 {s s' : Crdt}
    (hf : WFForest s.forest) (hcw : CacheWF s.cache)
    (h : Crdt.applyPendingOps s = some s') :
    WFForest s'.forest ∧ CacheWF s'.cache := by
  unfold Crdt.applyPendingOps at h
  cases hfold : (s.sortedOps.drop s.appliedEnd).foldlM Crdt.applyStep
      (s.forest, s.cache) with
  | none => rw [hfold] at h; exact absurd h (by simp)
  | some p =>
    rw [hfold] at h
    obtain ⟨f, c⟩ := p
    simp only [Option.bind_eq_bind, Option.some_bind, Option.pure_def,
      Option.some.injEq] at h
    have hinv := foldlM_option_inv
      (fun acc : Forest × LogSpacedSnapshots ID Forest => WFForest acc.1 ∧ CacheWF acc.2)
      Crdt.applyStep (fun a b a' hp hs => applyStep_wf hp.1 hp.2 hs)
      _ _ _ hfold ⟨hf, hcw⟩
    rw [← h]
    exact hinv

theorem applyStepU_wf {acc : Forest × List OpTuple} {t : OpTuple}
    {acc' : Forest × List OpTuple} (hf : WFForest acc.1)
    (h : CrdtUndo.applyStepU acc t = some acc') : WFForest acc'.1 := by
  unfold CrdtUndo.applyStepU at h
  cases hc : t.op.content with
  | new parent =>
    rw [hc] at h
    dsimp only at h
    cases hm : movSwallow Forest.movM acc.1 t.op.id parent with
    | none => rw [hm] at h; exact absurd h (by simp)
    | some g =>
      rw [hm] at h
      simp only [Option.bind_eq_bind, Option.some_bind, Option.pure_def,
        Option.some.injEq] at h
      rw [← h]
      exact movSwallow_movM_wf hf hm
  | move target parent =>
    rw [hc] at h
    dsimp only at h
    cases hm : movSwallow Forest.movM acc.1 target parent with
    | none => rw [hm] at h; exact absurd h (by simp)
    | some g =>
      rw [hm] at h
      simp only [Option.bind_eq_bind, Option.some_bind, Option.pure_def,
        Option.some.injEq] at h
      rw [← h]
      exact movSwallow_movM_wf hf hm
  | delete target =>
    rw [hc] at h
    dsimp only at h
    cases hm : Forest.delete acc.1 target with
    | none => rw [hm] at h; exact absurd h (by simp)
    | some g =>
      rw [hm] at h
      simp only [Option.bind_eq_bind, Option.some_bind, Option.pure_def,
        Option.some.injEq] at h
      rw [← h]
      exact forest_delete_wf hf hm

theorem undo_applyPendingOps_wfC3 {s s' : CrdtUndo}
    (hf : WFForest s.forest) (h : CrdtUndo.applyPendingOps s = some s') :
    WFForest s'.forest := by
  unfold CrdtUndo.applyPendingOps at h
  cases hfold : (s.sortedOps.drop s.appliedEnd).foldlM CrdtUndo.applyStepU
      (s.forest, []) with
  | none => rw [hfold] at h; exact absurd h (by simp)
  | some p =>
    rw [hfold] at h
    obtain ⟨f, ts⟩ := p
    simp only [Option.bind_eq_bind, Option.some_bind, Option.pure_def,
      Option.some.injEq] at h
    have hinv := foldlM_option_inv
      (fun acc : Forest × List OpTuple => WFForest acc.1)
      CrdtUndo.applyStepU (fun a b a' hp hs => applyStepU_wf hp hs)
      _ _ _ hfold hf
    rw [← h]
    exact hinv

theorem pop_cacheWF {c : LogSpacedSnapshots ID Forest} {k : ID} (hc : CacheWF c) :
    CacheWF (c.popTillSnapshotLte k).2 ∧
    (∀ kk v, (c.popTillSnapshotLte k).1 = some (kk, v) → WFForest v) := by
  unfold LogSpacedSnapshots.popTillSnapshotLte
  dsimp only
  cases hcc : c.cache.filter
      (fun e => decide (e.1 < c.keys.countP (fun x => decide (x ≤ k)))) with
  | nil =>
    refine ⟨fun e he => absurd he (by simp), fun kk v hv => by simp at hv⟩
  | cons e rest =>
    have hsubf : (e :: rest).Sublist c.cache := by
      rw [← hcc]
      exact List.filter_sublist _
    simp only [List.head?_cons]
    cases hkk : (c.keys.drop (c.keys.length - (e.1 + 1))).head? with
    | none =>
      refine ⟨fun e' he' => hc e' (hsubf.subset he'), fun kk v hv => by simp at hv⟩
    | some kk0 =>
      refine ⟨fun e' he' => hc e' (hsubf.subset he'), fun kk v hv => ?_⟩
      simp only [Option.some.injEq, Prod.mk.injEq] at hv
      rw [← hv.2]
      exact hc e (hsubf.subset (List.mem_cons_self e rest))

theorem collect_fc_snap (l : OpLog) :
    ∀ (st : Crdt) (ans : List Op),
      (l.foldl Crdt.collectStep (st, ans)).1.forest = st.forest ∧
      (l.foldl Crdt.collectStep (st, ans)).1.cache = st.cache := by
  induction l with
  | nil => intro st ans; exact ⟨rfl, rfl⟩
  | cons e t ih =>
    intro st ans
    rw [List.foldl_cons, snap_collectStep_eq]
    split
    · exact ⟨(ih _ _).1, (ih _ _).2⟩
    · exact ih st ans

theorem collect_fc_undo (l : OpLog) :
    ∀ (st : CrdtUndo) (ans : List Op),
      (l.foldl CrdtUndo.collectStep (st, ans)).1.forest = st.forest := by
  induction l with
  | nil => intro st ans; exact rfl
  | cons e t ih =>
    intro st ans
    rw [List.foldl_cons, undo_collectStep_eq]
    split
    · exact ih _ _
    · exact ih st ans

theorem Crdt.mergeRewind_wfC3 {s1 : Crdt} {ansS : List Op} {startId : ID} {s2 : Crdt}
    (hf : WFForest s1.forest) (hcw : CacheWF s1.cache)
    (h : Crdt.mergeRewind s1 ansS startId = some s2) :
    WFForest s2.forest ∧ CacheWF s2.cache := by
  obtain ⟨hpc, hpv⟩ := pop_cacheWF (k := startId) hcw
  unfold Crdt.mergeRewind at h
  cases hp : s1.cache.popTillSnapshotLte startId with
  | mk popped cache' =>
    rw [hp] at h
    dsimp only at h
    rw [hp] at hpc hpv
    cases popped with
    | none =>
      simp only [Option.some.injEq] at h
      rw [← h]
      exact ⟨hf, hpc⟩
    | some e =>
      obtain ⟨idv, snapshot⟩ := e
      dsimp only at h
      cases hfi : s1.sortedOps.findIdx? (fun o => o.id = idv) with
      | none => rw [hfi] at h; exact absurd h (by simp)
      | some last =>
        rw [hfi] at h
        simp only [Option.some.injEq] at h
        rw [← h]
        exact ⟨hpv idv snapshot rfl, hpc⟩

theorem CrdtUndo.revertUntil_wfC3 {s : CrdtUndo} {idv : ID} {popped : List Op}
    {s2 : CrdtUndo} (hf : WFForest s.forest)
    (h : CrdtUndo.revertUntil s idv = some (popped, s2)) : WFForest s2.forest := by
  unfold CrdtUndo.revertUntil at h
  by_cases hany : s.sortedOps.any (fun t => t.op.id = idv)
  · rw [if_pos hany] at h
    exact absurd h (by simp)
  · rw [if_neg hany] at h
    dsimp only at h
    cases hfold : ((s.sortedOps.drop
        (s.sortedOps.countP (fun t => decide (t.op.id < idv)))).reverse).foldlM
        CrdtUndo.undoStep s.forest with
    | none => rw [hfold] at h; exact absurd h (by simp)
    | some f =>
      rw [hfold] at h
      dsimp only at h
      simp only [Option.some.injEq, Prod.mk.injEq] at h
      rw [← h.2]
      exact foldlM_option_inv WFForest CrdtUndo.undoStep
        (fun a b a' hp hs => undoStep_wf hp hs) _ _ _ hfold hf

theorem snap_merge_wfC3 {s other s' : Crdt}
    (hf : WFForest s.forest) (hcw : CacheWF s.cache)
    (h : Crdt.merge s other = some s') :
    WFForest s'.forest ∧ CacheWF s'.cache := by
  unfold Crdt.merge at h
  cases hc : Crdt.collectIncoming s other with
  | mk s1 ans =>
    rw [hc] at h
    dsimp only at h
    have hfc := collect_fc_snap other.log s []
    rw [show other.log.foldl Crdt.collectStep (s, []) = Crdt.collectIncoming s other
      from rfl, hc] at hfc
    have hf1 : WFForest s1.forest := by rw [hfc.1]; exact hf
    have hcw1 : CacheWF s1.cache := by rw [hfc.2]; exact hcw
    by_cases hemp : ans.isEmpty
    · rw [if_pos hemp] at h
      simp only [Option.some.injEq] at h
      rw [← h]
      exact ⟨hf1, hcw1⟩
    · rw [if_neg hemp] at h
      cases hh : (sortOps ans).head? with
      | none => rw [hh] at h; exact absurd h (by simp)
      | some first =>
        rw [hh] at h
        simp only [Option.bind_eq_bind] at h
        cases hr : Crdt.mergeRewind s1 (sortOps ans) first.id with
        | none => rw [hr] at h; exact absurd h (by simp)
        | some s2 =>
          rw [hr] at h
          simp only [Option.some_bind] at h
          have h2 := Crdt.mergeRewind_wfC3 hf1 hcw1 hr
          exact snap_applyPendingOps_wfC3 h2.1 h2.2 h

theorem undo_merge_wfC3 {s other s' : CrdtUndo}
    (hf : WFForest s.forest) (h : CrdtUndo.merge s other = some s') :
    WFForest s'.forest := by
  unfold CrdtUndo.merge at h
  cases hc : CrdtUndo.collectIncoming s other with
  | mk s1 ans =>
    rw [hc] at h
    dsimp only at h
    have hfc := collect_fc_undo other.log s []
    rw [show other.log.foldl CrdtUndo.collectStep (s, []) = CrdtUndo.collectIncoming s other
      from rfl, hc] at hfc
    have hf1 : WFForest s1.forest := by rw [hfc]; exact hf
    cases ans with
    | nil =>
      simp only [Option.some.injEq] at h
      rw [← h]
      exact hf1
    | cons hd tl =>
      simp only [Option.bind_eq_bind] at h
      cases hr : s1.revertUntil (CrdtUndo.minId hd tl) with
      | none => rw [hr] at h; exact absurd h (by simp)
      | some pr =>
        rw [hr] at h
        obtain ⟨popped, s2⟩ := pr
        simp only [Option.some_bind] at h
        have h2 : WFForest s2.forest := CrdtUndo.revertUntil_wfC3 hf1 hr
        refine undo_applyPendingOps_wfC3 ?_ h
        exact h2

theorem snap_newNode_wfC3 {s : Crdt} {p : Option ID} {s' : Crdt} {i : ID}
    (hf : WFForest s.forest) (hcw : CacheWF s.cache)
    (h : Crdt.newNode s p = some (s', i)) :
    WFForest s'.forest ∧ CacheWF s'.cache := by
  unfold Crdt.newNode at h
  dsimp only [Crdt.newId] at h
  cases ha : Crdt.applyPendingOps
      (Crdt.pushOp { s with greatestLamport := s.greatestLamport + 1 }
        ⟨⟨s.greatestLamport, s.client⟩, OpContent.new p⟩) with
  | none => rw [ha] at h; exact absurd h (by simp)
  | some s2 =>
    rw [ha] at h
    simp only [Option.bind_eq_bind, Option.some_bind, Option.pure_def,
      Option.some.injEq, Prod.mk.injEq] at h
    rw [← h.1]
    refine snap_applyPendingOps_wfC3 ?_ ?_ ha
    · exact hf
    · exact hcw

theorem snap_mov_wfC3 {s : Crdt} {t : ID} {p : Option ID} {s' : Crdt}
    (hf : WFForest s.forest) (hcw : CacheWF s.cache)
    (h : Crdt.mov s t p = some s') :
    WFForest s'.forest ∧ CacheWF s'.cache := by
  unfold Crdt.mov at h
  dsimp only [Crdt.newId] at h
  refine snap_applyPendingOps_wfC3 ?_ ?_ h
  · exact hf
  · exact hcw

theorem snap_delete_wfC3 {s : Crdt} {t : ID} {s' : Crdt}
    (hf : WFForest s.forest) (hcw : CacheWF s.cache)
    (h : Crdt.delete s t = some s') :
    WFForest s'.forest ∧ CacheWF s'.cache := by
  unfold Crdt.delete at h
  dsimp only [Crdt.newId] at h
  refine snap_applyPendingOps_wfC3 ?_ ?_ h
  · exact hf
  · exact hcw

theorem undo_newNode_wfC3 {s : CrdtUndo} {p : Option ID} {s' : CrdtUndo} {i : ID}
    (hf : WFForest s.forest) (h : CrdtUndo.newNode s p = some (s', i)) :
    WFForest s'.forest := by
  unfold CrdtUndo.newNode at h
  dsimp only [CrdtUndo.newId] at h
  cases ha : CrdtUndo.applyPendingOps
      (CrdtUndo.pushOp { s with nextLamport := s.nextLamport + 1 }
        ⟨⟨s.nextLamport, s.client⟩, OpContent.new p⟩) with
  | none => rw [ha] at h; exact absurd h (by simp)
  | some s2 =>
    rw [ha] at h
    simp only [Option.bind_eq_bind, Option.some_bind, Option.pure_def,
      Option.some.injEq, Prod.mk.injEq] at h
    rw [← h.1]
    refine undo_applyPendingOps_wfC3 ?_ ha
    exact hf

theorem undo_mov_wfC3 {s : CrdtUndo} {t : ID} {p : Option ID} {s' : CrdtUndo}
    (hf : WFForest s.forest) (h : CrdtUndo.mov s t p = some s') :
    WFForest s'.forest := by
  unfold CrdtUndo.mov at h
  dsimp only [CrdtUndo.newId] at h
  refine undo_applyPendingOps_wfC3 ?_ h
  exact hf

theorem undo_delete_wfC3 {s : CrdtUndo} {t : ID} {s' : CrdtUndo}
    (hf : WFForest s.forest) (h : CrdtUndo.delete s t = some s') :
    WFForest s'.forest := by
  unfold CrdtUndo.delete at h
  dsimp only [CrdtUndo.newId] at h
  refine undo_applyPendingOps_wfC3 ?_ h
  exact hf

theorem crdtReach_wf {s : Crdt} (h : CrdtReach s) :
    WFForest s.forest ∧ CacheWF s.cache := by
  induction h with
  | new c =>
    refine ⟨wf_empty, ?_⟩
    intro e he
    simp [Crdt.new, LogSpacedSnapshots.new] at he
  | newNode s p s' i hr happ ih => exact snap_newNode_wfC3 ih.1 ih.2 happ
  | mov s t p s' hr happ ih => exact snap_mov_wfC3 ih.1 ih.2 happ
  | delete s t s' hr happ ih => exact snap_delete_wfC3 ih.1 ih.2 happ
  | merge s other s' hr hro hm ih iho => exact snap_merge_wfC3 ih.1 ih.2 hm

theorem crdtUndoReach_wf {s : CrdtUndo} (h : CrdtUndoReach s) :
    WFForest s.forest := by
  induction h with
  | new c => exact wf_empty
  | newNode s p s' i hr happ ih => exact undo_newNode_wfC3 ih happ
  | mov s t p s' hr happ ih => exact undo_mov_wfC3 ih happ
  | delete s t s' hr happ ih => exact undo_delete_wfC3 ih happ
  | merge s other s' hr hro hm ih iho => exact undo_merge_wfC3 ih hm

/-- **Claim C3** — for every replica state reachable by any sequence of
`new_node`, `mov`, `delete` and (same-variant) `merge` calls, in either
variant, the forest's parent-pointer graph is acyclic: no node transitively
reaches itself by following parent pointers.  (The proof establishes the
stronger well-formedness invariant: parent pointers also always target nodes
present in the map, and for the snapshot variant every cached snapshot is
well-formed too.) -/
theorem c3_reachable_forests_acyclic :
    (∀ s : Crdt, CrdtReach s → AcyclicF s.forest) ∧
    (∀ s : CrdtUndo, CrdtUndoReach s → AcyclicF s.forest) :=
  ⟨fun s h => (crdtReach_wf h).1.2, fun s h => (crdtUndoReach_wf h).2⟩

theorem c3_reachable_forests_acyclic_witness :
    AcyclicF ([(⟨0, 2⟩, ⟨none, false⟩)] : Forest) := by
  have hstep : Crdt.newNode (Crdt.new 2) none =
      some (⟨[(⟨0, 2⟩, ⟨none, false⟩)],
        ⟨[⟨0, 2⟩], [(0, [(⟨0, 2⟩, ⟨none, false⟩)])], 2⟩,
        2, 1, [(2, [⟨⟨0, 2⟩, OpContent.new none⟩])],
        [⟨⟨0, 2⟩, OpContent.new none⟩], 1⟩, ⟨0, 2⟩) := by decide
  exact c3_reachable_forests_acyclic.1 _
    (CrdtReach.newNode (Crdt.new 2) none _ ⟨0, 2⟩ (CrdtReach.new 2) hstep)

/-! ## Claim C5: the full-replay branch of `Crdt::merge` -/

theorem fget_eq_none_of_forall_gt {f : Forest} {k : ID}
    (h : ∀ e ∈ f, k < e.1) : fget f k = none := by
  induction f with
  | nil => rfl
  | cons e t ih =>
    have hk : k < e.1 := h e (List.mem_cons_self e t)
    unfold fget
    rw [if_neg (ne_of_lt hk)]
    exact ih (fun e' he' => h e' (List.mem_cons_of_mem e he'))

theorem forest_ext : ∀ {f g : Forest}, SortedForest f → SortedForest g →
    (∀ x, fget f x = fget g x) → f = g := by
  intro f
  induction f with
  | nil =>
    intro g _ hg hx
    cases g with
    | nil => rfl
    | cons e t =>
      have h1 := hx e.1
      unfold fget at h1
      simp at h1
  | cons e t ih =>
    intro g hf hg hx
    cases g with
    | nil =>
      have h1 := hx e.1
      unfold fget at h1
      simp at h1
    | cons e' t' =>
      obtain ⟨hfe, hft⟩ := List.pairwise_cons.mp hf
      obtain ⟨hge, hgt⟩ := List.pairwise_cons.mp hg
      have hkeys : e.1 = e'.1 := by
        by_contra hne
        rcases lt_or_gt_of_ne hne with hlt | hgt'
        · have h1 := hx e.1
          unfold fget at h1
          rw [if_pos rfl, if_neg (by exact fun h => absurd h (ne_of_lt hlt))] at h1
          rw [fget_eq_none_of_forall_gt (fun q hq => lt_trans hlt (hge q hq))] at h1
          exact Option.noConfusion h1
        · have h1 := hx e'.1
          unfold fget at h1
          rw [if_pos rfl, if_neg (by exact fun h => absurd h (ne_of_lt hgt'))] at h1
          rw [fget_eq_none_of_forall_gt (fun q hq => lt_trans hgt' (hfe q hq))] at h1
          exact Option.noConfusion h1.symm
      have hv : e.2 = e'.2 := by
        have h1 := hx e.1
        unfold fget at h1
        rw [if_pos rfl, if_pos hkeys] at h1
        simpa using h1
      have htt : t = t' := by
        refine ih hft hgt ?_
        intro x
        by_cases hxe : x = e.1
        · subst hxe
          rw [fget_eq_none_of_forall_gt hfe,
            fget_eq_none_of_forall_gt (fun q hq => hkeys ▸ hge q hq)]
        · have h1 := hx x
          unfold fget at h1
          rw [if_neg hxe, if_neg (fun h => hxe (h.trans hkeys.symm))] at h1
          exact h1
      calc e :: t = (e.1, e.2) :: t := rfl
        _ = (e'.1, e'.2) :: t' := by rw [hkeys, hv, htt]
        _ = e' :: t' := rfl

theorem finsert_sorted {f : Forest} {k : ID} {v : TreeNode}
    (hf : SortedForest f) : SortedForest (finsert f k v) := by
  induction f with
  | nil => exact List.pairwise_singleton _ _
  | cons e t ih =>
    obtain ⟨he, ht⟩ := List.pairwise_cons.mp hf
    unfold finsert
    by_cases h1 : k < e.1
    · rw [if_pos h1]
      exact List.pairwise_cons.mpr ⟨fun q hq => by
        rcases List.mem_cons.mp hq with hq | hq
        · exact hq ▸ h1
        · exact lt_trans h1 (he q hq), hf⟩
    · rw [if_neg h1]
      by_cases h2 : k = e.1
      · rw [if_pos h2]
        exact List.pairwise_cons.mpr ⟨fun q hq => h2 ▸ he q hq, ht⟩
      · rw [if_neg h2]
        refine List.pairwise_cons.mpr ⟨?_, ih ht⟩
        intro q hq
        have hmem : q.1 = k ∨ q ∈ t := by
          clear ih he hf ht
          induction t with
          | nil =>
            unfold finsert at hq
            simp only [List.mem_singleton] at hq
            exact Or.inl (hq ▸ rfl)
          | cons e' t' ih' =>
            unfold finsert at hq
            by_cases hh1 : k < e'.1
            · rw [if_pos hh1] at hq
              rcases List.mem_cons.mp hq with hq | hq
              · exact Or.inl (hq ▸ rfl)
              · exact Or.inr hq
            · rw [if_neg hh1] at hq
              by_cases hh2 : k = e'.1
              · rw [if_pos hh2] at hq
                rcases List.mem_cons.mp hq with hq | hq
                · exact Or.inl (hq ▸ rfl)
                · exact Or.inr (List.mem_cons_of_mem e' hq)
              · rw [if_neg hh2] at hq
                rcases List.mem_cons.mp hq with hq | hq
                · exact Or.inr (hq ▸ List.mem_cons_self e' t')
                · rcases ih' hq with h | h
                  · exact Or.inl h
                  · exact Or.inr (List.mem_cons_of_mem e' h)
        rcases hmem with h | h
        · rw [h]
          rcases lt_trichotomy e.1 k with hlt | heq | hgt
          · exact hlt
          · exact absurd heq.symm h2
          · exact absurd hgt h1
        · exact he q h

theorem movSwallowP_cases {f : Forest} {n : ID} {pid : Option ID} {f' : Forest}
    (h : movSwallow Forest.movP f n pid = some f') :
    (pid = none ∧ f' = finsert f n ⟨none, false⟩) ∨
    (∃ p, pid = some p ∧ (fget f p).isSome = true ∧
      ((fget f n = none ∧ f' = finsert f n ⟨some p, false⟩) ∨
       (∃ nf, fget f n = some nf ∧
         ((isAncestorOf f n p = some true ∧ f' = f) ∨
          (isAncestorOf f n p = some false ∧
            f' = finsert f n ⟨some p, nf.deleted⟩))))) := by
  unfold movSwallow at h
  cases hm : Forest.movP f n pid with
  | none => rw [hm] at h; exact absurd h (by simp)
  | some res =>
    rw [hm] at h
    unfold Forest.movP at hm
    dsimp only at hm
    cases pid with
    | none =>
      simp only [Option.some.injEq] at hm
      rw [← hm] at h
      dsimp only at h
      simp only [Option.some.injEq] at h
      exact Or.inl ⟨rfl, h.symm⟩
    | some p =>
      dsimp only at hm
      by_cases hp : (fget f p).isSome = true
      · rw [if_pos hp] at hm
        by_cases hcont : (fget f n).isSome = true
        · rw [if_pos hcont] at hm
          obtain ⟨nf, hnf⟩ := Option.isSome_iff_exists.mp hcont
          cases ha : isAncestorOf f n p with
          | none => rw [ha] at hm; exact absurd hm (by simp)
          | some b =>
            rw [ha] at hm
            cases b with
            | true =>
              dsimp only at hm
              simp only [Option.some.injEq] at hm
              rw [← hm] at h
              dsimp only at h
              simp only [Option.some.injEq] at h
              exact Or.inr ⟨p, rfl, hp, Or.inr ⟨nf, hnf,
                Or.inl ⟨ha, h.symm⟩⟩⟩
            | false =>
              dsimp only at hm
              simp only [Option.some.injEq] at hm
              rw [← hm] at h
              dsimp only at h
              simp only [Option.some.injEq] at h
              refine Or.inr ⟨p, rfl, hp, Or.inr ⟨nf, hnf, Or.inr ⟨ha, ?_⟩⟩⟩
              rw [← h, hnf]
              rfl
        · rw [if_neg hcont] at hm
          simp only [Option.some.injEq] at hm
          rw [← hm] at h
          dsimp only at h
          simp only [Option.some.injEq] at h
          have hnone : fget f n = none := by
            cases hg : fget f n with
            | none => rfl
            | some v => rw [hg] at hcont; simp at hcont
          exact Or.inr ⟨p, rfl, hp, Or.inl ⟨hnone, h.symm⟩⟩
      · rw [if_neg hp] at hm
        exact absurd hm (by simp)

theorem stepP_cases {f f' : Forest} {op : Op} (h : stepP f op = some f') :
    ((∃ t, op.content = OpContent.delete t) ∧ ∃ nf, fget f op.node = some nf ∧
        f' = finsert f op.node ⟨nf.parent, true⟩) ∨
    ((∀ t, op.content ≠ OpContent.delete t) ∧
      ((op.parentRef = none ∧ f' = finsert f op.node ⟨none, false⟩) ∨
       (∃ p, op.parentRef = some p ∧ (fget f p).isSome = true ∧
         ((fget f op.node = none ∧ f' = finsert f op.node ⟨some p, false⟩) ∨
          (∃ nf, fget f op.node = some nf ∧
            ((isAncestorOf f op.node p = some true ∧ f' = f) ∨
             (isAncestorOf f op.node p = some false ∧
               f' = finsert f op.node ⟨some p, nf.deleted⟩))))))) := by
  unfold stepP at h
  cases hc : op.content with
  | new parent =>
    rw [hc] at h
    dsimp only at h
    have hnode : op.node = op.id := by simp [Op.node, hc]
    have hpr : op.parentRef = parent := by simp [Op.parentRef, hc]
    rw [hnode, hpr]
    exact Or.inr ⟨fun t ht => by simp [hc] at ht,
      movSwallowP_cases h⟩
  | move target parent =>
    rw [hc] at h
    dsimp only at h
    have hnode : op.node = target := by simp [Op.node, hc]
    have hpr : op.parentRef = parent := by simp [Op.parentRef, hc]
    rw [hnode, hpr]
    exact Or.inr ⟨fun t ht => by simp [hc] at ht,
      movSwallowP_cases h⟩
  | delete target =>
    rw [hc] at h
    dsimp only at h
    have hnode : op.node = target := by simp [Op.node, hc]
    unfold Forest.delete at h
    cases hg : fget f target with
    | none => rw [hg] at h; exact absurd h (by simp)
    | some nf =>
      rw [hg] at h
      simp only [Option.map_some', Option.some.injEq] at h
      exact Or.inl ⟨⟨target, rfl⟩, nf, hnode ▸ hg, hnode ▸ h.symm⟩

theorem stepP_fget_other {f f' : Forest} {op : Op} (h : stepP f op = some f')
    {x : ID} (hx : x ≠ op.node) : fget f' x = fget f x := by
  rcases stepP_cases h with ⟨-, nf, -, he⟩ |
    ⟨-, ⟨-, he⟩ | ⟨p, -, -, ⟨-, he⟩ | ⟨nf, -, ⟨-, he⟩ | ⟨-, he⟩⟩⟩⟩ <;>
    rw [he] <;> first | rfl | exact fget_finsert_ne f op.node x _ hx

theorem stepP_dom_mono {f f' : Forest} {op : Op} (h : stepP f op = some f')
    {x : ID} (hx : (fget f x).isSome = true) : (fget f' x).isSome = true := by
  by_cases hxn : x = op.node
  · subst hxn
    rcases stepP_cases h with ⟨-, nf, -, he⟩ |
      ⟨-, ⟨-, he⟩ | ⟨p, -, -, ⟨-, he⟩ | ⟨nf, -, ⟨-, he⟩ | ⟨-, he⟩⟩⟩⟩ <;>
      rw [he] <;> first | exact hx | rw [fget_finsert_self] <;> rfl
  · rw [stepP_fget_other h hxn]
    exact hx

theorem stepP_dom_self {f f' : Forest} {op : Op} (h : stepP f op = some f') :
    (fget f' op.node).isSome = true := by
  rcases stepP_cases h with ⟨-, nf, hg, he⟩ |
    ⟨-, ⟨-, he⟩ | ⟨p, -, -, ⟨-, he⟩ | ⟨nf, hg, ⟨-, he⟩ | ⟨-, he⟩⟩⟩⟩ <;>
    rw [he] <;> first | (rw [fget_finsert_self]; rfl) | (rw [hg]; rfl)

theorem stepP_sorted {f f' : Forest} {op : Op} (hs : SortedForest f)
    (h : stepP f op = some f') : SortedForest f' := by
  rcases stepP_cases h with ⟨-, nf, -, he⟩ |
    ⟨-, ⟨-, he⟩ | ⟨p, -, -, ⟨-, he⟩ | ⟨nf, -, ⟨-, he⟩ | ⟨-, he⟩⟩⟩⟩ <;>
    rw [he] <;> first | exact hs | exact finsert_sorted hs

theorem replayPFrom_dom_mono {ops : List Op} {f f' : Forest} {x : ID}
    (h : replayPFrom f ops = some f') (hx : (fget f x).isSome = true) :
    (fget f' x).isSome = true := by
  unfold replayPFrom at h
  exact foldlM_option_inv (fun g => (fget g x).isSome = true) stepP
    (fun a b a' hp hs => stepP_dom_mono hs hp) ops f f' h hx

theorem replayPFrom_dom {ops : List Op} :
    ∀ {f f' : Forest}, replayPFrom f ops = some f' →
      ∀ op ∈ ops, (fget f' op.node).isSome = true := by
  induction ops with
  | nil => intro f f' h op hop; simp at hop
  | cons o t ih =>
    intro f f' h op hop
    unfold replayPFrom at h
    rw [List.foldlM_cons] at h
    cases hs : stepP f o with
    | none => rw [hs] at h; exact absurd h (by simp)
    | some f1 =>
      rw [hs] at h
      simp only [Option.bind_eq_bind, Option.some_bind] at h
      rcases List.mem_cons.mp hop with hop | hop
      · subst hop
        exact replayPFrom_dom_mono h (stepP_dom_self hs)
      · exact ih h op hop

theorem expFlag_append1 (P : List Op) (op : Op) (x : ID) (b : Bool) :
    expFlag (P ++ [op]) x b =
      if op.node = x ∧ op.isSetter = true then op.setterVal else expFlag P x b := by
  unfold expFlag
  rw [List.foldl_append]
  rfl

theorem expFlag_of_noSetter {P : List Op} {x : ID} (h : NoSetterFor P x) (b : Bool) :
    expFlag P x b = b := by
  induction P generalizing b with
  | nil => rfl
  | cons op t ih =>
    unfold expFlag
    rw [List.foldl_cons]
    have hcond : ¬(op.node = x ∧ op.isSetter = true) := by
      rintro ⟨h1, h2⟩
      rw [h op (List.mem_cons_self op t) h1] at h2
      exact Bool.noConfusion h2
    rw [if_neg hcond]
    exact ih (fun o ho hn => h o (List.mem_cons_of_mem op ho) hn) b

theorem isAncestorOfAux_mono {f : Forest} {a : ID} :
    ∀ {fuel fuel' : Nat} {cur : ID} {r : Bool}, fuel ≤ fuel' →
      isAncestorOfAux f a fuel cur = some r →
      isAncestorOfAux f a fuel' cur = some r := by
  intro fuel
  induction fuel with
  | zero => intro fuel' cur r _ h; simp [isAncestorOfAux] at h
  | succ k ih =>
    intro fuel' cur r hle h
    cases fuel' with
    | zero => omega
    | succ k' =>
      unfold isAncestorOfAux at h ⊢
      cases hg : fget f cur with
      | none =>
        rw [hg] at h
        simp at h
      | some node =>
        rw [hg] at h
        dsimp only at h ⊢
        cases hp : node.parent with
        | none =>
          rw [hp] at h
          dsimp only at h ⊢
          exact h
        | some p =>
          rw [hp] at h
          dsimp only at h ⊢
          by_cases hpa : p = a
          · rw [if_pos hpa] at h ⊢
            exact h
          · rw [if_neg hpa] at h ⊢
            by_cases hpc : p = cur
            · rw [if_pos hpc] at h
              simp at h
            · rw [if_neg hpc] at h ⊢
              exact ih (by omega) h

theorem isAncestorOfAux_congr {C D : Forest} {a : ID}
    (hpar : ∀ x nc nd, fget C x = some nc → fget D x = some nd →
      nd.parent = nc.parent)
    (hdom : ∀ x, (fget C x).isSome = true → (fget D x).isSome = true)
    (hpm : ParentsInMap C) :
    ∀ (fuel : Nat) (cur : ID), (fget C cur).isSome = true →
      isAncestorOfAux D a fuel cur = isAncestorOfAux C a fuel cur := by
  intro fuel
  induction fuel with
  | zero => intro cur _; rfl
  | succ k ih =>
    intro cur hcur
    obtain ⟨nc, hnc⟩ := Option.isSome_iff_exists.mp hcur
    obtain ⟨nd, hnd⟩ := Option.isSome_iff_exists.mp (hdom cur hcur)
    unfold isAncestorOfAux
    rw [hnc, hnd]
    dsimp only
    rw [hpar cur nc nd hnc hnd]
    cases hp : nc.parent with
    | none => rfl
    | some p =>
      dsimp only
      by_cases hpa : p = a
      · simp only [if_pos hpa]
      · simp only [if_neg hpa]
        by_cases hpc : p = cur
        · simp only [if_pos hpc]
        · simp only [if_neg hpc]
          refine ih p ?_
          refine hpm cur p ?_
          unfold ParentStep parentOf
          rw [hnc]
          simpa using hp

theorem sorted_keys_nodup {f : Forest} (hs : SortedForest f) :
    (f.map Prod.fst).Nodup := by
  have h1 : (f.map Prod.fst).Pairwise (fun a b : ID => a < b) :=
    List.pairwise_map.mpr hs
  exact h1.imp ne_of_lt

theorem dom_length_le {C D : Forest} (hsC : SortedForest C) (hsD : SortedForest D)
    (hdom : ∀ x, (fget C x).isSome = true → (fget D x).isSome = true) :
    C.length ≤ D.length := by
  have hnC := sorted_keys_nodup hsC
  have hsub : ∀ x ∈ C.map Prod.fst, x ∈ D.map Prod.fst := by
    intro x hx
    exact fget_isSome_iff.mp (hdom x (fget_isSome_iff.mpr hx))
  calc C.length = (C.map Prod.fst).length := (List.length_map _ _).symm
    _ = (C.map Prod.fst).toFinset.card := (List.toFinset_card_of_nodup hnC).symm
    _ ≤ (D.map Prod.fst).toFinset.card := by
        apply Finset.card_le_card
        intro x hx
        simp only [List.mem_toFinset] at hx ⊢
        exact hsub x hx
    _ ≤ (D.map Prod.fst).length := List.toFinset_card_le _
    _ = D.length := List.length_map _ _

theorem isAncestorOf_sim {C D : Forest} {a b : ID}
    (hpar : ∀ x nc nd, fget C x = some nc → fget D x = some nd →
      nd.parent = nc.parent)
    (hdom : ∀ x, (fget C x).isSome = true → (fget D x).isSome = true)
    (hwfC : WFForest C) (hsC : SortedForest C) (hsD : SortedForest D)
    (hb : (fget C b).isSome = true) :
    isAncestorOf D a b = isAncestorOf C a b ∧ isAncestorOf C a b ≠ none := by
  have hlen : C.length ≤ D.length := dom_length_le hsC hsD hdom
  have hne := @isAncestorOf_ne_none C a b hwfC.1 hwfC.2 hb
  refine ⟨?_, hne⟩
  unfold isAncestorOf
  by_cases hab : a = b
  · simp only [if_pos hab]
  · simp only [if_neg hab]
    cases hr : isAncestorOfAux C a (C.length + 1) b with
    | none =>
      exfalso
      apply hne
      unfold isAncestorOf
      rw [if_neg hab, hr]
    | some r =>
      rw [isAncestorOfAux_congr hpar hdom hwfC.1 (D.length + 1) b hb]
      rw [isAncestorOfAux_mono (by omega) hr]

theorem simRel_some_some {d0 : Forest} {P : List Op} {C D : Forest} {x : ID}
    {nc nd : TreeNode} (hrel : SimRel d0 P C D)
    (h1 : fget C x = some nc) (h2 : fget D x = some nd) :
    nd.parent = nc.parent ∧ nc.deleted = expFlag P x false ∧
      nd.deleted = expFlag P x (((fget d0 x).map TreeNode.deleted).getD false) := by
  have h := hrel x
  rw [h1, h2] at h
  exact h

theorem simRel_none_some {d0 : Forest} {P : List Op} {C D : Forest} {x : ID}
    {nd : TreeNode} (hrel : SimRel d0 P C D)
    (h1 : fget C x = none) (h2 : fget D x = some nd) :
    fget d0 x = some nd ∧ NoSetterFor P x := by
  have h := hrel x
  rw [h1, h2] at h
  exact h

theorem simRel_none_none {d0 : Forest} {P : List Op} {C D : Forest} {x : ID}
    (hrel : SimRel d0 P C D) (h1 : fget C x = none) (h2 : fget D x = none) :
    fget d0 x = none ∧ NoSetterFor P x := by
  have h := hrel x
  rw [h1, h2] at h
  exact h

theorem simRel_dom {d0 : Forest} {P : List Op} {C D : Forest}
    (hrel : SimRel d0 P C D) :
    ∀ x, (fget C x).isSome = true → (fget D x).isSome = true := by
  intro x hx
  obtain ⟨nc, hnc⟩ := Option.isSome_iff_exists.mp hx
  cases hd : fget D x with
  | none =>
    have h := hrel x
    rw [hnc, hd] at h
    exact h.elim
  | some nd => rfl

theorem simRel_par {d0 : Forest} {P : List Op} {C D : Forest}
    (hrel : SimRel d0 P C D) :
    ∀ x nc nd, fget C x = some nc → fget D x = some nd →
      nd.parent = nc.parent := by
  intro x nc nd h1 h2
  exact (simRel_some_some hrel h1 h2).1

theorem noSetterFor_append1 {P : List Op} {x : ID} {op : Op}
    (h : NoSetterFor P x) (hne : op.node ≠ x) : NoSetterFor (P ++ [op]) x := by
  intro o ho hn
  rcases List.mem_append.mp ho with ho | ho
  · exact h o ho hn
  · simp only [List.mem_singleton] at ho
    subst ho
    exact absurd hn hne

theorem expFlag_append_nonsetter {P : List Op} {op : Op} {x : ID} {b : Bool}
    (h : op.isSetter = false) : expFlag (P ++ [op]) x b = expFlag P x b := by
  rw [expFlag_append1]
  rw [if_neg]
  rintro ⟨-, h2⟩
  rw [h] at h2
  exact Bool.noConfusion h2

theorem expFlag_append_setter {P : List Op} {op : Op} {b : Bool}
    (h : op.isSetter = true) :
    expFlag (P ++ [op]) op.node b = op.setterVal := by
  rw [expFlag_append1, if_pos ⟨rfl, h⟩]

theorem simRel_update {d0 : Forest} {P : List Op} {C D C' D' : Forest} {op : Op}
    {nc' nd' : TreeNode}
    (hrel : SimRel d0 P C D)
    (hCo : ∀ x, x ≠ op.node → fget C' x = fget C x)
    (hDo : ∀ x, x ≠ op.node → fget D' x = fget D x)
    (hCn : fget C' op.node = some nc')
    (hDn : fget D' op.node = some nd')
    (hpp : nd'.parent = nc'.parent)
    (hfc : nc'.deleted = expFlag (P ++ [op]) op.node false)
    (hfd : nd'.deleted = expFlag (P ++ [op]) op.node
      (((fget d0 op.node).map TreeNode.deleted).getD false)) :
    SimRel d0 (P ++ [op]) C' D' := by
  intro x
  by_cases hx : x = op.node
  · subst hx
    rw [hCn, hDn]
    exact ⟨hpp, hfc, hfd⟩
  · rw [hCo x hx, hDo x hx]
    have hne : op.node ≠ x := fun he => hx he.symm
    have hcond : ¬(op.node = x ∧ op.isSetter = true) := fun hc => hne hc.1
    cases hgc : fget C x with
    | none =>
      cases hgd : fget D x with
      | none =>
        obtain ⟨h1, h2⟩ := simRel_none_none hrel hgc hgd
        exact ⟨h1, noSetterFor_append1 h2 hne⟩
      | some nd =>
        obtain ⟨h1, h2⟩ := simRel_none_some hrel hgc hgd
        exact ⟨h1, noSetterFor_append1 h2 hne⟩
    | some nc =>
      cases hgd : fget D x with
      | none =>
        have h := hrel x
        rw [hgc, hgd] at h
        exact h.elim
      | some nd =>
        obtain ⟨h1, h2, h3⟩ := simRel_some_some hrel hgc hgd
        refine ⟨h1, ?_, ?_⟩
        · rw [expFlag_append1, if_neg hcond]
          exact h2
        · rw [expFlag_append1, if_neg hcond]
          exact h3

theorem movSwallowP_root (f : Forest) (n : ID) :
    movSwallow Forest.movP f n none = some (finsert f n ⟨none, false⟩) := rfl

theorem movSwallowP_insert {f : Forest} {n p : ID}
    (hp : (fget f p).isSome = true) (hn : fget f n = none) :
    movSwallow Forest.movP f n (some p) = some (finsert f n ⟨some p, false⟩) := by
  unfold movSwallow Forest.movP
  dsimp only
  rw [if_pos hp, if_neg (show ¬(fget f n).isSome = true by rw [hn]; simp)]

theorem movSwallowP_checked {f : Forest} {n p : ID} {nf : TreeNode}
    (hp : (fget f p).isSome = true) (hn : fget f n = some nf)
    (ha : isAncestorOf f n p = some false) :
    movSwallow Forest.movP f n (some p) =
      some (finsert f n ⟨some p, nf.deleted⟩) := by
  unfold movSwallow Forest.movP
  dsimp only
  rw [if_pos hp, if_pos (show (fget f n).isSome = true by rw [hn]; rfl), ha, hn]
  rfl

theorem movSwallowP_error {f : Forest} {n p : ID}
    (hp : (fget f p).isSome = true) (hn : (fget f n).isSome = true)
    (ha : isAncestorOf f n p = some true) :
    movSwallow Forest.movP f n (some p) = some f := by
  unfold movSwallow Forest.movP
  dsimp only
  rw [if_pos hp, if_pos hn, ha]

theorem sim_step_mov {d0 : Forest} {P : List Op} {C D D' : Forest} {op : Op}
    (hwfC : WFForest C) (hsC : SortedForest C) (hsD : SortedForest D)
    (hrel : SimRel d0 P C D)
    (hparwit : ∀ p, op.parentRef = some p → (fget C p).isSome = true)
    (hD : movSwallow Forest.movP D op.node op.parentRef = some D')
    (hsets : op.parentRef = none → op.isSetter = true ∧ op.setterVal = false)
    (hnsets : ∀ p, op.parentRef = some p → op.isSetter = false) :
    ∃ C', movSwallow Forest.movP C op.node op.parentRef = some C' ∧
      SimRel d0 (P ++ [op]) C' D' := by
  have hdom := simRel_dom hrel
  have hpar := simRel_par hrel
  cases hpid : op.parentRef with
  | none =>
    rw [hpid] at hD
    rcases movSwallowP_cases hD with ⟨-, hD'⟩ | ⟨p, hpe, -⟩
    · subst hD'
      obtain ⟨hst, hsv⟩ := hsets hpid
      refine ⟨finsert C op.node ⟨none, false⟩, movSwallowP_root C op.node, ?_⟩
      refine simRel_update hrel
        (fun x hx => fget_finsert_ne C op.node x _ hx)
        (fun x hx => fget_finsert_ne D op.node x _ hx)
        (fget_finsert_self C op.node _) (fget_finsert_self D op.node _)
        rfl ?_ ?_ <;>
      · show false = expFlag (P ++ [op]) op.node _
        rw [expFlag_append_setter hst, hsv]
    · exact Option.noConfusion hpe
  | some p =>
    rw [hpid] at hD
    have hpC : (fget C p).isSome = true := hparwit p hpid
    have hnonset : op.isSetter = false := hnsets p hpid
    rcases movSwallowP_cases hD with ⟨hpe, -⟩ | ⟨p', hpe, hpD, hbr⟩
    · exact Option.noConfusion hpe
    · rw [Option.some.injEq] at hpe
      subst hpe
      rcases hbr with ⟨hDn, hD'⟩ | ⟨ndf, hDn, hchk⟩
      · -- D inserts a fresh node; C must be fresh too
        cases hgc : fget C op.node with
        | some nc =>
          have h := hrel op.node
          rw [hgc, hDn] at h
          exact h.elim
        | none =>
          obtain ⟨hd0, hns⟩ := simRel_none_none hrel hgc hDn
          subst hD'
          refine ⟨finsert C op.node ⟨some p, false⟩,
            movSwallowP_insert hpC hgc, ?_⟩
          refine simRel_update hrel
            (fun x hx => fget_finsert_ne C op.node x _ hx)
            (fun x hx => fget_finsert_ne D op.node x _ hx)
            (fget_finsert_self C op.node _) (fget_finsert_self D op.node _)
            rfl ?_ ?_
          · show false = expFlag (P ++ [op]) op.node false
            rw [expFlag_append_nonsetter hnonset, expFlag_of_noSetter hns]
          · show false = expFlag (P ++ [op]) op.node _
            rw [expFlag_append_nonsetter hnonset, expFlag_of_noSetter hns, hd0]
            rfl
      · -- D's node is contained (possibly stale)
        cases hgc : fget C op.node with
        | none =>
          -- stale in D, fresh in C: the cycle check must answer `false`
          obtain ⟨hd0, hns⟩ := simRel_none_some hrel hgc hDn
          have hnep : op.node ≠ p := by
            intro he
            rw [← he, hgc] at hpC
            exact Bool.noConfusion hpC
          have hCchk : isAncestorOf C op.node p = some false := by
            have h1 := @isAncestorOf_ne_none C op.node p hwfC.1 hwfC.2 hpC
            cases hr : isAncestorOf C op.node p with
            | none => exact absurd hr h1
            | some b =>
              cases b with
              | false => rfl
              | true =>
                exfalso
                rcases (isAncestorOf_spec hwfC.1 hwfC.2 hpC).mp hr with he | htg
                · exact hnep he
                · rcases (Relation.transGen_iff _ _ _).mp htg with hstep |
                    ⟨y, -, hstep⟩ <;>
                  · have := hwfC.1 _ _ hstep
                    rw [hgc] at this
                    exact Bool.noConfusion this
          have hDchk : isAncestorOf D op.node p = some false := by
            rw [(@isAncestorOf_sim C D op.node p hpar hdom hwfC hsC hsD hpC).1]
            exact hCchk
          rcases hchk with ⟨ha, hD'⟩ | ⟨ha, hD'⟩
          · rw [hDchk] at ha
            exact absurd ha (by simp)
          · subst hD'
            refine ⟨finsert C op.node ⟨some p, false⟩,
              movSwallowP_insert hpC hgc, ?_⟩
            refine simRel_update hrel
              (fun x hx => fget_finsert_ne C op.node x _ hx)
              (fun x hx => fget_finsert_ne D op.node x _ hx)
              (fget_finsert_self C op.node _) (fget_finsert_self D op.node _)
              rfl ?_ ?_
            · show false = expFlag (P ++ [op]) op.node false
              rw [expFlag_append_nonsetter hnonset, expFlag_of_noSetter hns]
            · show ndf.deleted = expFlag (P ++ [op]) op.node _
              rw [expFlag_append_nonsetter hnonset, expFlag_of_noSetter hns, hd0]
              rfl
        | some nc =>
          obtain ⟨hpp0, hfc0, hfd0⟩ := simRel_some_some hrel hgc hDn
          have hsim := (@isAncestorOf_sim C D op.node p hpar hdom hwfC hsC hsD hpC).1
          rcases hchk with ⟨ha, hD'⟩ | ⟨ha, hD'⟩
          · -- cyclic in both: swallowed no-op on both sides
            have hCchk : isAncestorOf C op.node p = some true := by
              rw [← hsim]; exact ha
            subst hD'
            refine ⟨C, movSwallowP_error hpC
              (show (fget C op.node).isSome = true by rw [hgc]; rfl) hCchk, ?_⟩
            refine simRel_update hrel (fun x hx => rfl) (fun x hx => rfl)
              hgc hDn hpp0 ?_ ?_
            · rw [expFlag_append_nonsetter hnonset]
              exact hfc0
            · rw [expFlag_append_nonsetter hnonset]
              exact hfd0
          · -- clean move on both sides
            have hCchk : isAncestorOf C op.node p = some false := by
              rw [← hsim]; exact ha
            subst hD'
            refine ⟨finsert C op.node ⟨some p, nc.deleted⟩,
              movSwallowP_checked hpC hgc hCchk, ?_⟩
            refine simRel_update hrel
              (fun x hx => fget_finsert_ne C op.node x _ hx)
              (fun x hx => fget_finsert_ne D op.node x _ hx)
              (fget_finsert_self C op.node _) (fget_finsert_self D op.node _)
              rfl ?_ ?_
            · show nc.deleted = expFlag (P ++ [op]) op.node false
              rw [expFlag_append_nonsetter hnonset]
              exact hfc0
            · show ndf.deleted = expFlag (P ++ [op]) op.node _
              rw [expFlag_append_nonsetter hnonset]
              exact hfd0

theorem stepP_eq_delete {f : Forest} {op : Op} {t : ID} {nf : TreeNode}
    (hc : op.content = OpContent.delete t) (hg : fget f t = some nf) :
    stepP f op = some (finsert f t ⟨nf.parent, true⟩) := by
  unfold stepP
  rw [hc]
  dsimp only
  unfold Forest.delete
  rw [hg]
  rfl

theorem sim_step {d0 : Forest} {P : List Op} {C D D' : Forest} {op : Op}
    (hwfC : WFForest C) (hsC : SortedForest C) (hsD : SortedForest D)
    (hrel : SimRel d0 P C D)
    (hparwit : ∀ p, op.parentRef = some p → (fget C p).isSome = true)
    (hdelwit : ∀ t, op.content = OpContent.delete t → (fget C t).isSome = true)
    (hD : stepP D op = some D') :
    ∃ C', stepP C op = some C' ∧ SimRel d0 (P ++ [op]) C' D' := by
  cases hc : op.content with
  | new pid =>
    have hnode : op.node = op.id := by simp [Op.node, hc]
    have hpr : op.parentRef = pid := by simp [Op.parentRef, hc]
    have hD' : movSwallow Forest.movP D op.node op.parentRef = some D' := by
      rw [hnode, hpr]
      unfold stepP at hD
      rw [hc] at hD
      exact hD
    obtain ⟨C', hC', hrel'⟩ := sim_step_mov hwfC hsC hsD hrel hparwit hD'
      (fun h => by rw [hpr] at h; subst h; simp [Op.isSetter, Op.setterVal, hc])
      (fun p h => by rw [hpr] at h; rw [h] at hc; simp [Op.isSetter, hc])
    refine ⟨C', ?_, hrel'⟩
    unfold stepP
    rw [hc]
    rw [hnode, hpr] at hC'
    exact hC'
  | move t pid =>
    have hnode : op.node = t := by simp [Op.node, hc]
    have hpr : op.parentRef = pid := by simp [Op.parentRef, hc]
    have hD' : movSwallow Forest.movP D op.node op.parentRef = some D' := by
      rw [hnode, hpr]
      unfold stepP at hD
      rw [hc] at hD
      exact hD
    obtain ⟨C', hC', hrel'⟩ := sim_step_mov hwfC hsC hsD hrel hparwit hD'
      (fun h => by rw [hpr] at h; subst h; simp [Op.isSetter, Op.setterVal, hc])
      (fun p h => by rw [hpr] at h; rw [h] at hc; simp [Op.isSetter, hc])
    refine ⟨C', ?_, hrel'⟩
    unfold stepP
    rw [hc]
    rw [hnode, hpr] at hC'
    exact hC'
  | delete t =>
    have hnode : op.node = t := by simp [Op.node, hc]
    have hst : op.isSetter = true := by simp [Op.isSetter, hc]
    have hsv : op.setterVal = true := by simp [Op.setterVal, hc]
    have htC : (fget C t).isSome = true := hdelwit t hc
    obtain ⟨nc, hnc⟩ := Option.isSome_iff_exists.mp htC
    obtain ⟨nd, hnd⟩ := Option.isSome_iff_exists.mp (simRel_dom hrel t htC)
    obtain ⟨hpp0, hfc0, hfd0⟩ := simRel_some_some hrel hnc hnd
    have hDeq : D' = finsert D t ⟨nd.parent, true⟩ := by
      rw [stepP_eq_delete hc hnd] at hD
      simpa using hD.symm
    subst hDeq
    refine ⟨finsert C t ⟨nc.parent, true⟩, stepP_eq_delete hc hnc, ?_⟩
    have hupd := simRel_update hrel
      (fun x hx => fget_finsert_ne C op.node x _ hx)
      (fun x hx => fget_finsert_ne D op.node x _ hx)
      (fget_finsert_self C op.node _) (fget_finsert_self D op.node _)
      (show (⟨nd.parent, true⟩ : TreeNode).parent =
        (⟨nc.parent, true⟩ : TreeNode).parent from hpp0)
      (show true = expFlag (P ++ [op]) op.node false by
        rw [expFlag_append_setter hst, hsv])
      (show true = expFlag (P ++ [op]) op.node _ by
        rw [expFlag_append_setter hst, hsv])
    rw [hnode] at hupd
    exact hupd

theorem pairwise_mid {pre rest : List Op} {op : Op}
    (h : List.Pairwise (fun a b : Op => a.id < b.id) (pre ++ op :: rest)) :
    ∀ y ∈ rest, op.id < y.id := by
  have hsub : (op :: rest).Sublist (pre ++ op :: rest) :=
    List.sublist_append_right _ _
  have h2 := List.Pairwise.sublist hsub h
  exact (List.pairwise_cons.mp h2).1

theorem mem_prefix_of_lt {pre rest : List Op} {op op' : Op}
    (h : List.Pairwise (fun a b : Op => a.id < b.id) (pre ++ op :: rest))
    (hmem : op' ∈ pre ++ op :: rest) (hlt : op'.id < op.id) : op' ∈ pre := by
  rcases List.mem_append.mp hmem with h1 | h1
  · exact h1
  · rcases List.mem_cons.mp h1 with h1 | h1
    · subst h1
      exact absurd hlt (lt_irrefl _)
    · exact absurd hlt (lt_asymm (pairwise_mid h op' h1))

theorem replayP_dom {pre : List Op} {C : Forest} (h : replayP pre = some C) :
    ∀ op ∈ pre, (fget C op.node).isSome = true := by
  unfold replayP at h
  exact replayPFrom_dom h

theorem replayP_snoc {pre : List Op} {op : Op} {C C' : Forest}
    (h1 : replayP pre = some C) (h2 : stepP C op = some C') :
    replayP (pre ++ [op]) = some C' := by
  unfold replayP replayPFrom at h1 ⊢
  rw [List.foldlM_append, h1]
  simp only [Option.bind_eq_bind, Option.some_bind, List.foldlM_cons,
    List.foldlM_nil, h2]
  rfl

theorem sim_replay {d0 : Forest} :
    ∀ (suf pre : List Op) (C D D' : Forest),
      List.Pairwise (fun a b : Op => a.id < b.id) (pre ++ suf) →
      WitnessClosed (pre ++ suf) →
      replayP pre = some C →
      WFForest C → SortedForest C → SortedForest D →
      SimRel d0 pre C D →
      replayPFrom D suf = some D' →
      ∃ C', replayPFrom C suf = some C' ∧ SimRel d0 (pre ++ suf) C' D' ∧
        replayP (pre ++ suf) = some C' ∧ WFForest C' ∧ SortedForest C' ∧
        SortedForest D' := by
  intro suf
  induction suf with
  | nil =>
    intro pre C D D' hsort hwit hC hwf hsC hsD hrel hD
    unfold replayPFrom at hD
    simp only [List.foldlM_nil, Option.pure_def, Option.some.injEq] at hD
    subst hD
    exact ⟨C, by unfold replayPFrom; simp, by simpa using hrel,
      by simpa using hC, hwf, hsC, hsD⟩
  | cons op rest ih =>
    intro pre C D D' hsort hwit hC hwf hsC hsD hrel hD
    unfold replayPFrom at hD
    rw [List.foldlM_cons] at hD
    cases hs : stepP D op with
    | none => rw [hs] at hD; exact absurd hD (by simp)
    | some D1 =>
      rw [hs] at hD
      simp only [Option.bind_eq_bind, Option.some_bind] at hD
      have hopmem : op ∈ pre ++ op :: rest :=
        List.mem_append.mpr (Or.inr (List.mem_cons_self _ _))
      have hparwit : ∀ p, op.parentRef = some p → (fget C p).isSome = true := by
        intro p hp
        obtain ⟨op', hop', hlt, hnode⟩ := (hwit op hopmem).1 p hp
        have hpre := mem_prefix_of_lt hsort hop' hlt
        have hdm := replayP_dom hC op' hpre
        rw [hnode] at hdm
        exact hdm
      have hdelwit : ∀ t, op.content = OpContent.delete t →
          (fget C t).isSome = true := by
        intro t ht
        obtain ⟨op', hop', hlt, hnode⟩ := (hwit op hopmem).2 t ht
        have hpre := mem_prefix_of_lt hsort hop' hlt
        have hdm := replayP_dom hC op' hpre
        rw [hnode] at hdm
        exact hdm
      obtain ⟨C1, hs', hrel1⟩ := sim_step hwf hsC hsD hrel hparwit hdelwit hs
      have hwf1 := stepP_wf hwf hs'
      have hsC1 := stepP_sorted hsC hs'
      have hsD1 := stepP_sorted hsD hs
      have hC1 : replayP (pre ++ [op]) = some C1 := replayP_snoc hC hs'
      have hassoc : (pre ++ [op]) ++ rest = pre ++ op :: rest := by simp
      have hDrest : replayPFrom D1 rest = some D' := hD
      obtain ⟨C', hrep, hrel', hclean, hwf', hsC', hsD'⟩ :=
        ih (pre ++ [op]) C1 D1 D' (by rw [hassoc]; exact hsort)
          (by rw [hassoc]; exact hwit) hC1 hwf1 hsC1 hsD1 hrel1 hDrest
      refine ⟨C', ?_, ?_, ?_, hwf', hsC', hsD'⟩
      · unfold replayPFrom
        rw [List.foldlM_cons, hs']
        simp only [Option.bind_eq_bind, Option.some_bind]
        unfold replayPFrom at hrep
        exact hrep
      · rw [← hassoc]
        exact hrel'
      · rw [← hassoc]
        exact hclean

theorem simRel_init (d0 : Forest) : SimRel d0 [] [] d0 := by
  intro x
  cases hd : fget d0 x with
  | none => exact ⟨rfl, fun op h => absurd h (List.not_mem_nil op)⟩
  | some nd => exact ⟨rfl, fun op h => absurd h (List.not_mem_nil op)⟩

theorem expFlag_setter_indep {L : List Op} {x : ID}
    (h : ∃ op ∈ L, op.node = x ∧ op.isSetter = true) (b b' : Bool) :
    expFlag L x b = expFlag L x b' := by
  induction L generalizing b b' with
  | nil => obtain ⟨op, hop, -⟩ := h; exact absurd hop (List.not_mem_nil op)
  | cons o t ih =>
    unfold expFlag
    rw [List.foldl_cons, List.foldl_cons]
    by_cases hcond : o.node = x ∧ o.isSetter = true
    · rw [if_pos hcond, if_pos hcond]
    · rw [if_neg hcond, if_neg hcond]
      obtain ⟨op, hop, hhh⟩ := h
      rcases List.mem_cons.mp hop with hop | hop
      · exact absurd (hop ▸ hhh) hcond
      · exact ih ⟨op, hop, hhh⟩ b b'

theorem stepP_flag_false {f f' : Forest} {op : Op} {x : ID}
    (h : stepP f op = some f') (hns : op.node = x → op.isSetter = false)
    (hP : ∀ n, fget f x = some n → n.deleted = false) :
    ∀ n, fget f' x = some n → n.deleted = false := by
  intro n hn
  by_cases hx : x = op.node
  · subst hx
    rcases stepP_cases h with ⟨⟨t, hct⟩, nf, hg, he⟩ |
      ⟨-, ⟨-, he⟩ | ⟨p, -, -, ⟨-, he⟩ | ⟨nf, hg, ⟨-, he⟩ | ⟨-, he⟩⟩⟩⟩
    · exfalso
      have h1 := hns rfl
      rw [show op.isSetter = true by simp [Op.isSetter, hct]] at h1
      exact Bool.noConfusion h1
    · rw [he, fget_finsert_self] at hn
      simp only [Option.some.injEq] at hn
      rw [← hn]
    · rw [he, fget_finsert_self] at hn
      simp only [Option.some.injEq] at hn
      rw [← hn]
    · rw [he] at hn
      exact hP n hn
    · rw [he, fget_finsert_self] at hn
      simp only [Option.some.injEq] at hn
      rw [← hn]
      exact hP nf hg
  · rw [stepP_fget_other h hx] at hn
    exact hP n hn

theorem replay_flag_false {x : ID} :
    ∀ {ops : List Op} {f f' : Forest}, replayPFrom f ops = some f' →
      (∀ op ∈ ops, op.node = x → op.isSetter = false) →
      (∀ n, fget f x = some n → n.deleted = false) →
      ∀ n, fget f' x = some n → n.deleted = false := by
  intro ops
  induction ops with
  | nil =>
    intro f f' h hns hP
    unfold replayPFrom at h
    simp only [List.foldlM_nil, Option.pure_def, Option.some.injEq] at h
    exact h ▸ hP
  | cons o t ih =>
    intro f f' h hns hP
    unfold replayPFrom at h
    rw [List.foldlM_cons] at h
    cases hs : stepP f o with
    | none => rw [hs] at h; exact absurd h (by simp)
    | some f1 =>
      rw [hs] at h
      simp only [Option.bind_eq_bind, Option.some_bind] at h
      exact ih h (fun op hop => hns op (List.mem_cons_of_mem o hop))
        (stepP_flag_false hs (hns o (List.mem_cons_self o t)) hP)

theorem replayPFrom_sorted {ops : List Op} {f f' : Forest}
    (h : replayPFrom f ops = some f') (hs : SortedForest f) : SortedForest f' := by
  unfold replayPFrom at h
  exact foldlM_option_inv SortedForest stepP
    (fun a b a' hp hstep => stepP_sorted hp hstep) ops f f' h hs

theorem replayPFrom_dom_sub {ops : List Op} :
    ∀ {f f' : Forest} {x : ID}, replayPFrom f ops = some f' →
      (fget f' x).isSome = true →
      (fget f x).isSome = true ∨ ∃ op ∈ ops, op.node = x := by
  induction ops with
  | nil =>
    intro f f' x h hx
    unfold replayPFrom at h
    simp only [List.foldlM_nil, Option.pure_def, Option.some.injEq] at h
    exact Or.inl (h ▸ hx)
  | cons o t ih =>
    intro f f' x h hx
    unfold replayPFrom at h
    rw [List.foldlM_cons] at h
    cases hs : stepP f o with
    | none => rw [hs] at h; exact absurd h (by simp)
    | some f1 =>
      rw [hs] at h
      simp only [Option.bind_eq_bind, Option.some_bind] at h
      rcases ih h hx with h1 | ⟨op, hop, hnode⟩
      · by_cases hxo : x = o.node
        · exact Or.inr ⟨o, List.mem_cons_self o t, hxo.symm⟩
        · rw [stepP_fget_other hs hxo] at h1
          exact Or.inl h1
      · exact Or.inr ⟨op, List.mem_cons_of_mem o hop, hnode⟩

theorem simRel_final {d0 : Forest} {L : List Op} {C D : Forest}
    (hrel : SimRel d0 L C D) (hsC : SortedForest C) (hsD : SortedForest D)
    (hdomC : ∀ x, (fget d0 x).isSome = true → (fget C x).isSome = true)
    (hd0flag : ∀ x, NoSetterFor L x → ∀ n, fget d0 x = some n →
      n.deleted = false) :
    D = C := by
  apply forest_ext hsD hsC
  intro x
  cases hgc : fget C x with
  | none =>
    cases hgd : fget D x with
    | none => rfl
    | some nd =>
      obtain ⟨hd0, -⟩ := simRel_none_some hrel hgc hgd
      have h1 := hdomC x (by rw [hd0]; rfl)
      rw [hgc] at h1
      exact absurd h1 (by simp)
  | some nc =>
    cases hgd : fget D x with
    | none =>
      have h := hrel x
      rw [hgc, hgd] at h
      exact h.elim
    | some nd =>
      obtain ⟨hpp, hfc, hfd⟩ := simRel_some_some hrel hgc hgd
      have hflag : nd.deleted = nc.deleted := by
        by_cases hset : ∃ op ∈ L, op.node = x ∧ op.isSetter = true
        · rw [hfd, hfc]
          exact expFlag_setter_indep hset _ _
        · have hns : NoSetterFor L x := by
            intro op hop hnode
            by_contra hcon
            exact hset ⟨op, hop, hnode, by
              cases hsv : op.isSetter with
              | true => rfl
              | false => exact absurd hsv hcon⟩
          rw [hfd, hfc, expFlag_of_noSetter hns, expFlag_of_noSetter hns]
          cases hd0 : fget d0 x with
          | none => rfl
          | some n0 =>
            simp only [Option.map_some', Option.getD_some]
            exact hd0flag x hns n0 hd0
      have hnode : nd = nc := by
        cases nd with
        | mk ndp ndd =>
          cases nc with
          | mk ncp ncd =>
            simp only at hpp hflag
            rw [hpp, hflag]
      rw [hnode]


theorem sortOps_sorted (l : List Op) : List.Pairwise opLE (sortOps l) :=
  List.sorted_insertionSort opLE l

theorem sortOps_perm (l : List Op) : (sortOps l).Perm l :=
  List.perm_insertionSort opLE l

theorem pairwise_lt_of_sorted_nodup {L : List Op}
    (hs : List.Pairwise opLE L) (hn : (L.map Op.id).Nodup) :
    List.Pairwise (fun a b : Op => a.id < b.id) L := by
  have hne : List.Pairwise (fun a b : Op => a.id ≠ b.id) L :=
    List.pairwise_map.mp hn
  exact List.Pairwise.imp₂ (fun a b h1 h2 => lt_of_le_of_ne h1 h2) hs hne

theorem witnessClosed_perm {l l' : List Op} (hp : l.Perm l')
    (h : WitnessClosed l) : WitnessClosed l' := by
  intro op hop
  obtain ⟨h1, h2⟩ := h op (hp.mem_iff.mpr hop)
  constructor
  · intro p hpr
    obtain ⟨op', ho', hlt, hn⟩ := h1 p hpr
    exact ⟨op', hp.mem_iff.mp ho', hlt, hn⟩
  · intro t ht
    obtain ⟨op', ho', hlt, hn⟩ := h2 t ht
    exact ⟨op', hp.mem_iff.mp ho', hlt, hn⟩

theorem collect_fc2_snap (l : OpLog) :
    ∀ (st : Crdt) (ans : List Op),
      (l.foldl Crdt.collectStep (st, ans)).1.sortedOps = st.sortedOps ∧
      (l.foldl Crdt.collectStep (st, ans)).1.appliedEnd = st.appliedEnd := by
  induction l with
  | nil => intro st ans; exact ⟨rfl, rfl⟩
  | cons e t ih =>
    intro st ans
    rw [List.foldl_cons, snap_collectStep_eq]
    split
    · exact ⟨(ih _ _).1, (ih _ _).2⟩
    · exact ih st ans

theorem applyStep_decomp {acc acc' : Forest × LogSpacedSnapshots ID Forest}
    {op : Op} (h : Crdt.applyStep acc op = some acc') :
    stepP acc.1 op = some acc'.1 ∧ acc.2.push op.id acc'.1 = some acc'.2 := by
  unfold Crdt.applyStep at h
  cases hc : op.content with
  | new parent =>
    rw [hc] at h
    dsimp only at h
    cases hm : movSwallow Forest.movP acc.1 op.id parent with
    | none => rw [hm] at h; exact absurd h (by simp)
    | some g =>
      rw [hm] at h
      simp only [Option.bind_eq_bind, Option.some_bind] at h
      cases hp : acc.2.push op.id g with
      | none => rw [hp] at h; exact absurd h (by simp)
      | some c' =>
        rw [hp] at h
        simp only [Option.some_bind, Option.pure_def, Option.some.injEq] at h
        rw [← h]
        refine ⟨?_, hp⟩
        unfold stepP
        rw [hc]
        exact hm
  | move target parent =>
    rw [hc] at h
    dsimp only at h
    cases hm : movSwallow Forest.movP acc.1 target parent with
    | none => rw [hm] at h; exact absurd h (by simp)
    | some g =>
      rw [hm] at h
      simp only [Option.bind_eq_bind, Option.some_bind] at h
      cases hp : acc.2.push op.id g with
      | none => rw [hp] at h; exact absurd h (by simp)
      | some c' =>
        rw [hp] at h
        simp only [Option.some_bind, Option.pure_def, Option.some.injEq] at h
        rw [← h]
        refine ⟨?_, hp⟩
        unfold stepP
        rw [hc]
        exact hm
  | delete target =>
    rw [hc] at h
    dsimp only at h
    cases hm : Forest.delete acc.1 target with
    | none => rw [hm] at h; exact absurd h (by simp)
    | some g =>
      rw [hm] at h
      simp only [Option.bind_eq_bind, Option.some_bind] at h
      cases hp : acc.2.push op.id g with
      | none => rw [hp] at h; exact absurd h (by simp)
      | some c' =>
        rw [hp] at h
        simp only [Option.some_bind, Option.pure_def, Option.some.injEq] at h
        rw [← h]
        refine ⟨?_, hp⟩
        unfold stepP
        rw [hc]
        exact hm

theorem applyStep_fold_forest :
    ∀ (ops : List Op) (f0 : Forest) (c0 : LogSpacedSnapshots ID Forest)
      (f : Forest) (c : LogSpacedSnapshots ID Forest),
      ops.foldlM Crdt.applyStep (f0, c0) = some (f, c) →
      replayPFrom f0 ops = some f := by
  intro ops
  induction ops with
  | nil =>
    intro f0 c0 f c h
    simp only [List.foldlM_nil, Option.pure_def, Option.some.injEq,
      Prod.mk.injEq] at h
    unfold replayPFrom
    simp only [List.foldlM_nil, Option.pure_def, Option.some.injEq]
    exact h.1
  | cons o t ih =>
    intro f0 c0 f c h
    rw [List.foldlM_cons] at h
    cases ha : Crdt.applyStep (f0, c0) o with
    | none => rw [ha] at h; exact absurd h (by simp)
    | some acc1 =>
      rw [ha] at h
      simp only [Option.bind_eq_bind, Option.some_bind] at h
      obtain ⟨hstep, -⟩ := applyStep_decomp ha
      obtain ⟨f1, c1⟩ := acc1
      unfold replayPFrom
      rw [List.foldlM_cons, hstep]
      simp only [Option.bind_eq_bind, Option.some_bind]
      have := ih f1 c1 f c h
      unfold replayPFrom at this
      exact this

/-- **Claim C5** — the snapshot variant's merge in the `None` case of
`pop_till_snapshot_lte` (no cached snapshot at or before the smallest
incoming op id): under the state invariants of a snapshot replica (its
`sorted_ops` are sorted by id, its forest is the clean replay of them, ids
of all known ops are distinct, and the op set is causally closed: every
referenced parent and delete target was created by an earlier-id op), after
the merge `sorted_ops` is the id-sorted union of the local and incoming ops,
`applied_end` was reset to `0` by the rewind, and the resulting forest
equals the replay of that whole sorted union starting from the empty forest
(although the code replays from the dirty pre-merge forest). -/
theorem c5_merge_full_replay
    (s other s' : Crdt) (first : Op)
    (hsorted : List.Pairwise opLE s.sortedOps)
    (hforest : replayP s.sortedOps = some s.forest)
    (hwc : WitnessClosed (Crdt.incomingOps s other ++ s.sortedOps))
    (hnodup : ((Crdt.incomingOps s other ++ s.sortedOps).map Op.id).Nodup)
    (hhead : (sortOps (Crdt.incomingOps s other)).head? = some first)
    (hpop : (s.cache.popTillSnapshotLte first.id).1 = none)
    (hm : Crdt.merge s other = some s') :
    s'.sortedOps.Perm (Crdt.incomingOps s other ++ s.sortedOps) ∧
    List.Pairwise (fun a b : Op => a.id < b.id) s'.sortedOps ∧
    (∃ s2 : Crdt, Crdt.mergeRewind (Crdt.collectIncoming s other).1
        (sortOps (Crdt.incomingOps s other)) first.id = some s2 ∧
      s2.appliedEnd = 0 ∧ s2.sortedOps = s'.sortedOps ∧
      Crdt.applyPendingOps s2 = some s') ∧
    replayP s'.sortedOps = some s'.forest := by
  unfold Crdt.merge at hm
  cases hcoll : Crdt.collectIncoming s other with
  | mk s1 ans =>
    rw [hcoll] at hm
    dsimp only at hm
    have hans : Crdt.incomingOps s other = ans := by
      unfold Crdt.incomingOps
      rw [hcoll]
    rw [hans] at hwc hnodup hhead ⊢
    have hfc := collect_fc_snap other.log s []
    have hfc2 := collect_fc2_snap other.log s []
    rw [show other.log.foldl Crdt.collectStep (s, []) = Crdt.collectIncoming s other
      from rfl, hcoll] at hfc hfc2
    by_cases hemp : ans.isEmpty
    · exfalso
      have : ans = [] := List.isEmpty_iff.mp hemp
      rw [this] at hhead
      simp [sortOps] at hhead
    · rw [if_neg hemp] at hm
      rw [hhead] at hm
      simp only [Option.bind_eq_bind] at hm
      cases hmr : Crdt.mergeRewind s1 (sortOps ans) first.id with
      | none => rw [hmr] at hm; exact absurd hm (by simp)
      | some s2 =>
        rw [hmr] at hm
        simp only [Option.some_bind] at hm
        have hmr1 := hmr
        unfold Crdt.mergeRewind at hmr1
        have hp2 : (s1.cache.popTillSnapshotLte first.id).1 = none := by
          rw [hfc.2]
          exact hpop
        cases hpp : s1.cache.popTillSnapshotLte first.id with
        | mk popped cache' =>
          rw [hpp] at hmr1 hp2
          dsimp only at hp2
          subst hp2
          dsimp only at hmr1
          simp only [Option.some.injEq] at hmr1
          -- structural facts about s2
          have hs2so : s2.sortedOps = sortOps (sortOps ans ++ s1.sortedOps) := by
            rw [← hmr1]
          have hs2ae : s2.appliedEnd = 0 := by rw [← hmr1]
          have hs2f : s2.forest = s1.forest := by rw [← hmr1]
          have hs2c : s2.cache = cache' := by rw [← hmr1]
          -- applyPendingOps extraction
          have hm1 := hm
          unfold Crdt.applyPendingOps at hm1
          cases hfold : (s2.sortedOps.drop s2.appliedEnd).foldlM Crdt.applyStep
              (s2.forest, s2.cache) with
          | none => rw [hfold] at hm1; exact absurd hm1 (by simp)
          | some pr =>
            rw [hfold] at hm1
            obtain ⟨f, c⟩ := pr
            simp only [Option.bind_eq_bind, Option.some_bind, Option.pure_def,
              Option.some.injEq] at hm1
            have hs'f : s'.forest = f := by rw [← hm1]
            have hs'so : s'.sortedOps = s2.sortedOps := by rw [← hm1]
            rw [hs2ae, List.drop_zero, hs2f, hs2c] at hfold
            have hreplay : replayPFrom s1.forest s2.sortedOps = some f :=
              applyStep_fold_forest _ _ _ _ _ hfold
            rw [hfc.1] at hreplay
            -- properties of the sorted union L := s2.sortedOps
            have hLperm : s2.sortedOps.Perm (ans ++ s.sortedOps) := by
              rw [hs2so]
              refine (sortOps_perm _).trans ?_
              rw [hfc2.1]
              exact (sortOps_perm ans).append (List.Perm.refl _)
            have hLnodup : (s2.sortedOps.map Op.id).Nodup :=
              ((hLperm.map Op.id).nodup_iff).mpr hnodup
            have hLsorted : List.Pairwise opLE s2.sortedOps := by
              rw [hs2so]
              exact sortOps_sorted _
            have hLlt := pairwise_lt_of_sorted_nodup hLsorted hLnodup
            have hLwc : WitnessClosed s2.sortedOps :=
              witnessClosed_perm hLperm.symm hwc
            have hf0 : replayPFrom [] s.sortedOps = some s.forest := hforest
            have hsd0 : SortedForest s.forest :=
              replayPFrom_sorted hf0 List.Pairwise.nil
            obtain ⟨C', hrep, hrel', hclean, hwf', hsC', hsD'⟩ :=
              sim_replay s2.sortedOps [] [] s.forest f
                (by simpa using hLlt) (by simpa using hLwc)
                rfl wf_empty List.Pairwise.nil hsd0 (simRel_init s.forest)
                hreplay
            have hclean' : replayP s2.sortedOps = some C' := by
              simpa using hclean
            have hrelL : SimRel s.forest s2.sortedOps C' f := by
              simpa using hrel'
            have hdomC : ∀ x, (fget s.forest x).isSome = true →
                (fget C' x).isSome = true := by
              intro x hx
              rcases replayPFrom_dom_sub hf0 hx with h1 | ⟨op, hop, hnode⟩
              · simp [fget] at h1
              · have hopL : op ∈ s2.sortedOps :=
                  hLperm.mem_iff.mpr (List.mem_append.mpr (Or.inr hop))
                have := replayP_dom hclean' op hopL
                rw [hnode] at this
                exact this
            have hflag0 : ∀ x, NoSetterFor s2.sortedOps x →
                ∀ n, fget s.forest x = some n → n.deleted = false := by
              intro x hns n hn
              refine replay_flag_false hf0 ?_ ?_ n hn
              · intro op hop hnode
                exact hns op
                  (hLperm.mem_iff.mpr (List.mem_append.mpr (Or.inr hop))) hnode
              · intro n0 h0
                simp [fget] at h0
            have hDC : f = C' := simRel_final hrelL hsC' hsD' hdomC hflag0
            refine ⟨?_, ?_, ⟨s2, ?_, hs2ae, hs'so.symm, hm⟩, ?_⟩
            · rw [hs'so]
              exact hLperm
            · rw [hs'so]
              exact hLlt
            · rfl
            · rw [hs'so, hs'f, hDC]
              exact hclean'

theorem c5_merge_full_replay_witness :
    replayP [⟨⟨0, 2⟩, OpContent.new none⟩] =
      some [(⟨0, 2⟩, ⟨none, false⟩)] := by
  have hother : Crdt.newNode (Crdt.new 2) none =
      some (⟨[(⟨0, 2⟩, ⟨none, false⟩)],
        ⟨[⟨0, 2⟩], [(0, [(⟨0, 2⟩, ⟨none, false⟩)])], 2⟩,
        2, 1, [(2, [⟨⟨0, 2⟩, OpContent.new none⟩])],
        [⟨⟨0, 2⟩, OpContent.new none⟩], 1⟩, ⟨0, 2⟩) := by decide
  have hinc : Crdt.incomingOps (Crdt.new 1)
      (⟨[(⟨0, 2⟩, ⟨none, false⟩)],
        ⟨[⟨0, 2⟩], [(0, [(⟨0, 2⟩, ⟨none, false⟩)])], 2⟩,
        2, 1, [(2, [⟨⟨0, 2⟩, OpContent.new none⟩])],
        [⟨⟨0, 2⟩, OpContent.new none⟩], 1⟩) ++ (Crdt.new 1).sortedOps =
      [⟨⟨0, 2⟩, OpContent.new none⟩] := by decide
  have hwc0 : WitnessClosed [⟨⟨0, 2⟩, OpContent.new none⟩] := by
    intro o ho
    simp only [List.mem_singleton] at ho
    subst ho
    constructor
    · intro p hpr
      simp [Op.parentRef] at hpr
    · intro t ht
      exact absurd ht (by simp)
  have h := c5_merge_full_replay (Crdt.new 1)
    (⟨[(⟨0, 2⟩, ⟨none, false⟩)],
      ⟨[⟨0, 2⟩], [(0, [(⟨0, 2⟩, ⟨none, false⟩)])], 2⟩,
      2, 1, [(2, [⟨⟨0, 2⟩, OpContent.new none⟩])],
      [⟨⟨0, 2⟩, OpContent.new none⟩], 1⟩)
    (⟨[(⟨0, 2⟩, ⟨none, false⟩)],
      ⟨[⟨0, 2⟩], [(0, [(⟨0, 2⟩, ⟨none, false⟩)])], 2⟩,
      1, 0, [(2, [⟨⟨0, 2⟩, OpContent.new none⟩])],
      [⟨⟨0, 2⟩, OpContent.new none⟩], 1⟩)
    ⟨⟨0, 2⟩, OpContent.new none⟩
    List.Pairwise.nil rfl
    (by rw [hinc]; exact hwc0)
    (by rw [show (Crdt.incomingOps (Crdt.new 1)
      (⟨[(⟨0, 2⟩, ⟨none, false⟩)],
        ⟨[⟨0, 2⟩], [(0, [(⟨0, 2⟩, ⟨none, false⟩)])], 2⟩,
        2, 1, [(2, [⟨⟨0, 2⟩, OpContent.new none⟩])],
        [⟨⟨0, 2⟩, OpContent.new none⟩], 1⟩) ++ (Crdt.new 1).sortedOps) =
      [⟨⟨0, 2⟩, OpContent.new none⟩] from hinc]; decide)
    (by decide) (by decide) (by decide)
  exact h.2.2.2

/-! ## Claim C10 — the revert/re-apply round trip of `crdt_undo.rs` -/

/-- **C10** (refuted): on the reachable undo-variant state `c10State` and
`id = (1,8)` — not an op id of that state — `revert_until` followed by
re-appending the returned ops (with `old_parent = None`) and
`apply_pending_ops` does *not* restore the forest: node `(0,0)` ends up
under `(2,0)` instead of at the root.  The revert loop skips `New` ops, so
after the revert `(2,0)` is already at the root (where only the reverted op
`New (2,0)` had put it); the re-applied move `(1,9)` `(0,0) → (2,0)` then
passes the cycle check that had failed during the original application
(when `(2,0)` still hung under `(0,0)`), and lands. -/
theorem c10_revert_redo_changes_forest :
    c10RoundTrip = some
      ([(⟨0, 0⟩, ⟨none, false⟩), (⟨1, 0⟩, ⟨none, false⟩),
        (⟨2, 0⟩, ⟨none, false⟩)],
       [(⟨0, 0⟩, ⟨some ⟨2, 0⟩, false⟩), (⟨1, 0⟩, ⟨none, false⟩),
        (⟨2, 0⟩, ⟨none, false⟩)]) ∧
      ∀ fb fa : Forest, c10RoundTrip = some (fb, fa) → fb ≠ fa := by
  have he : c10RoundTrip = some
      ([(⟨0, 0⟩, ⟨none, false⟩), (⟨1, 0⟩, ⟨none, false⟩),
        (⟨2, 0⟩, ⟨none, false⟩)],
       [(⟨0, 0⟩, ⟨some ⟨2, 0⟩, false⟩), (⟨1, 0⟩, ⟨none, false⟩),
        (⟨2, 0⟩, ⟨none, false⟩)]) := by decide
  refine ⟨he, ?_⟩
  intro fb fa h
  rw [he, Option.some.injEq, Prod.mk.injEq] at h
  rw [← h.1, ← h.2]
  decide
